import Mathlib

/-!
# HumanFriendlyPasswordGenerator: the `generator` package

A shallow embedding of `src/generator/generator.go` and the properties proved about it.

Conventions of the embedding

* A Go `string` is its sequence of bytes (`GoString`); a rune is a natural number.
* Go's `int` is the 64-bit signed integer (`GOARCH=amd64`); values are carried in `Int`.
* The entropy source `randomSource` is a stream of raw outcomes; each call of `rand.Int`
  that reads the source takes the next entry, `none` meaning that the reader failed.
* A run ends by returning, by a runtime panic, or by `log.Fatalf` leaving the process.
-/

set_option autoImplicit false

namespace generator

/-! ## Strings, runes and UTF-8 -/

/-- A Go string: an immutable sequence of bytes. -/
abbrev GoString := List Nat

/-- The rune `utf8.RuneError`, U+FFFD. -/
def runeError : Nat := 0xFFFD

/-- Continuation-byte test used by the UTF-8 decoder: `lo ≤ b ≤ hi`. -/
def inRange (lo hi b : Nat) : Bool := decide (lo ≤ b) && decide (b ≤ hi)

/-- Model of `utf8.DecodeRuneInString` on a non-empty string `b :: rest`: the rune and
its width in bytes. An ill-formed or truncated sequence decodes to `(RuneError, 1)`. -/
def decodeRune (b : Nat) (rest : GoString) : Nat × Nat :=
  if b < 0x80 then (b, 1)
  else if b < 0xC2 then (runeError, 1)
  else if b < 0xE0 then
    match rest with
    | b1 :: _ =>
      if inRange 0x80 0xBF b1 then ((b - 0xC0) * 64 + (b1 - 0x80), 2) else (runeError, 1)
    | _ => (runeError, 1)
  else if b < 0xF0 then
    match rest with
    | b1 :: b2 :: _ =>
      if inRange (if b = 0xE0 then 0xA0 else 0x80) (if b = 0xED then 0x9F else 0xBF) b1
          && inRange 0x80 0xBF b2 then
        ((b - 0xE0) * 4096 + (b1 - 0x80) * 64 + (b2 - 0x80), 3)
      else (runeError, 1)
    | _ => (runeError, 1)
  else if b < 0xF5 then
    match rest with
    | b1 :: b2 :: b3 :: _ =>
      if inRange (if b = 0xF0 then 0x90 else 0x80) (if b = 0xF4 then 0x8F else 0xBF) b1
          && inRange 0x80 0xBF b2 && inRange 0x80 0xBF b3 then
        ((b - 0xF0) * 262144 + (b1 - 0x80) * 4096 + (b2 - 0x80) * 64 + (b3 - 0x80), 4)
      else (runeError, 1)
    | _ => (runeError, 1)
  else (runeError, 1)

/-- Decoding loop: `skip` bytes still belong to the rune decoded last. Each entry is a
rune together with its width. -/
def decodeAux : Nat → GoString → List (Nat × Nat)
  | _, [] => []
  | skip + 1, _ :: rest => decodeAux skip rest
  | 0, b :: rest => decodeRune b rest :: decodeAux ((decodeRune b rest).2 - 1) rest

/-- The conversion `[]rune(s)`, also the runes seen by `for _, c := range s`. -/
def decodeRunes (s : GoString) : List Nat := (decodeAux 0 s).map Prod.fst

/-- Widths in bytes of the successive runes of `s`. -/
def runeWidths (s : GoString) : List Nat := (decodeAux 0 s).map Prod.snd

/-- Model of `utf8.AppendRune`: surrogates and values above U+10FFFF are written as
`RuneError`. -/
def encodeRune (r : Nat) : GoString :=
  if r < 0x80 then [r]
  else if r < 0x800 then [0xC0 + r / 64, 0x80 + r % 64]
  else if (0xD800 ≤ r ∧ r ≤ 0xDFFF) ∨ 0x10FFFF < r then [0xEF, 0xBF, 0xBD]
  else if r < 0x10000 then [0xE0 + r / 4096, 0x80 + r / 64 % 64, 0x80 + r % 64]
  else [0xF0 + r / 262144, 0x80 + r / 4096 % 64, 0x80 + r / 64 % 64, 0x80 + r % 64]

/-- The conversion `string(runes)`. -/
def encodeRunes (rs : List Nat) : GoString := rs.flatMap encodeRune

/-- A string literal of the source, as the bytes of its UTF-8 encoding. -/
def lit (s : String) : GoString := encodeRunes (s.toList.map Char.toNat)

/-! ## Case mapping -/

/-- The Unicode case tables of Go's `unicode` package for runes above U+007F. They belong
to the standard library, not to this repository, and are taken as a parameter. -/
structure CaseTables where
  /-- `unicode.To(unicode.UpperCase, r)` for `r > 0x7F` -/
  upper : Nat → Nat
  /-- `unicode.To(unicode.LowerCase, r)` for `r > 0x7F` -/
  lower : Nat → Nat

/-- The case tables restricted to Latin-1 (U+0080 to U+00FF), where they agree with
Unicode; runes above U+00FF are left alone. Used to evaluate examples written in Latin-1. -/
def latin1 : CaseTables where
  upper := fun r =>
    if r = 0xB5 then 0x39C
    else if r = 0xFF then 0x178
    else if 0xE0 ≤ r ∧ r ≤ 0xFE ∧ r ≠ 0xF7 then r - 0x20
    else r
  lower := fun r =>
    if 0xC0 ≤ r ∧ r ≤ 0xDE ∧ r ≠ 0xD7 then r + 0x20 else r

/-- Model of `unicode.ToUpper`: ASCII is handled inline, the rest by the case tables. -/
def unicodeToUpper (tbl : CaseTables) (r : Nat) : Nat :=
  if r ≤ 0x7F then (if 0x61 ≤ r ∧ r ≤ 0x7A then r - 0x20 else r) else tbl.upper r

/-- Model of `unicode.ToLower`. -/
def unicodeToLower (tbl : CaseTables) (r : Nat) : Nat :=
  if r ≤ 0x7F then (if 0x41 ≤ r ∧ r ≤ 0x5A then r + 0x20 else r) else tbl.lower r

/-- Model of `strings.Map` for a mapping that never returns a negative rune: every rune of
`s` (an ill-formed byte counting as `RuneError`) is replaced by the encoding of its image. -/
def stringsMap (f : Nat → Nat) (s : GoString) : GoString :=
  encodeRunes ((decodeRunes s).map f)

/-- Model of `strings.ToUpper`: a bytewise pass over an all-ASCII string, `strings.Map`
with `unicode.ToUpper` otherwise. -/
def stringsToUpper (tbl : CaseTables) (s : GoString) : GoString :=
  if s.all (fun c => decide (c < 0x80)) then
    s.map (fun c => if 0x61 ≤ c ∧ c ≤ 0x7A then c - 0x20 else c)
  else stringsMap (unicodeToUpper tbl) s

/-- Model of `strings.ToLower`. -/
def stringsToLower (tbl : CaseTables) (s : GoString) : GoString :=
  if s.all (fun c => decide (c < 0x80)) then
    s.map (fun c => if 0x41 ≤ c ∧ c ≤ 0x5A then c + 0x20 else c)
  else stringsMap (unicodeToLower tbl) s

/-- Model of `strings.ContainsAny`: some rune of `s` is a rune of `chars`. -/
def stringsContainsAny (s chars : GoString) : Bool :=
  (decodeRunes s).any (fun c => decide (c ∈ decodeRunes chars))

/-! ## Splitting -/

/-- Model of `strings.Split(s, sep)` for a one-byte separator `sep`. -/
def splitByte (sep : Nat) : GoString → List GoString
  | [] => [[]]
  | b :: rest =>
    if b = sep then [] :: splitByte sep rest
    else
      match splitByte sep rest with
      | hd :: tl => (b :: hd) :: tl
      | [] => [[b]]

/-- Cut `s` into consecutive pieces of the given widths. -/
def cutBy : List Nat → GoString → List GoString
  | [], _ => []
  | n :: ns, s => s.take n :: cutBy ns (s.drop n)

/-- Model of `strings.Split(s, "")` (`explode`): one string per rune of `s`, an ill-formed
byte being sliced on its own. -/
def explode (s : GoString) : List GoString := cutBy (runeWidths s) s

/-- Model of `strings.Join(elems, "")`. -/
def stringsJoin (elems : List GoString) : GoString := elems.flatten

/-! ## Numbers -/

/-- Largest value of Go's `int` on a 64-bit platform. -/
def maxInt : Int := 2 ^ 63 - 1

/-- Smallest value of Go's `int` on a 64-bit platform. -/
def minInt : Int := -(2 ^ 63)

/-- Value of a run of decimal digits read left to right from `acc`; `none` when a byte
is not a decimal digit. -/
def digitsValue : GoString → Nat → Option Nat
  | [], acc => some acc
  | c :: rest, acc =>
    if 0x30 ≤ c ∧ c ≤ 0x39 then digitsValue rest (acc * 10 + (c - 0x30)) else none

/-- Model of `strconv.Atoi`: an optional sign followed by at least one decimal digit, the
value lying in the range of `int`. `none` stands for a returned error (syntax or range). -/
def atoi (s : GoString) : Option Int :=
  match s with
  | [] => none
  | c :: rest =>
    let neg : Bool := decide (c = 0x2D)
    let body : GoString := if c = 0x2D ∨ c = 0x2B then rest else s
    match body with
    | [] => none
    | _ :: _ =>
      match digitsValue body 0 with
      | none => none
      | some n =>
        let v : Int := if neg then -(n : Int) else (n : Int)
        if minInt ≤ v ∧ v ≤ maxInt then some v else none

/-- Decimal digits of `n` put in front of `acc`; `fuel` bounds the number of digits. -/
def decimalAux : Nat → Nat → GoString → GoString
  | 0, _, acc => acc
  | fuel + 1, n, acc =>
    if n < 10 then (0x30 + n) :: acc
    else decimalAux fuel (n / 10) ((0x30 + n % 10) :: acc)

/-- The decimal numeral of `n` (the verb `%d` applied to a non-negative integer). -/
def decimal (n : Nat) : GoString := decimalAux (n + 1) n []

/-- Model of `fmt.Sprintf("%0<width>d", num)` for a non-negative `num`: the decimal numeral
padded on the left with zeros up to `width` bytes. The package calls it with widths from
1 to 18 only (see `pow10Int64`), far below the widths that `fmt` refuses. -/
def sprintfZeroPad (width : Nat) (num : Nat) : GoString :=
  List.replicate (width - (decimal num).length) 0x30 ++ decimal num

/-! ## Line scanner -/

/-- The constant `bufio.MaxScanTokenSize`. -/
def maxScanTokenSize : Nat := 65536

/-- The helper `dropCR` of `bufio.ScanLines`: remove one trailing carriage return. -/
def dropCR (line : GoString) : GoString :=
  if line.getLast? = some 0x0D then line.dropLast else line

/-- Run of a `bufio.Scanner` with `bufio.ScanLines` over the remaining input, `cur` being
the bytes of the current line read so far. Returns the tokens and whether the scanner
stopped with `ErrTooLong` (a line that does not fit the buffer ends the scan). -/
def scanAux : GoString → GoString → List GoString × Bool
  | [], cur => (if cur = [] then [] else [dropCR cur], false)
  | b :: rest, cur =>
    if b = 0x0A then ((dropCR cur) :: (scanAux rest []).1, (scanAux rest []).2)
    else if maxScanTokenSize ≤ cur.length + 1 then ([], true)
    else scanAux rest (cur ++ [b])

/-- The tokens `scanner.Text()` yields while `scanner.Scan()` is true. -/
def scanLines (text : GoString) : List GoString := (scanAux text []).1

/-- Whether `scanner.Err()` is non-nil after the scan. -/
def scanErr (text : GoString) : Bool := (scanAux text []).2

/-! ## Runs, the entropy source and errors -/

/-- The entropy source `randomSource`: entry `k` is what the `k`-th draw obtains, `none`
when the reader fails, `some r` for raw randomness `r`. A draw is one call of `rand.Int`
that reads the source (its rejection loop counts as one draw). -/
abbrev Source := Nat → Option Nat

/-- How a run ends: a normal return with the number of draws made so far, a runtime panic,
or `log.Fatalf` ending the process. -/
inductive Outcome (α : Type) where
  | done (val : α) (pos : Nat)
  | panic
  | fatal
  deriving DecidableEq, Repr

deriving instance DecidableEq for Except

/-- Code that may draw from the entropy source: it is given the source and the number of
draws already made. -/
def Rand (α : Type) : Type := Source → Nat → Outcome α

/-- Sequencing of runs: a panic or a fatal log call ends everything. -/
def Rand.bind {α β : Type} (m : Rand α) (k : α → Rand β) : Rand β := fun src pos =>
  match m src pos with
  | .done a pos1 => k a src pos1
  | .panic => .panic
  | .fatal => .fatal

instance : Monad Rand where
  pure a := fun _ pos => .done a pos
  bind := Rand.bind

/-- A runtime panic. -/
def goPanic {α : Type} : Rand α := fun _ _ => .panic

/-- The call `log.Fatalf`, which ends the process. -/
def logFatalf {α : Type} : Rand α := fun _ _ => .fatal

/-- Model of `rand.Int(randomSource, max)`: panics when `max ≤ 0`; returns 0 without
reading the source when `max = 1`; otherwise makes one draw, giving `none` (a nil result
with an error) when the reader fails and a value of `[0, max)` when it does not. Every
value of the range is the image of some raw outcome. -/
def randInt (max : Int) : Rand (Option Int) := fun src pos =>
  if max ≤ 0 then .panic
  else if max = 1 then .done (some 0) pos
  else
    match src pos with
    | none => .done none (pos + 1)
    | some r => .done (some ((r : Int) % max)) (pos + 1)

/-- Reduction of an integer to Go's 64-bit `int` (two's complement wrap-around). -/
def wrapInt (x : Int) : Int := (x + 2 ^ 63) % 2 ^ 64 - 2 ^ 63

/-- The error values of the package, one constructor per place where an error is made. -/
inductive GoError where
  /-- the error returned by `rand.Int` when the reader fails -/
  | entropy
  /-- "failed to get random word: %w" -/
  | randomWord (cause : GoError)
  /-- "failed to get random char: %w" -/
  | randomChar (cause : GoError)
  /-- "failed to get random digits: %w" -/
  | randomDigits (cause : GoError)
  /-- "invalid digit count '%s'" -/
  | invalidDigitCount (part : GoString)
  /-- "digit count must be at least 1" -/
  | digitCountBelowOne
  /-- "invalid digit range format" -/
  | invalidRangeFormat
  /-- "invalid digit range (min must be >= 1 and <= max)" -/
  | invalidRangeBounds
  /-- "invalid digit range format. Use 'N' or 'N-M'" -/
  | invalidRangeShape
  /-- "separator pool is empty" -/
  | emptySeparatorPool
  /-- "not enough valid words found (%d) to generate %d words" -/
  | notEnoughWords (found wanted : Int)
  /-- "could not open file %s: %w" -/
  | openFile (name : GoString)
  /-- "error reading file %s: %w" -/
  | readFile (name : GoString)
  deriving DecidableEq, Repr

/-! ## Configuration -/

/-- Sign class of a `float64`. -/
inductive RateSign where
  | positive
  | nonPositive
  | nan
  deriving DecidableEq, Repr

/-- A `float64` typo rate, seen through the three operations the package performs on it:
the comparisons `rate > 0` and `rate <= 0`, and the conversion `int64(rate*10000)`. The
product is a floating-point computation, so its truncation is carried as a field. -/
structure Rate where
  sign : RateSign
  /-- the value of `int64(rate*10000)` -/
  scaled : Int
  deriving DecidableEq, Repr

/-- The comparison `rate > 0`. -/
def Rate.gtZero (r : Rate) : Bool := decide (r.sign = .positive)

/-- The comparison `rate <= 0`. -/
def Rate.leZero (r : Rate) : Bool := decide (r.sign = .nonPositive)

/-- The struct `Config`. -/
structure Config where
  WordCount : Int
  SeparatorCount : Int
  SeparatorPool : GoString
  DigitRange : GoString
  TypoRate : Rate
  AltList : GoString
  MergeList : GoString
  CapsMode : GoString
  Verbose : Bool
  deriving DecidableEq, Repr

/-- The constant `invalidChars`. -/
def invalidChars : GoString := lit "yzäöüß"

/-- The variable `defaultSpecialChars`. -/
def defaultSpecialChars : List GoString := [lit "+", lit "-", lit "_", lit "!"]

/-- The struct `Generator`. -/
structure Generator where
  filteredWords : List GoString
  config : Config
  deriving DecidableEq, Repr

/-- The method `WordCount`. -/
def Generator.WordCount (g : Generator) : Int := g.filteredWords.length

/-! ## Helper functions of the package -/

/-- The function `parseSeparatorPool`. -/
def parseSeparatorPool (s : GoString) : List GoString :=
  if s.length > 0 then explode s else defaultSpecialChars

/-- The function `parseDigitRange`, returning `(min, max, err)`. -/
def parseDigitRange (rangeStr : GoString) : Int × Int × Option GoError :=
  match splitByte 0x2D rangeStr with
  | [p] =>
    match atoi p with
    | none => (0, 0, some (.invalidDigitCount p))
    | some val => if val < 1 then (0, 0, some .digitCountBelowOne) else (val, val, none)
  | [p0, p1] =>
    match atoi p0, atoi p1 with
    | some minVal, some maxVal =>
      if minVal < 1 ∨ minVal > maxVal then (0, 0, some .invalidRangeBounds)
      else (minVal, maxVal, none)
    | _, _ => (0, 0, some .invalidRangeFormat)
  | _ => (0, 0, some .invalidRangeShape)

/-- The function `randomDigitCount`. A failed draw ends the process. -/
def randomDigitCount (min max : Int) : Rand Int :=
  if min = max then pure min
  else do
    let n ← randInt (wrapInt (max - min + 1))
    match n with
    | none => logFatalf
    | some n => pure (wrapInt (min + n))

/-- The function `getRandomSeparatorChar`, returning `(string, error)`. -/
def getRandomSeparatorChar (pool : List GoString) : Rand (GoString × Option GoError) := do
  let n ← randInt pool.length
  match n with
  | none => pure ([], some .entropy)
  | some n =>
    match pool.get? n.toNat with
    | some c => pure (c, none)
    | none => goPanic

/-- The function `applyTypoTransposition`. The guard tests the length in bytes, the draw
is bounded by the number of runes minus one. -/
def applyTypoTransposition (word : GoString) : Rand GoString :=
  if word.length < 2 then pure word
  else do
    let runes := decodeRunes word
    let n ← randInt ((runes.length : Int) - 1)
    match n with
    | none => pure word
    | some n =>
      let i := n.toNat
      match runes.get? i, runes.get? (i + 1) with
      | some a, some b => pure (encodeRunes ((runes.set i b).set (i + 1) a))
      | _, _ => goPanic

/-- The function `shouldApplyTypo`. -/
def shouldApplyTypo (rate : Rate) : Rand Bool :=
  if rate.leZero then pure false
  else do
    let n ← randInt 10000
    match n with
    | none => pure false
    | some n => pure (decide (n < rate.scaled))

/-- The bound `int64(math.Pow10(n))` for `n ≥ 1`. Up to `n = 18` the power is exact. From
`n = 19` on it exceeds the range of `int64`; the result of converting such a float is
left to the implementation by the Go specification, and is the smallest `int64` on amd64,
the platform this development fixes. -/
def pow10Int64 (n : Int) : Int := if n ≤ 18 then 10 ^ n.toNat else minInt

/-- The function `getRandomDigits`, returning `(string, error)`. -/
def getRandomDigits (n : Int) : Rand (GoString × Option GoError) :=
  if n ≤ 0 then pure ([], none)
  else do
    let num ← randInt (pow10Int64 n)
    match num with
    | none => pure ([], some .entropy)
    | some num => pure (sprintfZeroPad n.toNat num.toNat, none)

/-- The method `getRandomWord`, returning `(string, error)`. -/
def getRandomWord (g : Generator) : Rand (GoString × Option GoError) := do
  let n ← randInt g.filteredWords.length
  match n with
  | none => pure ([], some .entropy)
  | some n =>
    match g.filteredWords.get? n.toNat with
    | some w => pure (w, none)
    | none => goPanic

/-- The function `applyCapitalization`. In mode "camel" the first byte `word[0]` is
converted to a string, upper-cased and put in front of `word[1:]`; in mode "random" the
word is handled as runes. -/
def applyCapitalization (tbl : CaseTables) (word mode : GoString) : Rand GoString :=
  match word with
  | [] => pure []
  | b0 :: tail =>
    if mode = lit "camel" then pure (stringsToUpper tbl (encodeRune b0) ++ tail)
    else if mode = lit "random" then do
      let runes := decodeRunes word
      let n ← randInt runes.length
      match n with
      | none => pure word
      | some n =>
        let idx := n.toNat
        match runes.get? idx with
        | some r => pure (encodeRunes (runes.set idx (unicodeToUpper tbl r)))
        | none => goPanic
    else pure word

/-! ## Preparing the word set -/

/-- Iteration order of a Go map. The language leaves it unspecified, so `for word := range
uniqueWords` may visit the keys in any order: `iterate` is that order, a rearrangement of
the keys. -/
structure MapOrder where
  iterate : List GoString → List GoString
  perm : ∀ keys, (iterate keys).Perm keys

/-- The map order that visits the keys in the order of their insertion. -/
def insertionOrder : MapOrder := ⟨id, fun _ => List.Perm.refl _⟩

/-- The assignment `uniqueWords[word] = true` on the key set of the map, kept as the list
of distinct keys in order of first insertion. -/
def mapInsert (keys : List GoString) (word : GoString) : List GoString :=
  if word ∈ keys then keys else keys ++ [word]

/-- Body of the inner loop of `filterWords`: a line whose lower-case form holds no
character of `invalidChars` is entered into the map. -/
def filterLine (tbl : CaseTables) (keys : List GoString) (word : GoString) : List GoString :=
  if !stringsContainsAny (stringsToLower tbl word) invalidChars then mapInsert keys word
  else keys

/-- The map `uniqueWords` at the end of the first loop of `filterWords`. -/
def uniqueWords (tbl : CaseTables) (wordsToParse : List GoString) : List GoString :=
  wordsToParse.foldl (fun keys wordString => (scanLines wordString).foldl (filterLine tbl) keys) []

/-- The function `filterWords`. -/
def filterWords (tbl : CaseTables) (order : MapOrder) (wordsToParse : List GoString) :
    List GoString :=
  order.iterate (uniqueWords tbl wordsToParse)

/-- What opening and reading a named file gives. -/
inductive File where
  /-- `os.Open` fails -/
  | missing
  /-- the file opens and reading it fails -/
  | failing
  /-- the file opens and has this content -/
  | text (content : GoString)
  deriving DecidableEq, Repr

/-- The function `loadWordsFromFiles`; `fileWords` is the slice collected so far. -/
def loadWordsFromFiles (fs : GoString → File) :
    List GoString → List GoString → List GoString × Option GoError
  | [], fileWords => (fileWords, none)
  | filename :: more, fileWords =>
    if filename = [] then loadWordsFromFiles fs more fileWords
    else
      match fs filename with
      | .missing => ([], some (.openFile filename))
      | .failing => ([], some (.readFile filename))
      | .text content =>
        if scanErr content then ([], some (.readFile filename))
        else loadWordsFromFiles fs more (fileWords ++ scanLines content)

/-- What `NewGenerator` takes from outside the configuration: the embedded
`defaultWordlist` (the file `wordlist.txt`), the file system, the case tables and the
iteration order of the map. -/
structure Env where
  defaultWordlist : GoString
  fs : GoString → File
  tbl : CaseTables
  order : MapOrder

/-- The function `NewGenerator`, returning `(*Generator, error)`. -/
def NewGenerator (env : Env) (config : Config) : Option Generator × Option GoError :=
  let stringsToParse : List GoString := if config.AltList ≠ [] then [] else [env.defaultWordlist]
  let filesToLoad : List GoString :=
    if config.AltList ≠ [] then [config.AltList]
    else if config.MergeList ≠ [] then [config.MergeList] else []
  match loadWordsFromFiles env.fs filesToLoad [] with
  | (_, some err) => (none, some err)
  | (fileWords, none) =>
    let filteredWords := filterWords env.tbl env.order (stringsToParse ++ fileWords)
    if (filteredWords.length : Int) < config.WordCount then
      (none, some (.notEnoughWords filteredWords.length config.WordCount))
    else (some ⟨filteredWords, config⟩, none)

/-! ## Generate -/

/-- Bookkeeping added by the embedding and never read by the code: the slots `i` at which
`applyTypoTransposition` was called, the slots at which `shouldApplyTypo` was called with
its result, and the separator blocks in the order in which they were built. -/
structure Trace where
  typoSlots : List Int
  trials : List (Int × Bool)
  blocks : List GoString
  deriving DecidableEq, Repr

/-- State of `Generate` between two loop iterations. -/
structure State where
  typoApplied : Bool
  wordChunks : List GoString
  trace : Trace
  deriving DecidableEq, Repr

/-- The block "Apply Typo Logic" of the word loop, for slot `i` and the word drawn for it:
the word, the flag `typoApplied` and the trace after the block. -/
def typoLogic (g : Generator) (i : Int) (st : State) (randomWord : GoString) :
    Rand (GoString × Bool × Trace) :=
  if !st.typoApplied && g.config.TypoRate.gtZero then do
    let hit ← shouldApplyTypo g.config.TypoRate
    let tr : Trace := { st.trace with trials := st.trace.trials ++ [(i, hit)] }
    if hit || decide (i = g.config.WordCount - 1) then do
      let typoWord ← applyTypoTransposition randomWord
      pure (typoWord, true, { tr with typoSlots := tr.typoSlots ++ [i] })
    else pure (randomWord, st.typoApplied, tr)
  else pure (randomWord, st.typoApplied, st.trace)

/-- The state in which `Generate` enters the word loop: no typo applied, no chunk. -/
def initialState : State := ⟨false, [], ⟨[], [], []⟩⟩

/-- One iteration of the word loop of `Generate`, for slot `i`. -/
def wordStep (tbl : CaseTables) (g : Generator) (i : Int) (st : State) :
    Rand (Except GoError State) := do
  let (randomWord, err) ← getRandomWord g
  match err with
  | some e => pure (.error (.randomWord e))
  | none =>
    let (word, typoApplied, tr) ← typoLogic g i st randomWord
    let chunk ← applyCapitalization tbl word g.config.CapsMode
    pure (.ok ⟨typoApplied, st.wordChunks ++ [chunk], tr⟩)

/-- The word loop `for i := 0; i < g.config.WordCount; i++`, with `k` iterations left
and `i` the current index. An error ends the loop at once. -/
def wordLoop (tbl : CaseTables) (g : Generator) : Nat → Int → State → Rand (Except GoError State)
  | 0, _, st => pure (.ok st)
  | k + 1, i, st => do
    match ← wordStep tbl g i st with
    | .error e => pure (.error e)
    | .ok st1 => wordLoop tbl g k (i + 1) st1

/-- First part of an iteration of the separator loop: the block `sepChar + digits +
sepChar`. -/
def separatorChunk (pool : List GoString) (minDigits maxDigits : Int) :
    Rand (Except GoError GoString) := do
  let (sepChar, err) ← getRandomSeparatorChar pool
  match err with
  | some e => pure (.error (.randomChar e))
  | none =>
    let numDigits ← randomDigitCount minDigits maxDigits
    let (digits, err) ← getRandomDigits numDigits
    match err with
    | some e => pure (.error (.randomDigits e))
    | none => pure (.ok (sepChar ++ digits ++ sepChar))

/-- Second part of an iteration of the separator loop: the block is appended when there
are fewer than two chunks, and otherwise inserted at a drawn index. The error of the draw
is discarded by the source, so a failed draw leaves a nil `*big.Int` whose `Int64` call
panics. -/
def insertChunk (wordChunks : List GoString) (separatorChunk : GoString) :
    Rand (List GoString) :=
  if wordChunks.length < 2 then pure (wordChunks ++ [separatorChunk])
  else do
    let n ← randInt ((wordChunks.length : Int) - 1)
    match n with
    | none => goPanic
    | some n =>
      let insertionIndex := (n + 1).toNat
      pure (wordChunks.take insertionIndex ++ (separatorChunk :: wordChunks.drop insertionIndex))

/-- One iteration of the separator loop of `Generate`. -/
def separatorStep (pool : List GoString) (minDigits maxDigits : Int) (st : State) :
    Rand (Except GoError State) := do
  match ← separatorChunk pool minDigits maxDigits with
  | .error e => pure (.error e)
  | .ok block =>
    let chunks ← insertChunk st.wordChunks block
    pure (.ok ⟨st.typoApplied, chunks, { st.trace with blocks := st.trace.blocks ++ [block] }⟩)

/-- The separator loop `for i := 0; i < g.config.SeparatorCount; i++`, with `k` iterations
left. -/
def separatorLoop (pool : List GoString) (minDigits maxDigits : Int) :
    Nat → State → Rand (Except GoError State)
  | 0, st => pure (.ok st)
  | k + 1, st => do
    match ← separatorStep pool minDigits maxDigits st with
    | .error e => pure (.error e)
    | .ok st1 => separatorLoop pool minDigits maxDigits k st1

/-- The body of `Generate` up to the final assembly: the state holding the chunk sequence
that is joined, or the error returned. The warning logged under `Verbose` has no effect
on the result and is left out. -/
def generateState (tbl : CaseTables) (g : Generator) : Rand (Except GoError State) :=
  match parseDigitRange g.config.DigitRange with
  | (_, _, some err) => pure (.error err)
  | (minDigits, maxDigits, none) =>
    let separatorPool := parseSeparatorPool g.config.SeparatorPool
    if separatorPool.length = 0 then pure (.error .emptySeparatorPool)
    else do
      match ← wordLoop tbl g g.config.WordCount.toNat 0 initialState with
      | .error e => pure (.error e)
      | .ok st => separatorLoop separatorPool minDigits maxDigits g.config.SeparatorCount.toNat st

/-- The method `Generate`, returning `(string, error)`. -/
def Generate (tbl : CaseTables) (g : Generator) : Rand (GoString × Option GoError) := do
  match ← generateState tbl g with
  | .error e => pure ([], some e)
  | .ok st => pure (stringsJoin st.wordChunks, none)

/-- An entropy source that never fails and always yields the raw outcome `r`. -/
def constSource (r : Nat) : Source := fun _ => some r

/-- An entropy source that yields the listed raw outcomes in turn and `0` afterwards. -/
def listSource (rs : List Nat) : Source := fun k => some (rs.getD k 0)

/-! ## Notions used in the statements -/

/-- A byte that is a decimal digit. -/
def isDigit (c : Nat) : Prop := 0x30 ≤ c ∧ c ≤ 0x39

instance (c : Nat) : Decidable (isDigit c) := by unfold isDigit; infer_instance

/-- The decimal numeral of an integer: a minus sign in front of a negative one. -/
def numeral (N : Int) : GoString :=
  if N < 0 then 0x2D :: decimal N.natAbs else decimal N.natAbs

/-- A numeric string: an optional sign followed by at least one decimal digit. -/
def isNumeric (p : GoString) : Bool :=
  match p with
  | [] => false
  | c :: rest =>
    if c = 0x2D ∨ c = 0x2B then !rest.isEmpty && rest.all (fun d => decide (isDigit d))
    else p.all (fun d => decide (isDigit d))

/-- The characters y, z, ä, ö, ü, ß as runes. -/
def forbiddenRunes : List Nat := [0x79, 0x7A, 0xE4, 0xF6, 0xFC, 0xDF]

/-- A line survives the filter when its lower-case form contains none of the characters
y, z, ä, ö, ü, ß. -/
def Survives (tbl : CaseTables) (line : GoString) : Prop :=
  ∀ c ∈ decodeRunes (stringsToLower tbl line), c ∉ forbiddenRunes

/-- The line is one of the lines the scanner reads from one of the source texts. -/
def IsLine (sources : List GoString) (line : GoString) : Prop :=
  ∃ text ∈ sources, line ∈ scanLines text

/-- The wordlist file that `NewGenerator` loads: the alternative list if one is named,
else the merge list; the empty name when none is named. -/
def designatedFile (config : Config) : GoString :=
  if config.AltList ≠ [] then config.AltList else config.MergeList

/-- The named wordlist file cannot be read: it does not open, reading it fails, or one of
its lines is too long for the scanner. -/
def Unreadable (env : Env) (name : GoString) : Prop :=
  name ≠ [] ∧ ∀ content, env.fs name = .text content → scanErr content = true

/-- The lines of a named wordlist file. -/
def fileLines (env : Env) (name : GoString) : List GoString :=
  match env.fs name with
  | .text content => scanLines content
  | _ => []

/-- The texts that are filtered: the alternative list alone if one is named, else the
embedded default list followed by the lines of the merge list, if one is named. -/
def wordSources (env : Env) (config : Config) : List GoString :=
  if config.AltList ≠ [] then fileLines env config.AltList
  else env.defaultWordlist :: (if config.MergeList ≠ [] then fileLines env config.MergeList else [])

/-- An environment whose embedded list holds the lines Haus, Boot, Yacht, Zebra, Auto,
Äpfel, Haus and which has no file. -/
def sampleEnv : Env :=
  ⟨lit "Haus\nBoot\nYacht\nZebra\nAuto\nÄpfel\nHaus", fun _ => .missing, latin1, insertionOrder⟩

/-- A configuration asking for `words` words and `seps` separator blocks, the other fields
being those of the command line's defaults with the typo rate set to zero. -/
def sampleConfig (words seps : Int) : Config :=
  ⟨words, seps, lit "!", lit "4", ⟨.nonPositive, 0⟩, [], [], lit "camel", false⟩

/-- The reading of mode "camel" in the specification: the first character is replaced by
its upper-case form and the rest of the word is kept. -/
def camelFirstSpec (tbl : CaseTables) (word : GoString) : GoString :=
  match decodeAux 0 word with
  | [] => []
  | (r, width) :: _ => encodeRune (unicodeToUpper tbl r) ++ word.drop width

/-- Every returned value of `m` satisfies `Q`, whatever the entropy source does. -/
def Post {α : Type} (m : Rand α) (Q : α → Prop) : Prop :=
  ∀ (src : Source) (pos : Nat) (a : α) (pos1 : Nat), m src pos = .done a pos1 → Q a

/-- With the source `src`, `m` returns a value that satisfies `Q`, from any position. -/
def Sure {α : Type} (src : Source) (m : Rand α) (Q : α → Prop) : Prop :=
  ∀ pos : Nat, ∃ (a : α) (pos1 : Nat), m src pos = .done a pos1 ∧ Q a

/-- An entropy source none of whose draws fails. -/
def NeverFails (src : Source) : Prop := ∀ k, src k ≠ none

/-- A separator block: `sep + digits + sep` with `sep` an element of the pool and `digits`
a run of decimal digits whose length lies between `minDigits` and `maxDigits`. -/
def IsBlock (pool : List GoString) (minDigits maxDigits : Int) (block : GoString) : Prop :=
  ∃ sep ∈ pool, ∃ digits : GoString, block = sep ++ digits ++ sep ∧
    (∀ c ∈ digits, isDigit c) ∧ minDigits ≤ (digits.length : Int) ∧
    (digits.length : Int) ≤ maxDigits

/-- The trials of the slots before `i`, all of them failed. -/
def failedTrials (i : Nat) : List (Int × Bool) := (List.range i).map (fun t : Nat => ((t : Int), false))

/-- Invariant of the word loop under a positive typo rate, before slot `i`: either no
typo has been applied, every trial so far has failed and the last slot is still ahead, or
the typo has been applied at one earlier slot `j`, the trials before `j` having failed and
slot `j` being a successful trial or the last slot. -/
def TypoInv (g : Generator) (i : Nat) (st : State) : Prop :=
  (st.typoApplied = false ∧ st.trace.typoSlots = [] ∧ st.trace.trials = failedTrials i ∧
    (1 ≤ i → (i : Int) < g.config.WordCount)) ∨
  (st.typoApplied = true ∧ ∃ (j : Nat) (b : Bool), j < i ∧ st.trace.typoSlots = [(j : Int)] ∧
    st.trace.trials = failedTrials j ++ [((j : Int), b)] ∧
    (b = true ∨ (j : Int) = g.config.WordCount - 1))

/-- A generator over the two words "haus" and "boot": two words, one separator block from
the pool "!", two digits, a positive typo rate with `int64(rate*10000) = 3300`, mode
"camel". -/
def sampleGenerator : Generator :=
  ⟨[lit "haus", lit "boot"],
   ⟨2, 1, lit "!", lit "2", ⟨.positive, 3300⟩, [], [], lit "camel", false⟩⟩

/-- A source for `sampleGenerator`: word 0, a failed trial, word 1, a failed trial, typo
position 0, digit value 42. The separator and the insertion position have a bound of 1 and
take no draw. -/
def sampleSource : Source := listSource [0, 5000, 1, 9999, 3, 42]

/-- The typo invariant on a state reached at the end of the word loop. With `typoRate > 0`:
`applyTypoTransposition` was applied at exactly one slot `j`, the trials of the slots
before `j` all failed, no trial followed, and slot `j` is a successful trial or the last
slot. With `typoRate <= 0`: it was applied at no slot and no trial was made. -/
def TypoAtOneSlot (g : Generator) (st : State) : Prop :=
  (g.config.TypoRate.gtZero = true →
    ∃ (j : Nat) (b : Bool), (j : Int) < g.config.WordCount ∧
      st.trace.typoSlots = [(j : Int)] ∧
      st.trace.trials = failedTrials j ++ [((j : Int), b)] ∧
      (b = true ∨ (j : Int) = g.config.WordCount - 1)) ∧
  (g.config.TypoRate.leZero = true → st.trace.typoSlots = [] ∧ st.trace.trials = [])

/-- A generator whose only word is the single character "é" (two bytes), with one word,
no separator block and a positive typo rate. -/
def singleCharGenerator : Generator :=
  ⟨[lit "é"], ⟨1, 0, lit "!", lit "4", ⟨.positive, 3300⟩, [], [], lit "none", false⟩⟩

/-- A generator over "haus" and "boot" with one word, one separator block and the digit
range "19". -/
def nineteenDigitsGenerator : Generator :=
  ⟨[lit "haus", lit "boot"],
   ⟨1, 1, lit "!", lit "19", ⟨.nonPositive, 0⟩, [], [], lit "none", false⟩⟩

/-- A generator over "haus" and "boot" whose digit-range string is "abc". -/
def badRangeGenerator : Generator :=
  ⟨[lit "haus", lit "boot"],
   ⟨2, 1, lit "!", lit "abc", ⟨.positive, 3300⟩, [], [], lit "camel", false⟩⟩

/-- The sequence `cs1` is obtained from the sequence `cs` by inserting the blocks one after
the other, each into a sequence of at least two chunks at an index `i` with
`1 ≤ i ≤ length - 1`, that is, strictly between the first and the last chunk. -/
inductive InsertedInside : List GoString → List GoString → List GoString → Prop where
  | none (cs : List GoString) : InsertedInside cs [] cs
  | step (cs : List GoString) (i : Nat) (block : GoString) (blocks cs1 : List GoString) :
      2 ≤ cs.length → 1 ≤ i → i ≤ cs.length - 1 →
      InsertedInside (cs.take i ++ block :: cs.drop i) blocks cs1 →
      InsertedInside cs (block :: blocks) cs1

/-- The chunks of a sequence whose positions are marked (`true`) or not marked (`false`)
as separator blocks. -/
def chunksMarked (mark : Bool) (tagged : List (Bool × GoString)) : List GoString :=
  (tagged.filter (fun t => t.1 == mark)).map Prod.snd

/-- An entropy source whose draw number `k` fails and whose other draws yield the raw
outcome `0`. -/
def failAt (k : Nat) : Source := fun p => if p = k then none else some 0

/-- A generator over the words "haus", "boot" with three words, one separator block, the
pool "!?", the digit range "2-3", a positive typo rate and capitalization mode "random":
every kind of draw of `Generate` reads the entropy source. -/
def drawsGenerator : Generator :=
  ⟨[lit "haus", lit "boot"], ⟨3, 1, lit "!?", lit "2-3", ⟨.positive, 3300⟩, [], [], lit "random", false⟩⟩

/-- A line without the carriage return at its end, if it has one. -/
def withoutCR : GoString → GoString
  | [] => []
  | [b] => if b = 0x0D then [] else [b]
  | b :: b1 :: rest => b :: withoutCR (b1 :: rest)

/-- The lines of a text as they stand between line feeds, carriage returns included: the
pieces between the line feeds, the piece after the last line feed not counting as a line
when it is empty. -/
def rawLines (text : GoString) : List GoString :=
  if (splitByte 0x0A text).getLast? = some [] then (splitByte 0x0A text).dropLast
  else splitByte 0x0A text

/-- The lines of a text: its pieces between line feeds, each without the carriage return
at its end. -/
def textLines (text : GoString) : List GoString := (rawLines text).map withoutCR

/-- The lines of a text that come before its first line of more than 65535 bytes (the
carriage return counted). -/
def reachedLines (text : GoString) : List GoString :=
  ((rawLines text).takeWhile (fun p => decide (p.length < maxScanTokenSize))).map withoutCR

/-- A text whose first line has 65536 bytes and whose second line is "Haus". -/
def longLineText : GoString := List.replicate 65536 0x61 ++ 0x0A :: lit "Haus"

/-- A text whose first line has 65536 bytes and whose other lines are "Haus" and "haus". -/
def longLineCaseText : GoString := List.replicate 65536 0x61 ++ 0x0A :: lit "Haus\nhaus"

/-- The chunk of a slot to which the typo was not applied: the slot's word was drawn at
some position of the source, and the chunk is what `applyCapitalization` returns for the
word itself, called right after the draw or after the one draw of a typo trial. -/
def PlainChunk (tbl : CaseTables) (g : Generator) (src : Source) (chunk : GoString) : Prop :=
  ∃ (w : GoString) (p0 p1 p2 p3 : Nat), getRandomWord g src p0 = .done (w, none) p1 ∧
    (p2 = p1 ∨ p2 = p1 + 1) ∧
    applyCapitalization tbl w g.config.CapsMode src p2 = .done chunk p3

/-- The chunk of a slot to which the typo was applied: the slot's word was drawn at some
position of the source, `applyTypoTransposition` was called on it after the one draw of
the typo trial, and the chunk is what `applyCapitalization` returns for the word that
`applyTypoTransposition` returned. -/
def TypoChunk (tbl : CaseTables) (g : Generator) (src : Source) (chunk : GoString) : Prop :=
  ∃ (w tw : GoString) (p0 p1 p3 p4 : Nat), getRandomWord g src p0 = .done (w, none) p1 ∧
    applyTypoTransposition w src (p1 + 1) = .done tw p3 ∧
    applyCapitalization tbl tw g.config.CapsMode src p3 = .done chunk p4

/-- The chunks of the word loop follow the record of the typo: there is one chunk per
slot, the chunk of a slot recorded in `typoSlots` went through `applyTypoTransposition`,
and the chunk of any other slot did not. -/
def ChunksFollowTypo (tbl : CaseTables) (g : Generator) (src : Source) (st : State) : Prop :=
  st.wordChunks.length = g.config.WordCount.toNat ∧
  ∀ t : Nat, t < g.config.WordCount.toNat → ∃ chunk, st.wordChunks.get? t = some chunk ∧
    (((t : Int) ∈ st.trace.typoSlots → TypoChunk tbl g src chunk) ∧
      ((t : Int) ∉ st.trace.typoSlots → PlainChunk tbl g src chunk))
/-! ## Lemmas on numerals and splitting -/

theorem digitsValue_decimalAux (fuel n : Nat) (acc : GoString) (h : n < fuel) :
    digitsValue (decimalAux fuel n acc) 0 = digitsValue acc n := by
  induction fuel generalizing n acc with
  | zero => omega
  | succ fuel ih =>
    unfold decimalAux
    split
    · simp only [digitsValue]
      rw [if_pos (by omega)]
      congr 1
      omega
    · rw [ih _ _ (by omega)]
      simp only [digitsValue]
      rw [if_pos (by omega)]
      congr 1
      omega

theorem decimalAux_digits (fuel n : Nat) (acc : GoString) (h : n < fuel)
    (hacc : ∀ c ∈ acc, isDigit c) : ∀ c ∈ decimalAux fuel n acc, isDigit c := by
  induction fuel generalizing n acc with
  | zero => omega
  | succ fuel ih =>
    unfold decimalAux
    split
    · intro c hc
      rcases List.mem_cons.1 hc with rfl | hc
      · unfold isDigit; omega
      · exact hacc c hc
    · apply ih _ _ (by omega)
      intro c hc
      rcases List.mem_cons.1 hc with rfl | hc
      · unfold isDigit; omega
      · exact hacc c hc

theorem decimalAux_ne_nil (fuel n : Nat) (acc : GoString) (h : n < fuel) :
    decimalAux fuel n acc ≠ [] := by
  induction fuel generalizing n acc with
  | zero => omega
  | succ fuel ih =>
    unfold decimalAux
    split
    · simp
    · exact ih _ _ (by omega)

theorem decimal_digits (n : Nat) : ∀ c ∈ decimal n, isDigit c :=
  decimalAux_digits _ _ _ (by omega) (by simp)

theorem decimal_ne_nil (n : Nat) : decimal n ≠ [] := decimalAux_ne_nil _ _ _ (by omega)

theorem digitsValue_decimal (n : Nat) : digitsValue (decimal n) 0 = some n := by
  unfold decimal
  rw [digitsValue_decimalAux _ _ _ (by omega)]
  rfl

theorem atoi_decimal (n : Nat) (h : (n : Int) ≤ maxInt) : atoi (decimal n) = some (n : Int) := by
  have hne := decimal_ne_nil n
  have hd := decimal_digits n
  have hv := digitsValue_decimal n
  cases hs : decimal n with
  | nil => exact absurd hs hne
  | cons c rest =>
    rw [hs] at hd hv
    have hc : isDigit c := hd c (by simp)
    unfold isDigit at hc
    have h1 : ¬ (c = 0x2D ∨ c = 0x2B) := by omega
    have h2 : ¬ (c = 0x2D) := by omega
    have h3 : ¬ (c = 0x2B) := by omega
    have : minInt ≤ (n : Int) := by unfold minInt; omega
    simp [atoi, h2, h3, hv, this, h]

theorem splitByte_not_mem (sep : Nat) (s : GoString) (h : sep ∉ s) : splitByte sep s = [s] := by
  induction s with
  | nil => rfl
  | cons b rest ih =>
    have hb : b ≠ sep := fun e => h (by simp [e])
    have hr : sep ∉ rest := fun e => h (by simp [e])
    simp [splitByte, hb, ih hr]

theorem splitByte_append (sep : Nat) (a b : GoString) (h : sep ∉ a) :
    splitByte sep (a ++ sep :: b) = a :: splitByte sep b := by
  induction a with
  | nil => simp [splitByte]
  | cons c rest ih =>
    have hb : c ≠ sep := fun e => h (by simp [e])
    have hr : sep ∉ rest := fun e => h (by simp [e])
    simp [splitByte, hb, ih hr]

theorem hyphen_not_mem_decimal (n : Nat) : 0x2D ∉ decimal n := by
  intro h
  have := decimal_digits n _ h
  unfold isDigit at this
  omega

theorem atoi_decimal_eq (n : Nat) :
    atoi (decimal n) = if (n : Int) ≤ maxInt then some (n : Int) else none := by
  by_cases h : (n : Int) ≤ maxInt
  · rw [if_pos h]; exact atoi_decimal n h
  · rw [if_neg h]
    have hne := decimal_ne_nil n
    have hd := decimal_digits n
    have hv := digitsValue_decimal n
    cases hs : decimal n with
    | nil => exact absurd hs hne
    | cons c rest =>
      rw [hs] at hd hv
      have hc : isDigit c := hd c (by simp)
      unfold isDigit at hc
      have h2 : ¬ (c = 0x2D) := by omega
      have h3 : ¬ (c = 0x2B) := by omega
      simp [atoi, h2, h3, hv, h]

theorem digitsValue_some_digits (s : GoString) (acc v : Nat) (h : digitsValue s acc = some v) :
    s.all (fun d => decide (isDigit d)) = true := by
  induction s generalizing acc with
  | nil => rfl
  | cons c rest ih =>
    unfold digitsValue at h
    split at h
    · rename_i hc
      simp only [List.all_cons, Bool.and_eq_true, decide_eq_true_eq]
      exact ⟨hc, ih _ h⟩
    · cases h

/-- What a successful call of `atoi` went through. -/
theorem atoi_some (p : GoString) (v : Int) (h : atoi p = some v) :
    ∃ c rest n, p = c :: rest ∧
      (if c = 0x2D ∨ c = 0x2B then rest else c :: rest) ≠ [] ∧
      digitsValue (if c = 0x2D ∨ c = 0x2B then rest else c :: rest) 0 = some n ∧
      v = (if c = 0x2D then -(n : Int) else (n : Int)) ∧ minInt ≤ v ∧ v ≤ maxInt := by
  cases p with
  | nil => simp [atoi] at h
  | cons c rest =>
    refine ⟨c, rest, ?_⟩
    unfold atoi at h
    simp only at h
    generalize (if c = 0x2D ∨ c = 0x2B then rest else c :: rest) = body at h ⊢
    cases body with
    | nil => simp at h
    | cons d more =>
      simp only at h
      cases hv : digitsValue (d :: more) 0 with
      | none => rw [hv] at h; simp at h
      | some n =>
        rw [hv] at h
        simp only [decide_eq_true_eq] at h
        generalize hw : (if c = 0x2D then -(n : Int) else (n : Int)) = w at h
        by_cases hr : minInt ≤ w ∧ w ≤ maxInt
        · rw [if_pos hr] at h
          injection h with h
          subst h
          exact ⟨n, rfl, by simp, rfl, hw.symm, hr.1, hr.2⟩
        · rw [if_neg hr] at h
          cases h

theorem atoi_some_numeric (p : GoString) (v : Int) (h : atoi p = some v) : isNumeric p = true := by
  obtain ⟨c, rest, n, rfl, hne, hv, -, -, -⟩ := atoi_some p v h
  have hd := digitsValue_some_digits _ _ _ hv
  simp only [isNumeric]
  by_cases hc : c = 0x2D ∨ c = 0x2B
  · rw [if_pos hc] at hd hne ⊢
    cases rest with
    | nil => exact absurd rfl hne
    | cons d more => simpa using hd
  · rw [if_neg hc] at hd ⊢
    exact hd

theorem atoi_range (p : GoString) (v : Int) (h : atoi p = some v) : minInt ≤ v ∧ v ≤ maxInt := by
  obtain ⟨_, _, _, _, _, _, _, h1, h2⟩ := atoi_some p v h
  exact ⟨h1, h2⟩

/-- What a successful call of `parseDigitRange` went through. -/
theorem parseDigitRange_ok (s : GoString) (mn mx : Int) (h : parseDigitRange s = (mn, mx, none)) :
    (∃ p, splitByte 0x2D s = [p] ∧ atoi p = some mn ∧ mx = mn ∧ 1 ≤ mn) ∨
    (∃ p0 p1, splitByte 0x2D s = [p0, p1] ∧ atoi p0 = some mn ∧ atoi p1 = some mx ∧
      1 ≤ mn ∧ mn ≤ mx) := by
  unfold parseDigitRange at h
  split at h
  · rename_i p hp
    left
    refine ⟨p, hp, ?_⟩
    split at h
    · simp at h
    · rename_i val hval
      split at h
      · simp at h
      · rename_i hlt
        simp only [Prod.mk.injEq, and_true] at h
        obtain ⟨rfl, rfl⟩ := h
        exact ⟨hval, rfl, by omega⟩
  · rename_i p0 p1 hp
    right
    refine ⟨p0, p1, hp, ?_⟩
    split at h
    · rename_i minVal maxVal h0 h1
      split at h
      · simp at h
      · rename_i hb
        simp only [Prod.mk.injEq, and_true] at h
        obtain ⟨rfl, rfl⟩ := h
        exact ⟨h0, h1, by omega, by omega⟩
    · simp at h
  · simp at h

theorem splitByte_length (sep : Nat) (s : GoString) :
    (splitByte sep s).length = s.count sep + 1 := by
  induction s with
  | nil => rfl
  | cons b rest ih =>
    unfold splitByte
    by_cases hb : b = sep
    · subst hb
      simp [ih]
    · rw [if_neg hb]
      have hc : (b :: rest).count sep = rest.count sep := by
        rw [List.count_cons]; simp [hb]
      cases hs : splitByte sep rest with
      | nil => rw [hs] at ih; simp at ih
      | cons hd tl =>
        rw [hs] at ih
        simp only [List.length_cons] at ih ⊢
        omega

theorem parseDigitRange_range (s : GoString) (mn mx : Int)
    (h : parseDigitRange s = (mn, mx, none)) : 1 ≤ mn ∧ mn ≤ mx ∧ mx ≤ maxInt := by
  rcases parseDigitRange_ok s mn mx h with ⟨p, _, ha, rfl, h1⟩ | ⟨p0, p1, _, _, ha, h1, h2⟩
  · exact ⟨h1, le_refl _, (atoi_range _ _ ha).2⟩
  · exact ⟨h1, h2, (atoi_range _ _ ha).2⟩

/-- C3 (counterexample): 2^63 is an integer at least 1, and its decimal numeral is
rejected by `parseDigitRange` with an error, because it is not an `int`. -/
theorem parseDigitRange_numeral_beyond_int :
    (1 : Int) ≤ 9223372036854775808 ∧
      parseDigitRange (decimal 9223372036854775808) =
        (0, 0, some (.invalidDigitCount (lit "9223372036854775808"))) := by
  decide

/-- C3 (amended): for integers `N`, `M` with `1 ≤ N ≤ M` that lie in the range of `int`,
the decimal numeral of `N` parses to `(N, N)` and the string "N-M" parses to `(N, M)`,
both without error. -/
theorem parseDigitRange_accepts (N M : Nat) (h1 : 1 ≤ N) (h2 : N ≤ M)
    (h3 : (M : Int) ≤ maxInt) :
    parseDigitRange (decimal N) = ((N : Int), (N : Int), none) ∧
      parseDigitRange (decimal N ++ 0x2D :: decimal M) = ((N : Int), (M : Int), none) := by
  have hN : (N : Int) ≤ maxInt := le_trans (by exact_mod_cast h2) h3
  have hN1 : ¬ ((N : Int) < 1) := by omega
  constructor
  · unfold parseDigitRange
    rw [splitByte_not_mem _ _ (hyphen_not_mem_decimal N)]
    simp only [atoi_decimal N hN, if_neg hN1]
  · unfold parseDigitRange
    rw [splitByte_append _ _ _ (hyphen_not_mem_decimal N),
      splitByte_not_mem _ _ (hyphen_not_mem_decimal M)]
    simp only [atoi_decimal N hN, atoi_decimal M h3]
    have : ¬ ((N : Int) < 1 ∨ (N : Int) > (M : Int)) := by omega
    rw [if_neg this]

/-- C3 (witness): "3" parses to (3, 3), "3-6" parses to (3, 6) and "4" to (4, 4). -/
theorem parseDigitRange_accepts_witness :
    (parseDigitRange (lit "3") = (3, 3, none) ∧ parseDigitRange (lit "3-6") = (3, 6, none)) ∧
      (parseDigitRange (lit "4") = (4, 4, none) ∧ parseDigitRange (lit "4-4") = (4, 4, none)) :=
  ⟨parseDigitRange_accepts 3 6 (by decide) (by decide) (by decide),
   parseDigitRange_accepts 4 4 (by decide) (by decide) (by decide)⟩

/-- C4: `parseDigitRange` returns an error for a numeral below 1, for a pair "N-M" with
`N < 1` or `N > M`, for a string one of whose parts is not numeric, and for a string with
two or more hyphens, among them "abc", "6-3", "0-5" and "3-6-9"; and every result returned
without error satisfies `1 ≤ min ≤ max`. -/
theorem parseDigitRange_rejects :
    (∀ N : Int, N < 1 → (parseDigitRange (numeral N)).2.2 ≠ none) ∧
    (∀ N M : Int, N < 1 ∨ N > M → (parseDigitRange (numeral N ++ 0x2D :: numeral M)).2.2 ≠ none) ∧
    (∀ s : GoString, (∃ p ∈ splitByte 0x2D s, isNumeric p = false) →
      (parseDigitRange s).2.2 ≠ none) ∧
    (∀ s : GoString, 2 ≤ s.count 0x2D → (parseDigitRange s).2.2 ≠ none) ∧
    (∀ (s : GoString) (mn mx : Int), parseDigitRange s = (mn, mx, none) → 1 ≤ mn ∧ mn ≤ mx) ∧
    (parseDigitRange (lit "abc") = (0, 0, some (.invalidDigitCount (lit "abc"))) ∧
      parseDigitRange (lit "6-3") = (0, 0, some .invalidRangeBounds) ∧
      parseDigitRange (lit "0-5") = (0, 0, some .invalidRangeBounds) ∧
      parseDigitRange (lit "3-6-9") = (0, 0, some .invalidRangeShape)) := by
  have key : ∀ s : GoString, (parseDigitRange s).2.2 = none →
      parseDigitRange s = ((parseDigitRange s).1, (parseDigitRange s).2.1, none) := by
    intro s h
    rw [← h]
  refine ⟨?_, ?_, ?_, ?_, ?_, by decide⟩
  · intro N hN hnone
    rcases parseDigitRange_ok _ _ _ (key _ hnone) with ⟨p, hp, ha, -, h1⟩ |
      ⟨p0, p1, hp, ha0, -, -, -⟩
    · by_cases hneg : N < 0
      · have hl := splitByte_length 0x2D (numeral N)
        rw [hp] at hl
        simp [numeral, hneg] at hl
      · have h0 : N = 0 := by omega
        subst h0
        rw [show splitByte 0x2D (numeral 0) = [lit "0"] by decide] at hp
        injection hp with hp
        subst hp
        rw [show atoi (lit "0") = some 0 by decide] at ha
        injection ha with ha
        omega
    · by_cases hneg : N < 0
      · simp only [numeral, if_pos hneg] at hp
        have hsp := splitByte_append 0x2D [] (decimal N.natAbs) (by simp)
        rw [List.nil_append] at hsp
        rw [hsp] at hp
        injection hp with hp0 _
        subst hp0
        simp [atoi] at ha0
      · have h0 : N = 0 := by omega
        subst h0
        rw [show splitByte 0x2D (numeral 0) = [lit "0"] by decide] at hp
        cases hp
  · intro N M hNM hnone
    rcases parseDigitRange_ok _ _ _ (key _ hnone) with ⟨p, hp, -, -, -⟩ |
      ⟨p0, p1, hp, ha0, ha1, h1, h2⟩
    · have hl := splitByte_length 0x2D (numeral N ++ 0x2D :: numeral M)
      rw [hp] at hl
      simp at hl
    · have hl := splitByte_length 0x2D (numeral N ++ 0x2D :: numeral M)
      rw [hp] at hl
      simp only [List.length_cons, List.length_nil, List.count_append, List.count_cons_self]
        at hl
      have cN := List.count_eq_zero_of_not_mem (hyphen_not_mem_decimal N.natAbs)
      have cM := List.count_eq_zero_of_not_mem (hyphen_not_mem_decimal M.natAbs)
      have hN0 : ¬ N < 0 := by
        intro hneg
        simp only [numeral, if_pos hneg, List.count_cons_self] at hl
        omega
      have hM0 : ¬ M < 0 := by
        intro hneg
        simp only [numeral, if_pos hneg, List.count_cons_self] at hl
        omega
      simp only [numeral, if_neg hN0, if_neg hM0] at hp
      rw [splitByte_append _ _ _ (hyphen_not_mem_decimal _),
        splitByte_not_mem _ _ (hyphen_not_mem_decimal _)] at hp
      injection hp with hp0 hp
      injection hp with hp1 _
      subst hp0 hp1
      rw [atoi_decimal_eq] at ha0 ha1
      split at ha0
      · split at ha1
        · injection ha0 with ha0
          injection ha1 with ha1
          omega
        · cases ha1
      · cases ha0
  · intro s ⟨p, hp, hnum⟩ hnone
    have hsome : ∃ v, atoi p = some v := by
      rcases parseDigitRange_ok _ _ _ (key _ hnone) with ⟨q, hq, ha, -, -⟩ |
        ⟨p0, p1, hq, ha0, ha1, -, -⟩
      · rw [hq] at hp
        simp only [List.mem_singleton] at hp
        subst hp
        exact ⟨_, ha⟩
      · rw [hq] at hp
        simp only [List.mem_cons, List.mem_singleton, List.not_mem_nil, or_false] at hp
        rcases hp with rfl | rfl
        · exact ⟨_, ha0⟩
        · exact ⟨_, ha1⟩
    obtain ⟨v, hv⟩ := hsome
    rw [atoi_some_numeric p v hv] at hnum
    cases hnum
  · intro s hc hnone
    have hl := splitByte_length 0x2D s
    rcases parseDigitRange_ok _ _ _ (key _ hnone) with ⟨p, hp, -, -, -⟩ |
      ⟨p0, p1, hp, -, -, -, -⟩
    · rw [hp] at hl
      simp only [List.length_cons, List.length_nil] at hl
      omega
    · rw [hp] at hl
      simp only [List.length_cons, List.length_nil] at hl
      omega
  · intro s mn mx h
    have := parseDigitRange_range s mn mx h
    exact ⟨this.1, this.2.1⟩

/-- C4 (witness): the numerals 0 and -3, the pairs "6-3" and "0-5", the non-numeric "abc"
and the string "3-6-9" with two hyphens are rejected, while the accepted "3-6" yields
bounds with `1 ≤ 3 ≤ 6`. -/
theorem parseDigitRange_rejects_witness :
    (parseDigitRange (numeral 0)).2.2 ≠ none ∧ (parseDigitRange (numeral (-3))).2.2 ≠ none ∧
    (parseDigitRange (numeral 6 ++ 0x2D :: numeral 3)).2.2 ≠ none ∧
    (parseDigitRange (numeral 0 ++ 0x2D :: numeral 5)).2.2 ≠ none ∧
    (parseDigitRange (lit "abc")).2.2 ≠ none ∧
    (parseDigitRange (lit "3-6-9")).2.2 ≠ none ∧
    ((1 : Int) ≤ 3 ∧ (3 : Int) ≤ 6) :=
  ⟨parseDigitRange_rejects.1 0 (by decide),
   parseDigitRange_rejects.1 (-3) (by decide),
   parseDigitRange_rejects.2.1 6 3 (by decide),
   parseDigitRange_rejects.2.1 0 5 (by decide),
   parseDigitRange_rejects.2.2.1 (lit "abc") ⟨lit "abc", by decide, by decide⟩,
   parseDigitRange_rejects.2.2.2.1 (lit "3-6-9") (by decide),
   parseDigitRange_rejects.2.2.2.2.1 (lit "3-6") 3 6 (by decide)⟩

/-! ## Lemmas on the word set -/

theorem containsAny_invalidChars (s : GoString) :
    stringsContainsAny s invalidChars = false ↔ ∀ c ∈ decodeRunes s, c ∉ forbiddenRunes := by
  have h : decodeRunes invalidChars = forbiddenRunes := by decide
  unfold stringsContainsAny
  rw [h, List.any_eq_false]
  simp

theorem mem_mapInsert (keys : List GoString) (word w : GoString) :
    w ∈ mapInsert keys word ↔ w ∈ keys ∨ w = word := by
  unfold mapInsert
  split
  · rename_i h
    constructor
    · exact Or.inl
    · rintro (h1 | rfl)
      · exact h1
      · exact h
  · simp

theorem nodup_mapInsert (keys : List GoString) (word : GoString) (h : keys.Nodup) :
    (mapInsert keys word).Nodup := by
  unfold mapInsert
  split
  · exact h
  · rename_i hn
    rw [List.nodup_append]
    refine ⟨h, List.nodup_singleton _, ?_⟩
    intro a ha hb
    rw [List.mem_singleton] at hb
    subst hb
    exact hn ha

theorem mem_filterLine (tbl : CaseTables) (keys : List GoString) (word w : GoString) :
    w ∈ filterLine tbl keys word ↔ w ∈ keys ∨ (w = word ∧ Survives tbl w) := by
  unfold filterLine Survives
  by_cases h : stringsContainsAny (stringsToLower tbl word) invalidChars = false
  · simp only [h, Bool.not_false, if_true, mem_mapInsert]
    constructor
    · rintro (h1 | rfl)
      · exact Or.inl h1
      · exact Or.inr ⟨rfl, (containsAny_invalidChars _).1 h⟩
    · rintro (h1 | ⟨rfl, _⟩)
      · exact Or.inl h1
      · exact Or.inr rfl
  · have h1 : stringsContainsAny (stringsToLower tbl word) invalidChars = true := by
      simpa using h
    simp only [h1, Bool.not_true, Bool.false_eq_true, if_false]
    constructor
    · exact Or.inl
    · rintro (h2 | ⟨rfl, hs⟩)
      · exact h2
      · exact absurd ((containsAny_invalidChars _).2 hs) h

theorem nodup_filterLine (tbl : CaseTables) (keys : List GoString) (word : GoString)
    (h : keys.Nodup) : (filterLine tbl keys word).Nodup := by
  unfold filterLine
  split
  · exact nodup_mapInsert keys word h
  · exact h

theorem mem_foldl_filterLine (tbl : CaseTables) (lines keys : List GoString) (w : GoString) :
    w ∈ lines.foldl (filterLine tbl) keys ↔ w ∈ keys ∨ (w ∈ lines ∧ Survives tbl w) := by
  induction lines generalizing keys with
  | nil => simp
  | cons l rest ih =>
    rw [List.foldl_cons, ih, mem_filterLine]
    simp only [List.mem_cons]
    tauto

theorem nodup_foldl_filterLine (tbl : CaseTables) (lines keys : List GoString)
    (h : keys.Nodup) : (lines.foldl (filterLine tbl) keys).Nodup := by
  induction lines generalizing keys with
  | nil => exact h
  | cons l rest ih => exact ih _ (nodup_filterLine tbl keys l h)

theorem mem_foldl_sources (tbl : CaseTables) (sources : List GoString) (keys : List GoString)
    (w : GoString) :
    w ∈ sources.foldl (fun keys text => (scanLines text).foldl (filterLine tbl) keys) keys ↔
      w ∈ keys ∨ (IsLine sources w ∧ Survives tbl w) := by
  induction sources generalizing keys with
  | nil => simp [IsLine]
  | cons t rest ih =>
    rw [List.foldl_cons, ih, mem_foldl_filterLine]
    simp only [IsLine, List.mem_cons, exists_eq_or_imp]
    tauto

theorem nodup_foldl_sources (tbl : CaseTables) (sources : List GoString) (keys : List GoString)
    (h : keys.Nodup) :
    (sources.foldl (fun keys text => (scanLines text).foldl (filterLine tbl) keys) keys).Nodup := by
  induction sources generalizing keys with
  | nil => exact h
  | cons t rest ih => exact ih _ (nodup_foldl_filterLine tbl _ keys h)

theorem mem_filterWords (tbl : CaseTables) (order : MapOrder) (sources : List GoString)
    (w : GoString) :
    w ∈ filterWords tbl order sources ↔ IsLine sources w ∧ Survives tbl w := by
  unfold filterWords
  rw [(order.perm _).mem_iff]
  unfold uniqueWords
  rw [mem_foldl_sources]
  simp

theorem nodup_filterWords (tbl : CaseTables) (order : MapOrder) (sources : List GoString) :
    (filterWords tbl order sources).Nodup := by
  unfold filterWords
  rw [(order.perm _).nodup_iff]
  exact nodup_foldl_sources tbl sources [] List.nodup_nil

/-! ## The scanner and the lines of a text -/

theorem dropCR_eq_withoutCR (line : GoString) : dropCR line = withoutCR line := by
  induction line with
  | nil => rfl
  | cons b rest ih =>
    cases rest with
    | nil =>
      unfold dropCR withoutCR
      by_cases hb : b = 0x0D
      · subst hb
        rfl
      · rw [if_neg hb]
        simp [hb]
    | cons b1 rest1 =>
      unfold withoutCR
      rw [← ih]
      unfold dropCR
      rw [List.getLast?_cons_cons]
      by_cases h : (b1 :: rest1).getLast? = some 0x0D
      · rw [if_pos h, if_pos h]
        rfl
      · rw [if_neg h, if_neg h]

theorem splitByte_ne_nil (sep : Nat) (s : GoString) : splitByte sep s ≠ [] := by
  cases s with
  | nil => simp [splitByte]
  | cons b rest =>
    unfold splitByte
    split
    · simp
    · split <;> simp

theorem rawLines_of_not_mem (cur : GoString) (h : 0x0A ∉ cur) :
    rawLines cur = if cur = [] then [] else [cur] := by
  unfold rawLines
  rw [splitByte_not_mem 0x0A cur h]
  by_cases hc : cur = []
  · subst hc
    rfl
  · rw [if_neg hc]
    simp only [List.getLast?_singleton, Option.some.injEq]
    rw [if_neg hc]

theorem rawLines_append (cur rest : GoString) (h : 0x0A ∉ cur) :
    rawLines (cur ++ 0x0A :: rest) = cur :: rawLines rest := by
  unfold rawLines
  rw [splitByte_append 0x0A cur rest h]
  obtain ⟨hd, tl, hs⟩ := List.exists_cons_of_ne_nil (splitByte_ne_nil 0x0A rest)
  rw [hs, List.getLast?_cons_cons]
  by_cases hl : (hd :: tl).getLast? = some []
  · rw [if_pos hl, if_pos hl]
    rfl
  · rw [if_neg hl, if_neg hl]

theorem splitByte_prefix (sep : Nat) (pre s : GoString) (h : sep ∉ pre) :
    ∃ hd tl, splitByte sep s = hd :: tl ∧ splitByte sep (pre ++ s) = (pre ++ hd) :: tl := by
  obtain ⟨hd, tl, hs⟩ := List.exists_cons_of_ne_nil (splitByte_ne_nil sep s)
  refine ⟨hd, tl, hs, ?_⟩
  induction pre with
  | nil => exact hs
  | cons c rest ih =>
    have hc : c ≠ sep := fun e => h (by simp [e])
    have hr : sep ∉ rest := fun e => h (by simp [e])
    rw [List.cons_append]
    unfold splitByte
    rw [if_neg hc, ih hr]
    rfl

theorem rawLines_prefix (pre s : GoString) (h : 0x0A ∉ pre) (hne : pre ≠ []) :
    ∃ hd tl, rawLines (pre ++ s) = (pre ++ hd) :: tl := by
  obtain ⟨hd, tl, -, hs⟩ := splitByte_prefix 0x0A pre s h
  unfold rawLines
  rw [hs]
  cases tl with
  | nil =>
    refine ⟨hd, [], ?_⟩
    have : pre ++ hd ≠ [] := by simp [hne]
    simp only [List.getLast?_singleton, Option.some.injEq]
    rw [if_neg this]
  | cons x xs =>
    by_cases hl : ((pre ++ hd) :: x :: xs).getLast? = some []
    · rw [if_pos hl]
      exact ⟨hd, (x :: xs).dropLast, rfl⟩
    · rw [if_neg hl]
      exact ⟨hd, x :: xs, rfl⟩

/-- The tokens of the scanner are the lines of the text that come before its first line
of more than 65535 bytes, each without its carriage return; `cur` is the part of the
current line read so far. -/
theorem scanAux_reached (text cur : GoString) (h : 0x0A ∉ cur)
    (hlen : cur.length < maxScanTokenSize) :
    (scanAux text cur).1 = reachedLines (cur ++ text) := by
  induction text generalizing cur with
  | nil =>
    unfold scanAux reachedLines
    rw [List.append_nil, rawLines_of_not_mem cur h]
    by_cases hc : cur = []
    · rw [if_pos hc, if_pos hc]
      rfl
    · rw [if_neg hc, if_neg hc, List.takeWhile_cons, if_pos (by simpa using hlen)]
      simp [dropCR_eq_withoutCR]
  | cons b rest ih =>
    unfold scanAux
    by_cases hb : b = 0x0A
    · subst hb
      rw [if_pos rfl]
      simp only
      rw [ih [] (by simp) (by unfold maxScanTokenSize; simp)]
      unfold reachedLines
      rw [rawLines_append cur rest h, List.takeWhile_cons, if_pos (by simpa using hlen),
        List.map_cons, dropCR_eq_withoutCR]
      rfl
    · rw [if_neg hb]
      have hcb : 0x0A ∉ cur ++ [b] := by
        intro hm
        rcases List.mem_append.1 hm with h1 | h1
        · exact h h1
        · rw [List.mem_singleton] at h1
          exact hb h1.symm
      by_cases hmax : maxScanTokenSize ≤ cur.length + 1
      · rw [if_pos hmax]
        obtain ⟨hd, tl, hr⟩ := rawLines_prefix (cur ++ [b]) rest hcb (by simp)
        have happ : cur ++ b :: rest = (cur ++ [b]) ++ rest := by simp
        unfold reachedLines
        rw [happ, hr, List.takeWhile_cons, if_neg]
        · rfl
        · simp only [List.length_append, List.length_singleton, decide_eq_true_eq, not_lt]
          omega
      · rw [if_neg hmax, ih (cur ++ [b]) hcb (by simp; omega)]
        simp

/-- The scanner ends with `ErrTooLong` exactly when the text has a line of more than 65535
bytes. -/
theorem scanAux_err (text cur : GoString) (h : 0x0A ∉ cur)
    (hlen : cur.length < maxScanTokenSize) :
    (scanAux text cur).2 =
      (rawLines (cur ++ text)).any (fun p => decide (maxScanTokenSize ≤ p.length)) := by
  induction text generalizing cur with
  | nil =>
    unfold scanAux
    rw [List.append_nil, rawLines_of_not_mem cur h]
    by_cases hc : cur = []
    · rw [if_pos hc, if_pos hc]
      rfl
    · rw [if_neg hc, if_neg hc, List.any_cons, List.any_nil, Bool.or_false]
      exact (decide_eq_false (by omega)).symm
  | cons b rest ih =>
    unfold scanAux
    by_cases hb : b = 0x0A
    · subst hb
      rw [if_pos rfl]
      simp only
      rw [ih [] (by simp) (by unfold maxScanTokenSize; simp), rawLines_append cur rest h,
        List.any_cons, decide_eq_false (by omega), Bool.false_or]
      rfl
    · rw [if_neg hb]
      have hcb : 0x0A ∉ cur ++ [b] := by
        intro hm
        rcases List.mem_append.1 hm with h1 | h1
        · exact h h1
        · rw [List.mem_singleton] at h1
          exact hb h1.symm
      have happ : cur ++ b :: rest = (cur ++ [b]) ++ rest := by simp
      by_cases hmax : maxScanTokenSize ≤ cur.length + 1
      · rw [if_pos hmax]
        obtain ⟨hd, tl, hr⟩ := rawLines_prefix (cur ++ [b]) rest hcb (by simp)
        rw [happ, hr, List.any_cons, decide_eq_true, Bool.true_or]
        rw [List.length_append, List.length_append, List.length_singleton]
        omega
      · rw [if_neg hmax, ih (cur ++ [b]) hcb (by simp; omega), happ]

theorem scanErr_eq (text : GoString) :
    scanErr text = (rawLines text).any (fun p => decide (maxScanTokenSize ≤ p.length)) := by
  unfold scanErr
  rw [scanAux_err text [] (by simp) (by unfold maxScanTokenSize; simp)]
  rfl

theorem scanLines_eq_reachedLines (text : GoString) : scanLines text = reachedLines text := by
  unfold scanLines
  rw [scanAux_reached text [] (by simp) (by unfold maxScanTokenSize; simp)]
  rfl

/-- When every line of a text has at most 65535 bytes, the scanner reaches all its lines. -/
theorem reachedLines_eq_textLines (text : GoString)
    (h : ∀ p ∈ rawLines text, p.length < maxScanTokenSize) : reachedLines text = textLines text := by
  unfold reachedLines textLines
  rw [List.takeWhile_eq_self_iff.2 (by simpa using h)]

theorem not_mem_replicate_of_ne (n c a : Nat) (h : c ≠ a) : c ∉ List.replicate n a := by
  intro hm
  exact h (List.eq_of_mem_replicate hm)

theorem not_mem_replicate_a (n : Nat) : 0x0A ∉ List.replicate n 0x61 :=
  not_mem_replicate_of_ne n 0x0A 0x61 (by decide)

theorem filterWords_of_scanLines_nil (tbl : CaseTables) (order : MapOrder) (text : GoString)
    (h : scanLines text = []) : filterWords tbl order [text] = [] := by
  unfold filterWords uniqueWords
  rw [List.foldl_cons, List.foldl_nil, h, List.foldl_nil]
  exact (order.perm []).eq_nil

theorem reachedLines_long (n : Nat) (hn : maxScanTokenSize ≤ n) (tail rest : GoString)
    (ht : 0x0A ∉ tail) :
    reachedLines (List.replicate n 0x61 ++ tail ++ 0x0A :: rest) = [] := by
  have hnot : 0x0A ∉ List.replicate n 0x61 ++ tail := by
    intro h
    rcases List.mem_append.1 h with h1 | h1
    · exact not_mem_replicate_a n h1
    · exact ht h1
  unfold reachedLines
  rw [rawLines_append _ rest hnot, List.takeWhile_cons, if_neg]
  · rfl
  · rw [List.length_append, List.length_replicate]
    simp only [decide_eq_true_eq, not_lt]
    omega

/-- C5 (counterexample): the text `longLineText` has the two lines "aaa...a" (65536 bytes)
and "Haus"; the line "Haus" has no forbidden character, and `filterWords` returns no word
at all, under any map order: the scanner stops at the first line, which does not fit its
buffer. -/
theorem filterWords_after_long_line :
    rawLines longLineText = [List.replicate 65536 0x61, lit "Haus"] ∧
    (lit "Haus" ∈ textLines longLineText ∧
      ∀ c ∈ decodeRunes (stringsToLower latin1 (lit "Haus")),
        c ∉ [0x79, 0x7A, 0xE4, 0xF6, 0xFC, 0xDF]) ∧
    (scanLines longLineText = [] ∧ scanErr longLineText = true) ∧
    (∀ order : MapOrder, filterWords latin1 order [longLineText] = [] ∧
      lit "Haus" ∉ filterWords latin1 order [longLineText]) := by
  have hraw : rawLines longLineText = [List.replicate 65536 0x61, lit "Haus"] := by
    unfold longLineText
    rw [rawLines_append _ _ (not_mem_replicate_a _)]
    rw [show rawLines (lit "Haus") = [lit "Haus"] by decide]
  have hscan : scanLines longLineText = [] := by
    rw [scanLines_eq_reachedLines]
    have := reachedLines_long 65536 (by unfold maxScanTokenSize; omega) [] (lit "Haus")
      (by simp)
    rw [List.append_nil] at this
    exact this
  refine ⟨hraw, ⟨?_, by decide⟩, ⟨hscan, ?_⟩, ?_⟩
  · unfold textLines
    rw [hraw]
    exact List.mem_map.2 ⟨lit "Haus", by
      rw [List.mem_cons, List.mem_singleton]
      exact Or.inr rfl, by decide⟩
  · rw [scanErr_eq, hraw, List.any_cons, List.length_replicate]
    rfl
  · intro order
    have h := filterWords_of_scanLines_nil latin1 order longLineText hscan
    rw [h]
    exact ⟨rfl, List.not_mem_nil _⟩

theorem mem_filterWords_reached (tbl : CaseTables) (order : MapOrder) (sources : List GoString)
    (w : GoString) :
    w ∈ filterWords tbl order sources ↔
      (∃ text ∈ sources, w ∈ reachedLines text) ∧ Survives tbl w := by
  rw [mem_filterWords]
  unfold IsLine
  simp only [scanLines_eq_reachedLines]

theorem mem_filterWords_lines (tbl : CaseTables) (order : MapOrder) (sources : List GoString)
    (hfit : ∀ text ∈ sources, ∀ p ∈ rawLines text, p.length ≤ 65535) (w : GoString) :
    w ∈ filterWords tbl order sources ↔
      (∃ text ∈ sources, w ∈ textLines text) ∧ Survives tbl w := by
  rw [mem_filterWords_reached]
  have hiff : (∃ text ∈ sources, w ∈ reachedLines text) ↔ ∃ text ∈ sources, w ∈ textLines text := by
    constructor
    · rintro ⟨text, ht, hw⟩
      rw [reachedLines_eq_textLines text (fun p hp => by
        have := hfit text ht p hp
        unfold maxScanTokenSize
        omega)] at hw
      exact ⟨text, ht, hw⟩
    · rintro ⟨text, ht, hw⟩
      rw [← reachedLines_eq_textLines text (fun p hp => by
        have := hfit text ht p hp
        unfold maxScanTokenSize
        omega)] at hw
      exact ⟨text, ht, hw⟩
  rw [hiff]

/-- C5 (amended): a string is an element of `filterWords(sources)` exactly when it is one
of the lines of a source text that come before the first line of more than 65535 bytes of
that text, and its lower-case form contains none of y, z, ä, ö, ü, ß. When no line of the
sources has more than 65535 bytes, these are all the lines of the texts. Two preparations
of the same sources, under any two map iteration orders, have the same members. The lines
Haus, Boot, Yacht, Zebra, Auto, Äpfel, Haus give exactly Haus, Boot, Auto, and a carriage
return before a line feed is not part of the line. -/
theorem filterWords_membership (tbl : CaseTables) (order1 order2 : MapOrder)
    (sources : List GoString) (w : GoString) :
    (w ∈ filterWords tbl order1 sources ↔
      (∃ text ∈ sources, w ∈ reachedLines text) ∧
        ∀ c ∈ decodeRunes (stringsToLower tbl w), c ∉ [0x79, 0x7A, 0xE4, 0xF6, 0xFC, 0xDF]) ∧
    ((∀ text ∈ sources, ∀ p ∈ rawLines text, p.length ≤ 65535) →
      (w ∈ filterWords tbl order1 sources ↔
        (∃ text ∈ sources, w ∈ textLines text) ∧
          ∀ c ∈ decodeRunes (stringsToLower tbl w), c ∉ [0x79, 0x7A, 0xE4, 0xF6, 0xFC, 0xDF])) ∧
    (w ∈ filterWords tbl order1 sources ↔ w ∈ filterWords tbl order2 sources) ∧
    (textLines (lit "Haus\nBoot\nYacht\nZebra") ++ textLines (lit "Auto\nÄpfel\nHaus") =
        [lit "Haus", lit "Boot", lit "Yacht", lit "Zebra", lit "Auto", lit "Äpfel", lit "Haus"] ∧
      (w ∈ filterWords latin1 order1 [lit "Haus\nBoot\nYacht\nZebra", lit "Auto\nÄpfel\nHaus"] ↔
        w ∈ [lit "Haus", lit "Boot", lit "Auto"]) ∧
      textLines (lit "Haus\r\nBoot\r\n") = [lit "Haus", lit "Boot"] ∧
      filterWords latin1 insertionOrder [lit "Haus\r\nBoot\r\n"] = [lit "Haus", lit "Boot"]) := by
  refine ⟨mem_filterWords_reached tbl order1 sources w,
    fun hfit => mem_filterWords_lines tbl order1 sources hfit w, ?_, by decide, ?_, by decide,
    by decide⟩
  · rw [mem_filterWords, mem_filterWords]
  · unfold filterWords
    rw [(order1.perm _).mem_iff]
    rw [show uniqueWords latin1 [lit "Haus\nBoot\nYacht\nZebra", lit "Auto\nÄpfel\nHaus"] =
      [lit "Haus", lit "Boot", lit "Auto"] by decide]

/-- C6 (counterexample): the text `longLineCaseText` has the lines "aaa...a" (65536 bytes),
"Haus" and "haus"; the last two have no forbidden character and differ only in letter
case, and neither is in the result of `filterWords`, which is empty under any map order. -/
theorem filterWords_case_after_long_line :
    rawLines longLineCaseText = [List.replicate 65536 0x61, lit "Haus", lit "haus"] ∧
    (lit "Haus" ∈ textLines longLineCaseText ∧ lit "haus" ∈ textLines longLineCaseText) ∧
    (Survives latin1 (lit "Haus") ∧ Survives latin1 (lit "haus")) ∧
    (lit "Haus" ≠ lit "haus" ∧
      stringsToLower latin1 (lit "Haus") = stringsToLower latin1 (lit "haus")) ∧
    (∀ order : MapOrder, filterWords latin1 order [longLineCaseText] = [] ∧
      lit "Haus" ∉ filterWords latin1 order [longLineCaseText] ∧
      lit "haus" ∉ filterWords latin1 order [longLineCaseText]) := by
  have hraw : rawLines longLineCaseText =
      [List.replicate 65536 0x61, lit "Haus", lit "haus"] := by
    unfold longLineCaseText
    rw [rawLines_append _ _ (not_mem_replicate_a _)]
    rw [show rawLines (lit "Haus\nhaus") = [lit "Haus", lit "haus"] by decide]
  have hscan : scanLines longLineCaseText = [] := by
    rw [scanLines_eq_reachedLines]
    have := reachedLines_long 65536 (by unfold maxScanTokenSize; omega) [] (lit "Haus\nhaus")
      (by simp)
    rw [List.append_nil] at this
    exact this
  refine ⟨hraw, ⟨?_, ?_⟩, ⟨by unfold Survives; decide, by unfold Survives; decide⟩,
    by decide, ?_⟩
  · unfold textLines
    rw [hraw]
    exact List.mem_map.2 ⟨lit "Haus", by
      rw [List.mem_cons, List.mem_cons]
      exact Or.inr (Or.inl rfl), by decide⟩
  · unfold textLines
    rw [hraw]
    exact List.mem_map.2 ⟨lit "haus", by
      rw [List.mem_cons, List.mem_cons, List.mem_singleton]
      exact Or.inr (Or.inr rfl), by decide⟩
  · intro order
    have h := filterWords_of_scanLines_nil latin1 order longLineCaseText hscan
    rw [h]
    exact ⟨rfl, List.not_mem_nil _, List.not_mem_nil _⟩

/-- C6 (amended): the list returned by `filterWords` contains no two equal strings, for
every list of source texts and every map order. Any two distinct lines that the scanner
reaches (lines before the first line of more than 65535 bytes of their text) and that
survive the filter both appear in it, at different positions, also when they differ only
in letter case; when no line of the sources has more than 65535 bytes, this holds for any
two distinct surviving lines of the texts. The text with the lines "Haus", "haus", "Haus"
gives the list "Haus", "haus". -/
theorem filterWords_nodup_exact (tbl : CaseTables) (order : MapOrder)
    (sources : List GoString) :
    (filterWords tbl order sources).Nodup ∧
    (∀ a b : GoString,
      (∃ text ∈ sources, a ∈ reachedLines text) → Survives tbl a →
      (∃ text ∈ sources, b ∈ reachedLines text) → Survives tbl b → a ≠ b →
        a ∈ filterWords tbl order sources ∧ b ∈ filterWords tbl order sources ∧
        ∃ i j, i ≠ j ∧ (filterWords tbl order sources).get? i = some a ∧
          (filterWords tbl order sources).get? j = some b) ∧
    ((∀ text ∈ sources, ∀ p ∈ rawLines text, p.length ≤ 65535) →
      ∀ a b : GoString,
        (∃ text ∈ sources, a ∈ textLines text) → Survives tbl a →
        (∃ text ∈ sources, b ∈ textLines text) → Survives tbl b → a ≠ b →
          a ∈ filterWords tbl order sources ∧ b ∈ filterWords tbl order sources ∧
          ∃ i j, i ≠ j ∧ (filterWords tbl order sources).get? i = some a ∧
            (filterWords tbl order sources).get? j = some b) ∧
    ((lit "Haus" ≠ lit "haus" ∧
        stringsToLower latin1 (lit "Haus") = stringsToLower latin1 (lit "haus")) ∧
      textLines (lit "Haus\nhaus\nHaus") = [lit "Haus", lit "haus", lit "Haus"] ∧
      filterWords latin1 insertionOrder [lit "Haus\nhaus\nHaus"] = [lit "Haus", lit "haus"] ∧
      filterWords latin1 insertionOrder [lit "Haus\nHaus"] = [lit "Haus"]) := by
  have hn := nodup_filterWords tbl order sources
  have key : ∀ a b : GoString, a ∈ filterWords tbl order sources →
      b ∈ filterWords tbl order sources → a ≠ b →
      a ∈ filterWords tbl order sources ∧ b ∈ filterWords tbl order sources ∧
      ∃ i j, i ≠ j ∧ (filterWords tbl order sources).get? i = some a ∧
        (filterWords tbl order sources).get? j = some b := by
    intro a b hma hmb hab
    obtain ⟨i, hi⟩ := List.get?_of_mem hma
    obtain ⟨j, hj⟩ := List.get?_of_mem hmb
    refine ⟨hma, hmb, i, j, ?_, hi, hj⟩
    rintro rfl
    rw [hi] at hj
    injection hj with hj
    exact hab hj
  refine ⟨hn, ?_, ?_, by decide, by decide, by decide, by decide⟩
  · intro a b ha hsa hb hsb hab
    exact key a b ((mem_filterWords_reached tbl order sources a).2 ⟨ha, hsa⟩)
      ((mem_filterWords_reached tbl order sources b).2 ⟨hb, hsb⟩) hab
  · intro hfit a b ha hsa hb hsb hab
    exact key a b ((mem_filterWords_lines tbl order sources hfit a).2 ⟨ha, hsa⟩)
      ((mem_filterWords_lines tbl order sources hfit b).2 ⟨hb, hsb⟩) hab

/-! ## Lemmas on `NewGenerator` and the word draw -/

theorem loadWordsFromFiles_nil (fs : GoString → File) (acc : List GoString) :
    loadWordsFromFiles fs [] acc = (acc, none) := rfl

theorem loadWordsFromFiles_single (env : Env) (name : GoString) (hne : name ≠ []) :
    (Unreadable env name ∧ (loadWordsFromFiles env.fs [name] []).2 ≠ none) ∨
    (¬ Unreadable env name ∧ loadWordsFromFiles env.fs [name] [] = (fileLines env name, none)) := by
  unfold loadWordsFromFiles Unreadable fileLines
  rw [if_neg hne]
  cases hf : env.fs name with
  | missing => left; simp [hne]
  | failing => left; simp [hne]
  | text content =>
    by_cases he : scanErr content = true
    · left
      simp [he, hne]
    · right
      simp [he, hne, loadWordsFromFiles]

theorem randInt_pos (max : Int) (h : 0 < max) (src : Source) (pos : Nat) :
    ∃ pos1, randInt max src pos = .done none pos1 ∨
      ∃ n : Int, 0 ≤ n ∧ n < max ∧ randInt max src pos = .done (some n) pos1 := by
  unfold randInt
  rw [if_neg (by omega)]
  by_cases h1 : max = 1
  · rw [if_pos h1]
    exact ⟨pos, Or.inr ⟨0, le_refl _, h, rfl⟩⟩
  · rw [if_neg h1]
    cases src pos with
    | none => exact ⟨pos + 1, Or.inl rfl⟩
    | some r =>
      exact ⟨pos + 1, Or.inr
        ⟨(r : Int) % max, Int.emod_nonneg _ (by omega), Int.emod_lt_of_pos _ h, rfl⟩⟩

theorem bind_eq {α β : Type} (m : Rand α) (k : α → Rand β) (src : Source) (pos : Nat) :
    (m >>= k) src pos = Rand.bind m k src pos := rfl

theorem bind_done {α β : Type} (m : Rand α) (k : α → Rand β) (src : Source) (pos pos1 : Nat)
    (a : α) (h : m src pos = .done a pos1) : (m >>= k) src pos = k a src pos1 := by
  rw [bind_eq]
  unfold Rand.bind
  rw [h]

theorem bind_panic {α β : Type} (m : Rand α) (k : α → Rand β) (src : Source) (pos : Nat)
    (h : m src pos = .panic) : (m >>= k) src pos = .panic := by
  rw [bind_eq]
  unfold Rand.bind
  rw [h]

theorem bind_fatal {α β : Type} (m : Rand α) (k : α → Rand β) (src : Source) (pos : Nat)
    (h : m src pos = .fatal) : (m >>= k) src pos = .fatal := by
  rw [bind_eq]
  unfold Rand.bind
  rw [h]

theorem pure_eq {α : Type} (a : α) (src : Source) (pos : Nat) :
    (pure a : Rand α) src pos = .done a pos := rfl

theorem getRandomWord_cases (g : Generator) (h : g.filteredWords ≠ []) (src : Source)
    (pos : Nat) :
    ∃ pos1, getRandomWord g src pos = .done ([], some .entropy) pos1 ∨
      ∃ w ∈ g.filteredWords, getRandomWord g src pos = .done (w, none) pos1 := by
  have hlen : (0 : Int) < g.filteredWords.length := by
    have := List.length_pos.2 h
    omega
  unfold getRandomWord
  obtain ⟨pos1, hr | ⟨n, h0, h1, hr⟩⟩ := randInt_pos _ hlen src pos
  · refine ⟨pos1, Or.inl ?_⟩
    rw [bind_done _ _ _ _ _ _ hr]
    rfl
  · refine ⟨pos1, Or.inr ?_⟩
    rw [bind_done _ _ _ _ _ _ hr]
    have hlt : n.toNat < g.filteredWords.length := by omega
    refine ⟨g.filteredWords.get ⟨n.toNat, hlt⟩, List.get_mem _ _ _, ?_⟩
    simp only [List.get?_eq_get hlt]
    rfl

/-- C7: `NewGenerator` returns an error exactly when the designated wordlist file cannot
be read or fewer words than `config.WordCount` are left after filtering; it returns a
generator exactly when it returns no error; a returned generator keeps the configuration
and has `WordCount() ≥ config.WordCount`, so that for a word count of at least 1 the word
draw has a positive bound and a valid index (it never panics and a drawn word is a member
of the word set); and a word count of 10 against a list that filters down to 3 words
fails. -/
theorem NewGenerator_error_iff (env : Env) (config : Config) :
    ((NewGenerator env config).2 ≠ none ↔
      Unreadable env (designatedFile config) ∨
        ((filterWords env.tbl env.order (wordSources env config)).length : Int) <
          config.WordCount) ∧
    ((NewGenerator env config).1 = none ↔ (NewGenerator env config).2 ≠ none) ∧
    (∀ g, (NewGenerator env config).1 = some g →
      g.config = config ∧ config.WordCount ≤ g.WordCount ∧
        (1 ≤ config.WordCount → 0 < g.WordCount ∧ ∀ (src : Source) (pos : Nat),
          ∃ pos1, getRandomWord g src pos = .done ([], some .entropy) pos1 ∨
            ∃ w ∈ g.filteredWords, getRandomWord g src pos = .done (w, none) pos1)) ∧
    ((filterWords sampleEnv.tbl sampleEnv.order (wordSources sampleEnv (sampleConfig 10 1))).length = 3 ∧
      NewGenerator sampleEnv (sampleConfig 10 1) = (none, some (.notEnoughWords 3 10))) := by
  have main : ∀ (files : List GoString) (base : List GoString) (lines : List GoString),
      loadWordsFromFiles env.fs files [] = (lines, none) →
      (match loadWordsFromFiles env.fs files [] with
        | (_, some err) => ((none : Option Generator), some err)
        | (fileWords, none) =>
          if ((filterWords env.tbl env.order (base ++ fileWords)).length : Int) < config.WordCount
          then (none, some (.notEnoughWords (filterWords env.tbl env.order (base ++ fileWords)).length
            config.WordCount))
          else (some ⟨filterWords env.tbl env.order (base ++ fileWords), config⟩, none)) =
        if ((filterWords env.tbl env.order (base ++ lines)).length : Int) < config.WordCount
          then (none, some (.notEnoughWords (filterWords env.tbl env.order (base ++ lines)).length
            config.WordCount))
          else (some ⟨filterWords env.tbl env.order (base ++ lines), config⟩, none) := by
    intro files base lines h
    rw [h]
  have fail : ∀ (files : List GoString) (base : List GoString),
      (loadWordsFromFiles env.fs files []).2 ≠ none →
      ∃ err, (match loadWordsFromFiles env.fs files [] with
        | (_, some err) => ((none : Option Generator), some err)
        | (fileWords, none) =>
          if ((filterWords env.tbl env.order (base ++ fileWords)).length : Int) < config.WordCount
          then (none, some (.notEnoughWords (filterWords env.tbl env.order (base ++ fileWords)).length
            config.WordCount))
          else (some ⟨filterWords env.tbl env.order (base ++ fileWords), config⟩, none)) =
        (none, some err) := by
    intro files base h
    rcases hl : loadWordsFromFiles env.fs files [] with ⟨ws, _ | err⟩
    · rw [hl] at h; exact absurd rfl h
    · exact ⟨err, rfl⟩
  -- the shape of the result in each of the three ways of choosing the sources
  have shape : (Unreadable env (designatedFile config) ∧ ∃ err, NewGenerator env config = (none, some err)) ∨
      (¬ Unreadable env (designatedFile config) ∧
        NewGenerator env config =
          if ((filterWords env.tbl env.order (wordSources env config)).length : Int) < config.WordCount
          then (none, some (.notEnoughWords (filterWords env.tbl env.order (wordSources env config)).length
            config.WordCount))
          else (some ⟨filterWords env.tbl env.order (wordSources env config), config⟩, none)) := by
    unfold NewGenerator designatedFile wordSources
    by_cases hA : config.AltList ≠ []
    · simp only [if_pos hA]
      rcases loadWordsFromFiles_single env config.AltList hA with ⟨hu, hl⟩ | ⟨hu, hl⟩
      · exact Or.inl ⟨hu, fail _ _ hl⟩
      · exact Or.inr ⟨hu, by rw [main _ _ _ hl]; rfl⟩
    · simp only [if_neg hA]
      by_cases hM : config.MergeList ≠ []
      · simp only [if_pos hM]
        rcases loadWordsFromFiles_single env config.MergeList hM with ⟨hu, hl⟩ | ⟨hu, hl⟩
        · exact Or.inl ⟨hu, fail _ _ hl⟩
        · exact Or.inr ⟨hu, by rw [main _ _ _ hl]; rfl⟩
      · simp only [if_neg hM]
        have hu : ¬ Unreadable env config.MergeList := fun h => hM h.1
        exact Or.inr ⟨hu, by rw [main _ _ _ (loadWordsFromFiles_nil _ _)]; rfl⟩
  refine ⟨?_, ?_, ?_, by decide⟩
  · rcases shape with ⟨hu, err, he⟩ | ⟨hu, he⟩
    · rw [he]
      simp [hu]
    · rw [he]
      split <;> simp [hu, *]
  · rcases shape with ⟨hu, err, he⟩ | ⟨hu, he⟩
    · rw [he]
      simp
    · rw [he]
      split <;> simp
  · intro g hg
    rcases shape with ⟨hu, err, he⟩ | ⟨hu, he⟩
    · rw [he] at hg
      cases hg
    · rw [he] at hg
      split at hg
      · cases hg
      · rename_i hlt
        simp only [Option.some.injEq] at hg
        subst hg
        have hle : config.WordCount ≤
            ((filterWords env.tbl env.order (wordSources env config)).length : Int) := by omega
        refine ⟨rfl, hle, ?_⟩
        intro h1
        have hpos : (0 : Int) < (filterWords env.tbl env.order (wordSources env config)).length := by
          omega
        refine ⟨hpos, fun src pos => getRandomWord_cases _ ?_ src pos⟩
        intro hnil
        have hnil1 : filterWords env.tbl env.order (wordSources env config) = [] := hnil
        rw [hnil1] at hpos
        simp at hpos

/-! ## Lemmas on ASCII strings -/

theorem decodeAux_ascii (s : GoString) (h : ∀ c ∈ s, c < 0x80) :
    decodeAux 0 s = s.map (fun c => (c, 1)) := by
  induction s with
  | nil => rfl
  | cons b rest ih =>
    have hb : b < 0x80 := h b (by simp)
    have hd : decodeRune b rest = (b, 1) := by
      unfold decodeRune
      rw [if_pos hb]
    simp only [decodeAux, hd, List.map_cons]
    rw [ih (fun c hc => h c (by simp [hc]))]

theorem decodeRunes_ascii (s : GoString) (h : ∀ c ∈ s, c < 0x80) : decodeRunes s = s := by
  unfold decodeRunes
  rw [decodeAux_ascii s h, List.map_map]
  have hid : (Prod.fst ∘ fun c : Nat => (c, 1)) = id := rfl
  rw [hid, List.map_id]

theorem encodeRunes_ascii (s : List Nat) (h : ∀ c ∈ s, c < 0x80) : encodeRunes s = s := by
  induction s with
  | nil => rfl
  | cons b rest ih =>
    have hb : b < 0x80 := h b (by simp)
    have ih1 := ih (fun c hc => h c (by simp [hc]))
    unfold encodeRunes at ih1 ⊢
    rw [List.flatMap_cons, ih1]
    unfold encodeRune
    rw [if_pos hb]
    rfl

theorem randInt_some (max : Int) (h : 0 < max) (src : Source) (pos r : Nat)
    (hr : src pos = some r) :
    ∃ pos1, randInt max src pos = .done (some ((r : Int) % max)) pos1 := by
  unfold randInt
  rw [if_neg (by omega)]
  by_cases h1 : max = 1
  · rw [if_pos h1, h1, Int.emod_one]
    exact ⟨pos, rfl⟩
  · rw [if_neg h1, hr]
    exact ⟨pos + 1, rfl⟩

theorem randInt_panic (max : Int) (h : max ≤ 0) (src : Source) (pos : Nat) :
    randInt max src pos = .panic := by
  unfold randInt
  rw [if_pos h]

/-- C8 (failing input): the word "élan" passes the filter, and mode "camel" turns it into
the bytes C3 83 A9 6C 61 6E, which are not the encoding of "Élan": the first byte of the
two-byte character was upper-cased as if it were the character U+00C3, and the second
byte was left behind it. -/
theorem applyCapitalization_camel_nonASCII :
    lit "élan" ∈ filterWords latin1 insertionOrder [lit "élan"] ∧
    applyCapitalization latin1 (lit "élan") (lit "camel") (constSource 0) 0 =
      .done [0xC3, 0x83, 0xA9, 0x6C, 0x61, 0x6E] 0 ∧
    camelFirstSpec latin1 (lit "élan") = lit "Élan" ∧
    lit "Élan" = [0xC3, 0x89, 0x6C, 0x61, 0x6E] ∧
    decodeRunes [0xC3, 0x83, 0xA9, 0x6C, 0x61, 0x6E] = [0xC3, runeError, 0x6C, 0x61, 0x6E] := by
  decide

/-- C9: for a non-empty word of lower-case ASCII letters and a successful index draw,
`applyCapitalization(word, "random")` returns a string of the same length that
lower-cases back to the word and has an upper-case letter at the drawn index and nowhere
else. -/
theorem applyCapitalization_random (tbl : CaseTables) (word : GoString) (src : Source)
    (pos r : Nat) (hne : word ≠ []) (hlow : ∀ c ∈ word, 0x61 ≤ c ∧ c ≤ 0x7A)
    (hr : src pos = some r) :
    ∃ out pos1, applyCapitalization tbl word (lit "random") src pos = .done out pos1 ∧
      out.length = word.length ∧ stringsToLower tbl out = word ∧
      ∀ j, j < out.length →
        ((0x41 ≤ out.getD j 0 ∧ out.getD j 0 ≤ 0x5A) ↔ j = r % word.length) := by
  have hascii : ∀ c ∈ word, c < 0x80 := fun c hc => by have := hlow c hc; omega
  have hlen : 0 < word.length := List.length_pos.2 hne
  have hi : r % word.length < word.length := Nat.mod_lt _ hlen
  let i := r % word.length
  let c := word.get ⟨i, hi⟩
  have hc : 0x61 ≤ c ∧ c ≤ 0x7A := hlow c (List.get_mem _ _ _)
  let out := word.set i (c - 0x20)
  have hout_ascii : ∀ d ∈ out, d < 0x80 := by
    intro d hd
    rcases List.mem_or_eq_of_mem_set hd with h | h
    · exact hascii d h
    · omega
  have hrun : ∃ pos1, applyCapitalization tbl word (lit "random") src pos = .done out pos1 := by
    cases hw : word with
    | nil => exact absurd hw hne
    | cons b0 tail =>
      unfold applyCapitalization
      simp only
      rw [if_neg (by decide), if_pos True.intro, ← hw]
      rw [decodeRunes_ascii word hascii]
      have hpos : (0 : Int) < (word.length : Int) := by omega
      obtain ⟨pos1, hdraw⟩ := randInt_some _ hpos src pos r hr
      refine ⟨pos1, ?_⟩
      rw [bind_done _ _ _ _ _ _ hdraw]
      have htn : ((r : Int) % (word.length : Int)).toNat = i := by
        rw [← Int.natCast_mod, Int.toNat_ofNat]
      simp only [htn, List.get?_eq_get hi]
      have hup : unicodeToUpper tbl (word.get ⟨i, hi⟩) = c - 0x20 := by
        unfold unicodeToUpper
        rw [if_pos (by omega), if_pos hc]
      rw [hup, encodeRunes_ascii _ hout_ascii]
      rfl
  obtain ⟨pos1, hrun⟩ := hrun
  refine ⟨out, pos1, hrun, by simp [out], ?_, ?_⟩
  · unfold stringsToLower
    have hall : out.all (fun c => decide (c < 0x80)) = true := by
      rw [List.all_eq_true]
      intro d hd
      simpa using hout_ascii d hd
    rw [if_pos hall]
    apply List.ext_getElem
    · simp [out]
    · intro j h1 h2
      simp only [List.getElem_map, out, List.getElem_set]
      by_cases hj : i = j
      · subst hj
        rw [if_pos rfl, if_pos (by omega)]
        show c - 0x20 + 0x20 = word.get ⟨i, hi⟩
        omega
      · rw [if_neg hj]
        have := hlow word[j] (List.getElem_mem _)
        rw [if_neg (by omega)]
  · intro j hj
    have hj' : j < word.length := by simpa [out] using hj
    have hget : out.getD j 0 = if i = j then c - 0x20 else word[j] := by
      rw [List.getD_eq_getElem _ _ hj]
      simp only [out, List.getElem_set]
    rw [hget]
    by_cases hij : i = j
    · rw [if_pos hij]
      constructor
      · intro _; exact hij.symm
      · intro _; omega
    · rw [if_neg hij]
      have := hlow word[j] (List.getElem_mem _)
      constructor
      · intro h; omega
      · intro h; exact absurd h.symm hij

/-- C9 (witness): for the word "test" and the raw outcome 6, the drawn index is 2 and the
result is "teSt". -/
theorem applyCapitalization_random_witness :
    ∃ out pos1, applyCapitalization latin1 (lit "test") (lit "random") (constSource 6) 0 =
        .done out pos1 ∧
      out.length = (lit "test").length ∧ stringsToLower latin1 out = lit "test" ∧
      ∀ j, j < out.length →
        ((0x41 ≤ out.getD j 0 ∧ out.getD j 0 ≤ 0x5A) ↔ j = 6 % (lit "test").length) :=
  applyCapitalization_random latin1 (lit "test") (constSource 6) 0 6 (by decide) (by decide) rfl

/-! ## Reasoning about runs -/

theorem post_pure {α : Type} {a : α} {Q : α → Prop} (h : Q a) : Post (pure a : Rand α) Q := by
  intro src pos b pos1 hb
  rw [pure_eq] at hb
  injection hb with hb _
  exact hb ▸ h

theorem post_bind {α β : Type} {m : Rand α} {k : α → Rand β} {R : α → Prop} {Q : β → Prop}
    (hm : Post m R) (hk : ∀ a, R a → Post (k a) Q) : Post (m >>= k) Q := by
  intro src pos b pos1 hb
  rw [bind_eq] at hb
  unfold Rand.bind at hb
  cases hmr : m src pos with
  | done a pos2 =>
    rw [hmr] at hb
    exact hk a (hm src pos a pos2 hmr) src pos2 b pos1 hb
  | panic => rw [hmr] at hb; cases hb
  | fatal => rw [hmr] at hb; cases hb

theorem post_mono {α : Type} {m : Rand α} {Q R : α → Prop} (hm : Post m Q)
    (h : ∀ a, Q a → R a) : Post m R :=
  fun src pos a pos1 ha => h a (hm src pos a pos1 ha)

theorem post_goPanic {α : Type} {Q : α → Prop} : Post (goPanic : Rand α) Q := by
  intro src pos a pos1 h
  cases h

theorem post_logFatalf {α : Type} {Q : α → Prop} : Post (logFatalf : Rand α) Q := by
  intro src pos a pos1 h
  cases h

theorem sure_pure {α : Type} {src : Source} {a : α} {Q : α → Prop} (h : Q a) :
    Sure src (pure a : Rand α) Q :=
  fun pos => ⟨a, pos, rfl, h⟩

theorem sure_bind {α β : Type} {src : Source} {m : Rand α} {k : α → Rand β} {R : α → Prop}
    {Q : β → Prop} (hm : Sure src m R) (hk : ∀ a, R a → Sure src (k a) Q) :
    Sure src (m >>= k) Q := by
  intro pos
  obtain ⟨a, pos1, ha, hR⟩ := hm pos
  obtain ⟨b, pos2, hb, hQ⟩ := hk a hR pos1
  exact ⟨b, pos2, by rw [bind_done _ _ _ _ _ _ ha]; exact hb, hQ⟩

theorem sure_mono {α : Type} {src : Source} {m : Rand α} {Q R : α → Prop} (hm : Sure src m Q)
    (h : ∀ a, Q a → R a) : Sure src m R := by
  intro pos
  obtain ⟨a, pos1, ha, hQ⟩ := hm pos
  exact ⟨a, pos1, ha, h a hQ⟩

/-- With its bound positive, every value returned by `rand.Int` is nil or lies in
`[0, max)`. -/
theorem randInt_post (max : Int) :
    Post (randInt max) (fun n => ∀ v, n = some v → 0 ≤ v ∧ v < max) := by
  intro src pos a pos1 h
  unfold randInt at h
  by_cases h0 : max ≤ 0
  · rw [if_pos h0] at h
    cases h
  · rw [if_neg h0] at h
    by_cases h1 : max = 1
    · rw [if_pos h1] at h
      injection h with h _
      subst h
      intro v hv
      injection hv with hv
      subst hv
      omega
    · rw [if_neg h1] at h
      cases hs : src pos with
      | none =>
        rw [hs] at h
        injection h with h _
        subst h
        intro v hv
        cases hv
      | some r =>
        rw [hs] at h
        injection h with h _
        subst h
        intro v hv
        injection hv with hv
        subst hv
        exact ⟨Int.emod_nonneg _ (by omega), Int.emod_lt_of_pos _ (by omega)⟩

/-- With a source that never fails and a positive bound, `rand.Int` returns a value of
`[0, max)`. -/
theorem randInt_sure (src : Source) (hsrc : NeverFails src) (max : Int) (h : 0 < max) :
    Sure src (randInt max) (fun n => ∃ v, n = some v ∧ 0 ≤ v ∧ v < max) := by
  intro pos
  cases hr : src pos with
  | none => exact absurd hr (hsrc pos)
  | some r =>
    obtain ⟨pos1, hdraw⟩ := randInt_some max h src pos r hr
    exact ⟨_, pos1, hdraw, _, rfl, Int.emod_nonneg _ (by omega), Int.emod_lt_of_pos _ h⟩

theorem getRandomSeparatorChar_post (pool : List GoString) :
    Post (getRandomSeparatorChar pool) (fun r => r.2 = none → r.1 ∈ pool) := by
  unfold getRandomSeparatorChar
  refine post_bind (randInt_post _) ?_
  intro n hn
  cases n with
  | none => exact post_pure (by simp)
  | some v =>
    simp only
    cases hg : pool.get? v.toNat with
    | none => exact post_goPanic
    | some c =>
      exact post_pure (fun _ => List.get?_mem hg)

theorem wrapInt_eq (x : Int) (h0 : minInt ≤ x) (h1 : x ≤ maxInt) : wrapInt x = x := by
  unfold wrapInt
  unfold minInt at h0
  unfold maxInt at h1
  rw [Int.emod_eq_of_lt (by omega) (by omega)]
  omega

theorem wrapInt_small (x : Int) (h0 : 0 ≤ x) (h1 : x ≤ maxInt) : wrapInt x = x :=
  wrapInt_eq x (by unfold minInt; omega) h1

theorem decimalAux_length (fuel n k : Nat) (acc : GoString) (h : n < fuel) (hk : 1 ≤ k)
    (hn : n < 10 ^ k) : (decimalAux fuel n acc).length ≤ k + acc.length := by
  induction fuel generalizing n k acc with
  | zero => omega
  | succ fuel ih =>
    unfold decimalAux
    split
    · simp only [List.length_cons]
      omega
    · rename_i h10
      have hk2 : 2 ≤ k := by
        by_contra hlt
        have : k = 1 := by omega
        subst this
        omega
      have hdiv : n / 10 < 10 ^ (k - 1) := by
        apply Nat.div_lt_of_lt_mul
        have : 10 ^ k = 10 * 10 ^ (k - 1) := by
          rw [← pow_succ']
          congr 1
          omega
        omega
      have := ih (n / 10) (k - 1) ((0x30 + n % 10) :: acc) (by omega) (by omega) hdiv
      simp only [List.length_cons] at this
      omega

theorem decimal_length (n k : Nat) (hk : 1 ≤ k) (hn : n < 10 ^ k) : (decimal n).length ≤ k := by
  have := decimalAux_length (n + 1) n k [] (by omega) hk hn
  simpa [decimal] using this

theorem sprintfZeroPad_length (width num : Nat) (hk : 1 ≤ width) (hn : num < 10 ^ width) :
    (sprintfZeroPad width num).length = width := by
  have := decimal_length num width hk hn
  unfold sprintfZeroPad
  rw [List.length_append, List.length_replicate]
  omega

theorem sprintfZeroPad_digits (width num : Nat) : ∀ c ∈ sprintfZeroPad width num, isDigit c := by
  intro c hc
  unfold sprintfZeroPad at hc
  rcases List.mem_append.1 hc with h | h
  · rw [List.mem_replicate] at h
    rw [h.2]
    unfold isDigit
    omega
  · exact decimal_digits num c h

theorem randomDigitCount_post (mn mx : Int) (h1 : 1 ≤ mn) (h2 : mn ≤ mx) (h3 : mx ≤ maxInt) :
    Post (randomDigitCount mn mx) (fun n => mn ≤ n ∧ n ≤ mx) := by
  unfold randomDigitCount
  split
  · rename_i heq
    exact post_pure ⟨le_refl _, by omega⟩
  · have hw : wrapInt (mx - mn + 1) = mx - mn + 1 := wrapInt_small _ (by omega) (by omega)
    rw [hw]
    refine post_bind (randInt_post _) ?_
    intro n hn
    cases n with
    | none => exact post_logFatalf
    | some v =>
      obtain ⟨h0, hlt⟩ := hn v rfl
      have hw2 : wrapInt (mn + v) = mn + v := wrapInt_small _ (by omega) (by omega)
      simp only [hw2]
      exact post_pure ⟨by omega, by omega⟩

theorem pow10Int64_small (n : Int) (h2 : n ≤ 18) :
    pow10Int64 n = ((10 ^ n.toNat : Nat) : Int) := by
  unfold pow10Int64
  rw [if_pos h2]
  push_cast
  rfl

theorem getRandomDigits_post (n : Int) (h1 : 1 ≤ n) :
    Post (getRandomDigits n)
      (fun r => r.2 = none → (r.1.length : Int) = n ∧ ∀ c ∈ r.1, isDigit c) := by
  unfold getRandomDigits
  rw [if_neg (by omega)]
  by_cases h18 : n ≤ 18
  · rw [pow10Int64_small n h18]
    refine post_bind (randInt_post _) ?_
    intro num hnum
    cases num with
    | none => exact post_pure (by simp)
    | some v =>
      obtain ⟨h0, hlt⟩ := hnum v rfl
      simp only
      refine post_pure (fun _ => ⟨?_, sprintfZeroPad_digits _ _⟩)
      have hv : v.toNat < 10 ^ n.toNat := by
        have : ((v.toNat : Nat) : Int) < ((10 ^ n.toNat : Nat) : Int) := by
          rw [Int.toNat_of_nonneg h0]
          exact hlt
        exact_mod_cast this
      rw [sprintfZeroPad_length _ _ (by omega) hv]
      omega
  · have hp : pow10Int64 n ≤ 0 := by
      unfold pow10Int64 minInt
      rw [if_neg h18]
      omega
    intro src pos a pos1 h
    rw [bind_panic _ _ _ _ (randInt_panic _ hp src pos)] at h
    cases h

theorem separatorChunk_post (pool : List GoString) (mn mx : Int) (h1 : 1 ≤ mn) (h2 : mn ≤ mx)
    (h3 : mx ≤ maxInt) :
    Post (separatorChunk pool mn mx) (fun r => ∀ block, r = .ok block → IsBlock pool mn mx block) := by
  unfold separatorChunk
  refine post_bind (getRandomSeparatorChar_post pool) ?_
  rintro ⟨sepChar, err⟩ hsep
  cases err with
  | some e => exact post_pure (by simp)
  | none =>
    simp only
    refine post_bind (randomDigitCount_post mn mx h1 h2 h3) ?_
    intro numDigits hnum
    refine post_bind (getRandomDigits_post numDigits (by omega)) ?_
    rintro ⟨digits, err⟩ hdig
    cases err with
    | some e => exact post_pure (by simp)
    | none =>
      simp only
      refine post_pure ?_
      intro block hb
      injection hb with hb
      subst hb
      obtain ⟨hl, hd⟩ := hdig rfl
      simp only at hl hd
      exact ⟨sepChar, hsep rfl, digits, rfl, hd, by omega, by omega⟩

theorem post_and {α : Type} {m : Rand α} {Q R : α → Prop} (h1 : Post m Q) (h2 : Post m R) :
    Post m (fun a => Q a ∧ R a) :=
  fun src pos a pos1 ha => ⟨h1 src pos a pos1 ha, h2 src pos a pos1 ha⟩

theorem post_trivial {α : Type} {m : Rand α} : Post m (fun _ => True) :=
  fun _ _ _ _ _ => True.intro

theorem decodeRunes_ne_nil (s : GoString) (h : s ≠ []) : decodeRunes s ≠ [] := by
  cases s with
  | nil => exact absurd rfl h
  | cons b rest => simp [decodeRunes, decodeAux]

theorem applyTypoTransposition_sure (src : Source) (hsrc : NeverFails src) (word : GoString)
    (h : 2 ≤ word.length → 2 ≤ (decodeRunes word).length) :
    Sure src (applyTypoTransposition word) (fun _ => True) := by
  unfold applyTypoTransposition
  split
  · exact sure_pure True.intro
  · rename_i hlen
    have h2 := h (by omega)
    simp only
    refine sure_bind (randInt_sure src hsrc _ (by omega)) ?_
    rintro n ⟨v, rfl, h0, h1⟩
    simp only
    have hi : v.toNat < (decodeRunes word).length := by omega
    have hi1 : v.toNat + 1 < (decodeRunes word).length := by omega
    rw [List.get?_eq_get hi, List.get?_eq_get hi1]
    exact sure_pure True.intro

theorem applyCapitalization_sure (src : Source) (hsrc : NeverFails src) (tbl : CaseTables)
    (word mode : GoString) : Sure src (applyCapitalization tbl word mode) (fun _ => True) := by
  cases word with
  | nil => exact sure_pure True.intro
  | cons b0 tail =>
    unfold applyCapitalization
    simp only
    split
    · exact sure_pure True.intro
    · split
      · have hlen : 0 < (decodeRunes (b0 :: tail)).length :=
          List.length_pos.2 (decodeRunes_ne_nil _ (by simp))
        refine sure_bind (randInt_sure src hsrc _ (by omega)) ?_
        rintro n ⟨v, rfl, h0, h1⟩
        simp only
        have hi : v.toNat < (decodeRunes (b0 :: tail)).length := by omega
        rw [List.get?_eq_get hi]
        exact sure_pure True.intro
      · exact sure_pure True.intro

theorem shouldApplyTypo_sure (src : Source) (hsrc : NeverFails src) (rate : Rate) :
    Sure src (shouldApplyTypo rate) (fun _ => True) := by
  unfold shouldApplyTypo
  split
  · exact sure_pure True.intro
  · refine sure_bind (randInt_sure src hsrc _ (by decide)) ?_
    rintro n ⟨v, rfl, -, -⟩
    exact sure_pure True.intro

theorem getRandomWord_sure (src : Source) (hsrc : NeverFails src) (g : Generator)
    (h : g.filteredWords ≠ []) :
    Sure src (getRandomWord g) (fun r => r.2 = none ∧ r.1 ∈ g.filteredWords) := by
  have hlen : (0 : Int) < g.filteredWords.length := by
    have := List.length_pos.2 h
    omega
  unfold getRandomWord
  refine sure_bind (randInt_sure src hsrc _ hlen) ?_
  rintro n ⟨v, rfl, h0, h1⟩
  simp only
  have hlt : v.toNat < g.filteredWords.length := by omega
  rw [List.get?_eq_get hlt]
  exact sure_pure ⟨rfl, List.get_mem _ _ _⟩

theorem insertChunk_post (chunks : List GoString) (block : GoString) :
    Post (insertChunk chunks block) (fun cs => ∀ c, c ∈ cs ↔ c ∈ chunks ∨ c = block) := by
  unfold insertChunk
  split
  · exact post_pure (by simp)
  · refine post_bind post_trivial ?_
    intro n _
    cases n with
    | none => exact post_goPanic
    | some v =>
      simp only
      refine post_pure ?_
      intro c
      rw [List.mem_append, List.mem_cons]
      have hsplit : c ∈ chunks ↔ c ∈ chunks.take (v + 1).toNat ∨ c ∈ chunks.drop (v + 1).toNat := by
        rw [← List.mem_append, List.take_append_drop]
      rw [hsplit]
      tauto

/-- What the typo logic of one slot does to the flag and the trace. -/
theorem typoLogic_post_trace (g : Generator) (i : Int) (st : State) (randomWord : GoString) :
    Post (typoLogic g i st randomWord) (fun r =>
      r.2.2.blocks = st.trace.blocks ∧
      ((st.typoApplied = true ∨ g.config.TypoRate.gtZero = false) →
        r.2.1 = st.typoApplied ∧ r.2.2 = st.trace) ∧
      ((st.typoApplied = false ∧ g.config.TypoRate.gtZero = true) →
        ∃ hit : Bool, r.2.2.trials = st.trace.trials ++ [(i, hit)] ∧
          ((hit = true ∨ i = g.config.WordCount - 1) →
            r.2.1 = true ∧ r.2.2.typoSlots = st.trace.typoSlots ++ [i]) ∧
          (¬ (hit = true ∨ i = g.config.WordCount - 1) →
            r.2.1 = false ∧ r.2.2.typoSlots = st.trace.typoSlots))) := by
  unfold typoLogic
  by_cases hc : (!st.typoApplied && g.config.TypoRate.gtZero) = true
  · rw [if_pos hc]
    have hc1 : st.typoApplied = false ∧ g.config.TypoRate.gtZero = true := by
      simpa using hc
    have hnot : ¬ (st.typoApplied = true ∨ g.config.TypoRate.gtZero = false) := by
      rintro (h | h)
      · rw [hc1.1] at h; cases h
      · rw [hc1.2] at h; cases h
    refine post_bind post_trivial ?_
    intro hit _
    by_cases hh : (hit || decide (i = g.config.WordCount - 1)) = true
    · rw [if_pos hh]
      have hh1 : hit = true ∨ i = g.config.WordCount - 1 := by simpa using hh
      refine post_bind post_trivial ?_
      intro typoWord _
      refine post_pure ⟨rfl, fun h => absurd h hnot, fun _ => ?_⟩
      exact ⟨hit, rfl, fun _ => ⟨rfl, rfl⟩, fun hn => absurd hh1 hn⟩
    · rw [if_neg hh]
      have hh1 : ¬ (hit = true ∨ i = g.config.WordCount - 1) := by simpa using hh
      refine post_pure ⟨rfl, fun h => absurd h hnot, fun _ => ?_⟩
      exact ⟨hit, rfl, fun hp => absurd hp hh1, fun _ => ⟨hc1.1, rfl⟩⟩
  · rw [if_neg hc]
    have hc1 : st.typoApplied = true ∨ g.config.TypoRate.gtZero = false := by
      cases h1 : st.typoApplied <;> cases h2 : g.config.TypoRate.gtZero <;> simp_all
    refine post_pure ⟨rfl, fun _ => ⟨rfl, rfl⟩, ?_⟩
    rintro ⟨h1, h2⟩
    rcases hc1 with h | h
    · rw [h1] at h; cases h
    · rw [h2] at h; cases h

theorem typoLogic_sure (src : Source) (hsrc : NeverFails src) (g : Generator) (i : Int)
    (st : State) (randomWord : GoString)
    (hgood : g.config.TypoRate.gtZero = true →
      2 ≤ randomWord.length → 2 ≤ (decodeRunes randomWord).length) :
    Sure src (typoLogic g i st randomWord) (fun _ => True) := by
  unfold typoLogic
  split
  · rename_i hc
    have hc1 : st.typoApplied = false ∧ g.config.TypoRate.gtZero = true := by
      simpa using hc
    refine sure_bind (shouldApplyTypo_sure src hsrc _) ?_
    intro hit _
    split
    · refine sure_bind (applyTypoTransposition_sure src hsrc randomWord (hgood hc1.2)) ?_
      intro typoWord _
      exact sure_pure True.intro
    · exact sure_pure True.intro
  · exact sure_pure True.intro

/-- What one iteration of the word loop does to the state, besides the chunk it adds. -/
theorem wordStep_post_trace (tbl : CaseTables) (g : Generator) (i : Int) (st : State) :
    Post (wordStep tbl g i st) (fun r => ∀ st1, r = .ok st1 →
      st1.trace.blocks = st.trace.blocks ∧
      (∃ chunk, st1.wordChunks = st.wordChunks ++ [chunk]) ∧
      ((st.typoApplied = true ∨ g.config.TypoRate.gtZero = false) →
        st1.typoApplied = st.typoApplied ∧ st1.trace = st.trace) ∧
      ((st.typoApplied = false ∧ g.config.TypoRate.gtZero = true) →
        ∃ hit : Bool, st1.trace.trials = st.trace.trials ++ [(i, hit)] ∧
          ((hit = true ∨ i = g.config.WordCount - 1) →
            st1.typoApplied = true ∧ st1.trace.typoSlots = st.trace.typoSlots ++ [i]) ∧
          (¬ (hit = true ∨ i = g.config.WordCount - 1) →
            st1.typoApplied = false ∧ st1.trace.typoSlots = st.trace.typoSlots))) := by
  unfold wordStep
  refine post_bind post_trivial ?_
  rintro ⟨randomWord, err⟩ -
  cases err with
  | some e => exact post_pure (by simp)
  | none =>
    simp only
    refine post_bind (typoLogic_post_trace g i st randomWord) ?_
    rintro ⟨word, typoApplied, tr⟩ ⟨hb, hsame, hnew⟩
    simp only at hb hsame hnew
    refine post_bind post_trivial ?_
    intro chunk _
    refine post_pure ?_
    intro st1 hst
    injection hst with hst
    subst hst
    exact ⟨hb, ⟨chunk, rfl⟩, hsame, hnew⟩

/-- With a source that never fails, a non-empty word set and no word on which the
transposition panics, one iteration of the word loop returns a state. -/
theorem wordStep_sure (src : Source) (hsrc : NeverFails src) (tbl : CaseTables) (g : Generator)
    (i : Int) (st : State) (hne : g.filteredWords ≠ [])
    (hgood : g.config.TypoRate.gtZero = true →
      ∀ w ∈ g.filteredWords, 2 ≤ w.length → 2 ≤ (decodeRunes w).length) :
    Sure src (wordStep tbl g i st) (fun r => ∃ st1, r = .ok st1) := by
  unfold wordStep
  refine sure_bind (getRandomWord_sure src hsrc g hne) ?_
  rintro ⟨randomWord, err⟩ ⟨herr, hmem⟩
  simp only at herr hmem
  subst herr
  simp only
  refine sure_bind (typoLogic_sure src hsrc g i st randomWord
    (fun hgt => hgood hgt randomWord hmem)) ?_
  rintro ⟨word, typoApplied, tr⟩ _
  refine sure_bind (applyCapitalization_sure src hsrc tbl word _) ?_
  intro chunk _
  exact sure_pure ⟨_, rfl⟩

theorem failedTrials_succ (i : Nat) :
    failedTrials (i + 1) = failedTrials i ++ [((i : Int), false)] := by
  unfold failedTrials
  rw [List.range_succ, List.map_append]
  rfl

theorem wordLoop_post_typo (tbl : CaseTables) (g : Generator)
    (hgt : g.config.TypoRate.gtZero = true) (k i : Nat) (st : State)
    (hik : ((i + k : Nat) : Int) = g.config.WordCount) (hinv : TypoInv g i st) :
    Post (wordLoop tbl g k (i : Int) st) (fun r => ∀ st1, r = .ok st1 →
      TypoInv g (i + k) st1 ∧ st1.trace.blocks = st.trace.blocks) := by
  induction k generalizing i st with
  | zero =>
    unfold wordLoop
    refine post_pure ?_
    intro st1 hst
    injection hst with hst
    subst hst
    exact ⟨hinv, rfl⟩
  | succ k ih =>
    unfold wordLoop
    refine post_bind (wordStep_post_trace tbl g (i : Int) st) ?_
    intro r hr
    cases r with
    | error e => exact post_pure (by simp)
    | ok st1 =>
      simp only
      obtain ⟨hb, -, hsame, hnew⟩ := hr st1 rfl
      have hinv1 : TypoInv g (i + 1) st1 := by
        rcases hinv with ⟨ha, hs, ht, hlast⟩ | ⟨ha, j, b, hj, hs, ht, hb⟩
        · obtain ⟨hit, htr, hyes, hno⟩ := hnew ⟨ha, hgt⟩
          by_cases hcase : hit = true ∨ (i : Int) = g.config.WordCount - 1
          · obtain ⟨h1, h2⟩ := hyes hcase
            right
            refine ⟨h1, i, hit, by omega, ?_, ?_, hcase⟩
            · rw [h2, hs]; rfl
            · rw [htr, ht]
          · obtain ⟨h1, h2⟩ := hno hcase
            left
            have hf : hit = false := by
              cases hit
              · rfl
              · exact absurd (Or.inl rfl) hcase
            refine ⟨h1, by rw [h2, hs], ?_, ?_⟩
            · rw [htr, ht, failedTrials_succ, hf]
            · intro _
              have : (i : Int) ≠ g.config.WordCount - 1 := fun h => hcase (Or.inr h)
              push_cast at hik ⊢
              omega
        · obtain ⟨h1, h2⟩ := hsame (Or.inl ha)
          right
          refine ⟨by rw [h1, ha], j, b, by omega, by rw [h2, hs], by rw [h2, ht], hb⟩
      have hik1 : (((i + 1) + k : Nat) : Int) = g.config.WordCount := by
        rw [← hik]
        congr 1
        omega
      have := ih (i + 1) st1 hik1 hinv1
      have hcast : (((i + 1 : Nat)) : Int) = (i : Int) + 1 := by push_cast; rfl
      rw [hcast] at this
      refine post_mono this ?_
      intro r hr st2 hst
      obtain ⟨h1, h2⟩ := hr st2 hst
      refine ⟨?_, by rw [h2, hb]⟩
      have : i + 1 + k = i + (k + 1) := by omega
      rw [← this]
      exact h1

theorem wordLoop_post_none (tbl : CaseTables) (g : Generator)
    (hgt : g.config.TypoRate.gtZero = false) (k : Nat) (i : Int) (st : State) :
    Post (wordLoop tbl g k i st) (fun r => ∀ st1, r = .ok st1 → st1.trace = st.trace) := by
  induction k generalizing i st with
  | zero =>
    unfold wordLoop
    refine post_pure ?_
    intro st1 hst
    injection hst with hst
    subst hst
    rfl
  | succ k ih =>
    unfold wordLoop
    refine post_bind (wordStep_post_trace tbl g i st) ?_
    intro r hr
    cases r with
    | error e => exact post_pure (by simp)
    | ok st1 =>
      simp only
      obtain ⟨-, -, hsame, -⟩ := hr st1 rfl
      obtain ⟨-, h2⟩ := hsame (Or.inr hgt)
      refine post_mono (ih (i + 1) st1) ?_
      intro r hr st2 hst
      rw [hr st2 hst, h2]

theorem wordLoop_post_blocks (tbl : CaseTables) (g : Generator) (k : Nat) (i : Int)
    (st : State) :
    Post (wordLoop tbl g k i st) (fun r => ∀ st1, r = .ok st1 →
      st1.trace.blocks = st.trace.blocks) := by
  induction k generalizing i st with
  | zero =>
    unfold wordLoop
    refine post_pure ?_
    intro st1 hst
    injection hst with hst
    subst hst
    rfl
  | succ k ih =>
    unfold wordLoop
    refine post_bind (wordStep_post_trace tbl g i st) ?_
    intro r hr
    cases r with
    | error e => exact post_pure (by simp)
    | ok st1 =>
      simp only
      obtain ⟨hb, -⟩ := hr st1 rfl
      refine post_mono (ih (i + 1) st1) ?_
      intro r hr st2 hst
      rw [hr st2 hst, hb]

theorem wordLoop_sure (src : Source) (hsrc : NeverFails src) (tbl : CaseTables) (g : Generator)
    (hne : g.filteredWords ≠ [])
    (hgood : g.config.TypoRate.gtZero = true →
      ∀ w ∈ g.filteredWords, 2 ≤ w.length → 2 ≤ (decodeRunes w).length)
    (k : Nat) (i : Int) (st : State) :
    Sure src (wordLoop tbl g k i st) (fun r => ∃ st1, r = .ok st1) := by
  induction k generalizing i st with
  | zero =>
    unfold wordLoop
    exact sure_pure ⟨st, rfl⟩
  | succ k ih =>
    unfold wordLoop
    refine sure_bind (wordStep_sure src hsrc tbl g i st hne hgood) ?_
    rintro r ⟨st1, rfl⟩
    exact ih (i + 1) st1

theorem separatorStep_post (pool : List GoString) (mn mx : Int) (h1 : 1 ≤ mn) (h2 : mn ≤ mx)
    (h3 : mx ≤ maxInt) (st : State) :
    Post (separatorStep pool mn mx st) (fun r => ∀ st1, r = .ok st1 →
      st1.typoApplied = st.typoApplied ∧ st1.trace.typoSlots = st.trace.typoSlots ∧
      st1.trace.trials = st.trace.trials ∧
      ∃ block, IsBlock pool mn mx block ∧ st1.trace.blocks = st.trace.blocks ++ [block] ∧
        ∀ c, c ∈ st1.wordChunks ↔ c ∈ st.wordChunks ∨ c = block) := by
  unfold separatorStep
  refine post_bind (separatorChunk_post pool mn mx h1 h2 h3) ?_
  intro r hr
  cases r with
  | error e => exact post_pure (by simp)
  | ok block =>
    simp only
    refine post_bind (insertChunk_post st.wordChunks block) ?_
    intro chunks hchunks
    refine post_pure ?_
    intro st1 hst
    injection hst with hst
    subst hst
    exact ⟨rfl, rfl, rfl, block, hr block rfl, rfl, hchunks⟩

theorem separatorLoop_post (pool : List GoString) (mn mx : Int) (h1 : 1 ≤ mn) (h2 : mn ≤ mx)
    (h3 : mx ≤ maxInt) (k : Nat) (st : State) :
    Post (separatorLoop pool mn mx k st) (fun r => ∀ st1, r = .ok st1 →
      st1.trace.typoSlots = st.trace.typoSlots ∧ st1.trace.trials = st.trace.trials ∧
      st1.trace.blocks.length = st.trace.blocks.length + k ∧
      (∀ b ∈ st1.trace.blocks, b ∈ st.trace.blocks ∨ IsBlock pool mn mx b) ∧
      (∀ c ∈ st.wordChunks, c ∈ st1.wordChunks)) := by
  induction k generalizing st with
  | zero =>
    unfold separatorLoop
    refine post_pure ?_
    intro st1 hst
    injection hst with hst
    subst hst
    exact ⟨rfl, rfl, rfl, fun b hb => Or.inl hb, fun c hc => hc⟩
  | succ k ih =>
    unfold separatorLoop
    refine post_bind (separatorStep_post pool mn mx h1 h2 h3 st) ?_
    intro r hr
    cases r with
    | error e => exact post_pure (by simp)
    | ok st1 =>
      simp only
      obtain ⟨-, hs, ht, block, hblock, hbl, hch⟩ := hr st1 rfl
      refine post_mono (ih st1) ?_
      intro r hr st2 hst
      obtain ⟨hs2, ht2, hl2, hb2, hc2⟩ := hr st2 hst
      refine ⟨by rw [hs2, hs], by rw [ht2, ht], ?_, ?_, ?_⟩
      · rw [hl2, hbl, List.length_append]
        simp
        omega
      · intro b hb
        rcases hb2 b hb with h | h
        · rw [hbl, List.mem_append, List.mem_singleton] at h
          rcases h with h | h
          · exact Or.inl h
          · exact Or.inr (h ▸ hblock)
        · exact Or.inr h
      · intro c hc
        exact hc2 c ((hch c).2 (Or.inl hc))

theorem parseSeparatorPool_ne_nil (s : GoString) : parseSeparatorPool s ≠ [] := by
  unfold parseSeparatorPool
  split
  · cases s with
    | nil => rename_i h; simp at h
    | cons b rest => simp [explode, runeWidths, decodeAux, cutBy]
  · decide

/-- The body of `Generate` once the digit range has parsed: the word loop followed by the
separator loop. -/
theorem generateState_eq (tbl : CaseTables) (g : Generator) (mn mx : Int)
    (hparse : parseDigitRange g.config.DigitRange = (mn, mx, none)) :
    generateState tbl g =
      (wordLoop tbl g g.config.WordCount.toNat 0 initialState >>= fun r =>
        match r with
        | .error e => pure (.error e)
        | .ok st =>
          separatorLoop (parseSeparatorPool g.config.SeparatorPool) mn mx
            g.config.SeparatorCount.toNat st) := by
  unfold generateState
  rw [hparse]
  simp only
  have hlen : ¬ (parseSeparatorPool g.config.SeparatorPool).length = 0 := by
    intro h
    exact parseSeparatorPool_ne_nil _ (List.length_eq_zero.1 h)
  rw [if_neg hlen]

theorem generateState_error (tbl : CaseTables) (g : Generator)
    (herr : (parseDigitRange g.config.DigitRange).2.2 ≠ none) :
    Post (generateState tbl g) (fun r => ∀ st, r ≠ .ok st) := by
  unfold generateState
  rcases hp : parseDigitRange g.config.DigitRange with ⟨mn, mx, err⟩
  rw [hp] at herr
  cases err with
  | none => exact absurd rfl herr
  | some e =>
    simp only
    exact post_pure (by simp)

theorem generateState_post (tbl : CaseTables) (g : Generator) (mn mx : Int)
    (hparse : parseDigitRange g.config.DigitRange = (mn, mx, none)) (Q1 Q : State → Prop)
    (hword : Post (wordLoop tbl g g.config.WordCount.toNat 0 initialState)
      (fun r => ∀ st0, r = .ok st0 → Q1 st0))
    (hsep : ∀ st0, Q1 st0 →
      Post (separatorLoop (parseSeparatorPool g.config.SeparatorPool) mn mx
        g.config.SeparatorCount.toNat st0) (fun r => ∀ st, r = .ok st → Q st)) :
    Post (generateState tbl g) (fun r => ∀ st, r = .ok st → Q st) := by
  rw [generateState_eq tbl g mn mx hparse]
  refine post_bind hword ?_
  intro r hr
  cases r with
  | error e => exact post_pure (by simp)
  | ok st0 => exact hsep st0 (hr st0 rfl)

theorem leZero_not_gtZero (r : Rate) (h : r.leZero = true) : r.gtZero = false := by
  unfold Rate.leZero at h
  unfold Rate.gtZero
  cases hs : r.sign <;> simp_all

/-- C10: when the digit range parses to `(minDigits, maxDigits)`, every block returned by
the block-building part of the separator loop, and so every block built in a run of
`Generate` that reaches the final assembly, has the form `sep + digits + sep` with `sep`
an element of the parsed separator pool, `digits` made of decimal digits only and
`minDigits ≤ length(digits) ≤ maxDigits`; such a run builds `SeparatorCount` blocks. -/
theorem separator_blocks_shape (tbl : CaseTables) (g : Generator) (mn mx : Int)
    (hparse : parseDigitRange g.config.DigitRange = (mn, mx, none)) :
    (∀ (src : Source) (pos : Nat) (block : GoString) (pos1 : Nat),
      separatorChunk (parseSeparatorPool g.config.SeparatorPool) mn mx src pos =
          .done (.ok block) pos1 →
        IsBlock (parseSeparatorPool g.config.SeparatorPool) mn mx block) ∧
    (∀ (src : Source) (pos : Nat) (st : State) (pos1 : Nat),
      generateState tbl g src pos = .done (.ok st) pos1 →
        st.trace.blocks.length = g.config.SeparatorCount.toNat ∧
        ∀ block ∈ st.trace.blocks,
          IsBlock (parseSeparatorPool g.config.SeparatorPool) mn mx block) := by
  obtain ⟨h1, h2, h3⟩ := parseDigitRange_range _ _ _ hparse
  constructor
  · intro src pos block pos1 hrun
    exact separatorChunk_post _ mn mx h1 h2 h3 src pos _ pos1 hrun block rfl
  · intro src pos st pos1 hrun
    have hpost := generateState_post tbl g mn mx hparse
      (fun st0 => st0.trace.blocks = [])
      (fun st => st.trace.blocks.length = g.config.SeparatorCount.toNat ∧
        ∀ b ∈ st.trace.blocks, IsBlock (parseSeparatorPool g.config.SeparatorPool) mn mx b)
      ?_ ?_
    · exact hpost src pos _ pos1 hrun st rfl
    · refine post_mono (wordLoop_post_blocks tbl g _ 0 initialState) ?_
      intro r hr st0 hst
      rw [hr st0 hst]
      rfl
    · intro st0 hst0
      refine post_mono (separatorLoop_post _ mn mx h1 h2 h3 _ st0) ?_
      intro r hr st hst
      obtain ⟨-, -, hl, hb, -⟩ := hr st hst
      refine ⟨by rw [hl, hst0]; simp, ?_⟩
      intro b hbm
      rcases hb b hbm with h | h
      · rw [hst0] at h
        cases h
      · exact h

/-- C10 (witness): for `sampleGenerator`, whose digit range "2" parses to (2, 2), the run
over `sampleSource` builds the single block "!42!". -/
theorem separator_blocks_shape_witness :
    (parseDigitRange sampleGenerator.config.DigitRange = (2, 2, none) ∧
      separatorChunk (parseSeparatorPool sampleGenerator.config.SeparatorPool) 2 2
        sampleSource 5 = .done (.ok (lit "!42!")) 6 ∧
      ∃ st, generateState latin1 sampleGenerator sampleSource 0 = .done (.ok st) 6 ∧
        st.trace.blocks = [lit "!42!"]) ∧
    ((∀ (src : Source) (pos : Nat) (block : GoString) (pos1 : Nat),
      separatorChunk (parseSeparatorPool sampleGenerator.config.SeparatorPool) 2 2 src pos =
          .done (.ok block) pos1 →
        IsBlock (parseSeparatorPool sampleGenerator.config.SeparatorPool) 2 2 block) ∧
    (∀ (src : Source) (pos : Nat) (st : State) (pos1 : Nat),
      generateState latin1 sampleGenerator src pos = .done (.ok st) pos1 →
        st.trace.blocks.length = sampleGenerator.config.SeparatorCount.toNat ∧
        ∀ block ∈ st.trace.blocks,
          IsBlock (parseSeparatorPool sampleGenerator.config.SeparatorPool) 2 2 block)) :=
  ⟨⟨by decide, by decide,
    ⟨⟨true, [lit "Haus", lit "!42!", lit "Obot"],
      ⟨[1], [(0, false), (1, false)], [lit "!42!"]⟩⟩, by decide, rfl⟩⟩,
   separator_blocks_shape latin1 sampleGenerator 2 2 (by decide)⟩

/-- The typo invariant holds in every state in which the word loop ends, for a word
count of at least 1. -/
theorem wordLoop_typoAtOneSlot (tbl : CaseTables) (g : Generator)
    (hw : 1 ≤ g.config.WordCount) :
    Post (wordLoop tbl g g.config.WordCount.toNat 0 initialState)
      (fun r => ∀ st, r = .ok st → TypoAtOneSlot g st) := by
  by_cases hgt : g.config.TypoRate.gtZero = true
  · have hik : ((0 + g.config.WordCount.toNat : Nat) : Int) = g.config.WordCount := by
      rw [Nat.zero_add, Int.toNat_of_nonneg (by omega)]
    have hinv : TypoInv g 0 initialState :=
      Or.inl ⟨rfl, rfl, rfl, fun h => absurd h (by omega)⟩
    have hword := wordLoop_post_typo tbl g hgt _ 0 initialState hik hinv
    rw [Nat.cast_zero] at hword
    refine post_mono hword ?_
    intro r hr st hst
    obtain ⟨hinv1, -⟩ := hr st hst
    constructor
    · intro _
      rcases hinv1 with ⟨-, -, -, hlast⟩ | ⟨-, j, b, hj, hs0, ht0, hb⟩
      · have := hlast (by omega)
        omega
      · exact ⟨j, b, by omega, hs0, ht0, hb⟩
    · intro hle
      rw [leZero_not_gtZero _ hle] at hgt
      cases hgt
  · have hgf : g.config.TypoRate.gtZero = false := by simpa using hgt
    refine post_mono (wordLoop_post_none tbl g hgf _ 0 initialState) ?_
    intro r hr st hst
    constructor
    · intro h
      exact absurd h hgt
    · intro _
      rw [hr st hst]
      exact ⟨rfl, rfl⟩

/-- C14 (failing input): the one-character word "é" has two bytes, so it passes the guard
`len(word) < 2`; it has one rune, so the draw is asked with the bound 0 and `rand.Int`
panics, in `applyTypoTransposition` and in a `Generate` that applies the typo to it. Only
a word of fewer than 2 bytes is returned unchanged without a draw. -/
theorem applyTypoTransposition_single_multibyte :
    ((lit "é").length = 2 ∧ (decodeRunes (lit "é")).length = 1 ∧
      lit "é" ∈ filterWords latin1 insertionOrder [lit "é"]) ∧
    applyTypoTransposition (lit "é") (constSource 0) 0 = .panic ∧
    Generate latin1 singleCharGenerator (constSource 0) 0 = .panic ∧
    (∀ (word : GoString) (src : Source) (pos : Nat), word.length < 2 →
      applyTypoTransposition word src pos = .done word pos) := by
  refine ⟨by decide, by decide, by decide, ?_⟩
  intro word src pos h
  unfold applyTypoTransposition
  rw [if_pos h]
  rfl

/-- C15 (failing input): the digit range "19" parses to (19, 19), and for the digit count
19 the bound handed to the draw is the smallest `int64`, not 10^19, so `rand.Int` panics,
in `getRandomDigits` and in `Generate`. For a digit count from 1 to 18 the bound is 10^n
and the result is the drawn value padded with zeros to exactly n digits. -/
theorem getRandomDigits_nineteen :
    parseDigitRange (lit "19") = (19, 19, none) ∧
    (pow10Int64 19 = minInt ∧ pow10Int64 19 ≠ 10 ^ 19) ∧
    getRandomDigits 19 (constSource 0) 0 = .panic ∧
    Generate latin1 nineteenDigitsGenerator (constSource 0) 0 = .panic ∧
    (∀ (n : Int) (src : Source) (pos r : Nat), 1 ≤ n → n ≤ 18 → src pos = some r →
      pow10Int64 n = 10 ^ n.toNat ∧
      getRandomDigits n src pos =
        .done (sprintfZeroPad n.toNat (r % 10 ^ n.toNat), none) (pos + 1) ∧
      ((sprintfZeroPad n.toNat (r % 10 ^ n.toNat)).length : Int) = n ∧
      ∀ c ∈ sprintfZeroPad n.toNat (r % 10 ^ n.toNat), isDigit c) := by
  refine ⟨by decide, by decide, by decide, by decide, ?_⟩
  intro n src pos r h1 h18 hr
  have hpow : pow10Int64 n = 10 ^ n.toNat := by
    unfold pow10Int64
    rw [if_pos h18]
  have hten : (10 : Int) ≤ 10 ^ n.toNat := by
    have h1n : 1 ≤ n.toNat := by omega
    calc (10 : Int) = 10 ^ 1 := by norm_num
      _ ≤ 10 ^ n.toNat := pow_le_pow_right₀ (by norm_num) h1n
  have hmod : r % 10 ^ n.toNat < 10 ^ n.toNat := Nat.mod_lt _ (pow_pos (by norm_num) _)
  refine ⟨hpow, ?_, ?_, sprintfZeroPad_digits _ _⟩
  · unfold getRandomDigits
    rw [if_neg (by omega), hpow]
    have hdraw : randInt (10 ^ n.toNat) src pos =
        .done (some ((r : Int) % 10 ^ n.toNat)) (pos + 1) := by
      unfold randInt
      rw [if_neg (by omega), if_neg (by omega), hr]
    rw [bind_done _ _ _ _ _ _ hdraw]
    have hval : ((r : Int) % 10 ^ n.toNat).toNat = r % 10 ^ n.toNat := by
      have : ((r : Int) % 10 ^ n.toNat) = ((r % 10 ^ n.toNat : Nat) : Int) := by
        push_cast
        rfl
      rw [this, Int.toNat_ofNat]
    simp only [hval]
    rfl
  · rw [sprintfZeroPad_length _ _ (by omega) hmod]
    omega

/-- C16: when `parseDigitRange` rejects the digit-range string with the error `err`,
`Generate` returns the empty string and `err` at the position of the source at which it
was called, so before any draw, whatever the source, the word set and the other fields
are; a repeated call returns the same. -/
theorem Generate_rejected_range (tbl : CaseTables) (g : Generator) (err : GoError)
    (h : (parseDigitRange g.config.DigitRange).2.2 = some err) :
    (∀ (src : Source) (pos : Nat), Generate tbl g src pos = .done ([], some err) pos) ∧
    (∀ (src1 src2 : Source) (pos1 pos2 : Nat) (r : GoString × Option GoError) (p : Nat),
      Generate tbl g src1 pos1 = .done r p →
        ∃ q, Generate tbl g src2 pos2 = .done r q) := by
  have hrun : ∀ (src : Source) (pos : Nat),
      Generate tbl g src pos = .done ([], some err) pos := by
    intro src pos
    have hstate : generateState tbl g src pos = .done (.error err) pos := by
      unfold generateState
      rcases hp : parseDigitRange g.config.DigitRange with ⟨mn, mx, e⟩
      rw [hp] at h
      simp only at h
      subst h
      rfl
    unfold Generate
    rw [bind_done _ _ _ _ _ _ hstate]
    rfl
  refine ⟨hrun, ?_⟩
  intro src1 src2 pos1 pos2 r p hr
  rw [hrun src1 pos1] at hr
  injection hr with hr _
  subst hr
  exact ⟨pos2, hrun src2 pos2⟩

/-- C16 (witness): the digit-range string "abc" is rejected, and `Generate` returns the
empty string with that error without a draw. -/
theorem Generate_rejected_range_witness :
    (parseDigitRange badRangeGenerator.config.DigitRange).2.2 =
        some (.invalidDigitCount (lit "abc")) ∧
    ((∀ (src : Source) (pos : Nat),
      Generate latin1 badRangeGenerator src pos =
        .done ([], some (.invalidDigitCount (lit "abc"))) pos) ∧
    (∀ (src1 src2 : Source) (pos1 pos2 : Nat) (r : GoString × Option GoError) (p : Nat),
      Generate latin1 badRangeGenerator src1 pos1 = .done r p →
        ∃ q, Generate latin1 badRangeGenerator src2 pos2 = .done r q)) :=
  ⟨by decide, Generate_rejected_range latin1 badRangeGenerator _ (by decide)⟩

/-! ## Lemmas on the UTF-8 decoder -/

theorem decodeAux_skip (k : Nat) (l : GoString) : decodeAux k l = decodeAux 0 (l.drop k) := by
  induction k generalizing l with
  | zero => rfl
  | succ k ih =>
    cases l with
    | nil => rfl
    | cons b rest =>
      simp only [decodeAux, List.drop_succ_cons]
      exact ih rest

theorem decodeAux_short (k : Nat) (l : GoString) (h : l.length ≤ k) : decodeAux k l = [] := by
  rw [decodeAux_skip, List.drop_of_length_le h]
  rfl

theorem decodeRune_width (b : Nat) (rest : GoString) :
    1 ≤ (decodeRune b rest).2 ∧ (decodeRune b rest).2 ≤ rest.length + 1 := by
  rcases rest with _ | ⟨b1, _ | ⟨b2, _ | ⟨b3, t⟩⟩⟩ <;>
    simp only [decodeRune] <;> split_ifs <;> simp

theorem decodeRune_one (b : Nat) (rest : GoString) (h : b < 0x80) :
    decodeRune b rest = (b, 1) := by
  unfold decodeRune
  rw [if_pos h]

theorem decodeRune_bad (b : Nat) (rest : GoString)
    (h : (0x80 ≤ b ∧ b < 0xC2) ∨ 0xF5 ≤ b) : decodeRune b rest = (runeError, 1) := by
  unfold decodeRune
  rcases h with ⟨h1, h2⟩ | h
  · rw [if_neg (by omega), if_pos h2]
  · rw [if_neg (by omega), if_neg (by omega), if_neg (by omega), if_neg (by omega),
      if_neg (by omega)]

theorem decodeRune_two (b : Nat) (rest : GoString) (h1 : 0xC2 ≤ b) (h2 : b < 0xE0) :
    decodeRune b rest =
      match rest with
      | b1 :: _ =>
        if inRange 0x80 0xBF b1 then ((b - 0xC0) * 64 + (b1 - 0x80), 2) else (runeError, 1)
      | _ => (runeError, 1) := by
  unfold decodeRune
  rw [if_neg (by omega), if_neg (by omega), if_pos h2]

theorem decodeRune_three (b : Nat) (rest : GoString) (h1 : 0xE0 ≤ b) (h2 : b < 0xF0) :
    decodeRune b rest =
      match rest with
      | b1 :: b2 :: _ =>
        if inRange (if b = 0xE0 then 0xA0 else 0x80) (if b = 0xED then 0x9F else 0xBF) b1
            && inRange 0x80 0xBF b2 then
          ((b - 0xE0) * 4096 + (b1 - 0x80) * 64 + (b2 - 0x80), 3)
        else (runeError, 1)
      | _ => (runeError, 1) := by
  unfold decodeRune
  rw [if_neg (by omega), if_neg (by omega), if_neg (by omega), if_pos h2]

theorem decodeRune_four (b : Nat) (rest : GoString) (h1 : 0xF0 ≤ b) (h2 : b < 0xF5) :
    decodeRune b rest =
      match rest with
      | b1 :: b2 :: b3 :: _ =>
        if inRange (if b = 0xF0 then 0x90 else 0x80) (if b = 0xF4 then 0x8F else 0xBF) b1
            && inRange 0x80 0xBF b2 && inRange 0x80 0xBF b3 then
          ((b - 0xF0) * 262144 + (b1 - 0x80) * 4096 + (b2 - 0x80) * 64 + (b3 - 0x80), 4)
        else (runeError, 1)
      | _ => (runeError, 1) := by
  unfold decodeRune
  rw [if_neg (by omega), if_neg (by omega), if_neg (by omega), if_neg (by omega), if_pos h2]

/-- The decoder looks at no byte beyond the rune it returns. -/
theorem decodeRune_take (b : Nat) (rest : GoString) :
    decodeRune b (rest.take ((decodeRune b rest).2 - 1)) = decodeRune b rest := by
  by_cases h1 : b < 0x80
  · rw [decodeRune_one b rest h1, decodeRune_one b _ h1]
  by_cases h2 : b < 0xC2
  · rw [decodeRune_bad b rest (Or.inl ⟨by omega, h2⟩), decodeRune_bad b _ (Or.inl ⟨by omega, h2⟩)]
  by_cases h3 : b < 0xE0
  · rw [decodeRune_two b rest (by omega) h3, decodeRune_two b _ (by omega) h3]
    rcases rest with _ | ⟨b1, t⟩
    · rfl
    · by_cases hr : inRange 0x80 0xBF b1 = true
      · simp [hr]
      · simp [hr]
  by_cases h4 : b < 0xF0
  · rw [decodeRune_three b rest (by omega) h4, decodeRune_three b _ (by omega) h4]
    rcases rest with _ | ⟨b1, _ | ⟨b2, t⟩⟩
    · rfl
    · rfl
    · generalize (if b = 0xE0 then 0xA0 else 0x80) = lo
      generalize (if b = 0xED then 0x9F else 0xBF) = hi
      by_cases hr : (inRange lo hi b1 && inRange 0x80 0xBF b2) = true
      · simp [hr]
      · simp [hr]
  by_cases h5 : b < 0xF5
  · rw [decodeRune_four b rest (by omega) h5, decodeRune_four b _ (by omega) h5]
    rcases rest with _ | ⟨b1, _ | ⟨b2, _ | ⟨b3, t⟩⟩⟩
    · rfl
    · rfl
    · rfl
    · generalize (if b = 0xF0 then 0x90 else 0x80) = lo
      generalize (if b = 0xF4 then 0x8F else 0xBF) = hi
      by_cases hr : (inRange lo hi b1 && inRange 0x80 0xBF b2 && inRange 0x80 0xBF b3) = true
      · simp [hr]
      · simp [hr]
  · rw [decodeRune_bad b rest (Or.inr (by omega)), decodeRune_bad b _ (Or.inr (by omega))]

theorem decodeAux_cons (b : Nat) (rest : GoString) :
    decodeAux 0 (b :: rest) =
      decodeRune b rest :: decodeAux 0 (rest.drop ((decodeRune b rest).2 - 1)) := by
  simp only [decodeAux]
  rw [decodeAux_skip]

theorem decodeRunes_cons (b : Nat) (rest : GoString) :
    decodeRunes (b :: rest) =
      (decodeRune b rest).1 :: decodeRunes (rest.drop ((decodeRune b rest).2 - 1)) := by
  unfold decodeRunes
  rw [decodeAux_cons, List.map_cons]

/-- The bytes of one rune decode to that rune alone. -/
theorem decodeRunes_piece (b : Nat) (rest : GoString) :
    decodeRunes (b :: rest.take ((decodeRune b rest).2 - 1)) = [(decodeRune b rest).1] := by
  rw [decodeRunes_cons, decodeRune_take]
  have hdrop : (rest.take ((decodeRune b rest).2 - 1)).drop ((decodeRune b rest).2 - 1) = [] := by
    apply List.drop_of_length_le
    rw [List.length_take]
    omega
  rw [hdrop]
  rfl

theorem explode_cons (b : Nat) (rest : GoString) :
    explode (b :: rest) =
      (b :: rest.take ((decodeRune b rest).2 - 1)) ::
        explode (rest.drop ((decodeRune b rest).2 - 1)) := by
  have hw := (decodeRune_width b rest).1
  unfold explode runeWidths
  rw [decodeAux_cons, List.map_cons]
  simp only [cutBy]
  obtain ⟨w, hw1⟩ : ∃ w, (decodeRune b rest).2 = w + 1 := ⟨(decodeRune b rest).2 - 1, by omega⟩
  rw [hw1]
  simp

/-- The pieces of `strings.Split(s, "")` put together give `s` back, and each piece holds
exactly one character: the pieces are the characters of `s`, in order. -/
theorem explode_spec (s : GoString) :
    stringsJoin (explode s) = s ∧
      (explode s).map decodeRunes = (decodeRunes s).map (fun r => [r]) := by
  generalize hn : s.length = n
  induction n using Nat.strong_induction_on generalizing s with
  | _ n ih =>
    cases s with
    | nil => exact ⟨rfl, rfl⟩
    | cons b rest =>
      have hlen : (rest.drop ((decodeRune b rest).2 - 1)).length < n := by
        rw [← hn, List.length_drop, List.length_cons]
        omega
      obtain ⟨h1, h2⟩ := ih _ hlen (rest.drop ((decodeRune b rest).2 - 1)) rfl
      rw [explode_cons]
      constructor
      · unfold stringsJoin at h1 ⊢
        rw [List.flatten_cons, h1, List.cons_append, List.take_append_drop]
      · rw [List.map_cons, h2, decodeRunes_piece, decodeRunes_cons, List.map_cons]


/-! ## The errors that `Generate` can return -/

theorem getRandomWord_post_err (g : Generator) :
    Post (getRandomWord g) (fun r => ∀ e, r.2 = some e → e = .entropy ∧ r.1 = []) := by
  unfold getRandomWord
  refine post_bind post_trivial ?_
  intro n _
  cases n with
  | none =>
    refine post_pure ?_
    intro e he
    injection he with he
    exact ⟨he.symm, rfl⟩
  | some v =>
    simp only
    cases g.filteredWords.get? v.toNat with
    | none => exact post_goPanic
    | some c => exact post_pure (by simp)

theorem wordStep_post_err (tbl : CaseTables) (g : Generator) (i : Int) (st : State) :
    Post (wordStep tbl g i st) (fun r => ∀ e, r = .error e → e = .randomWord .entropy) := by
  unfold wordStep
  refine post_bind (getRandomWord_post_err g) ?_
  rintro ⟨randomWord, err⟩ herr
  cases err with
  | some e0 =>
    refine post_pure ?_
    intro e he
    injection he with he
    rw [← he, (herr e0 rfl).1]
  | none =>
    simp only
    refine post_bind post_trivial ?_
    rintro ⟨word, typoApplied, tr⟩ _
    refine post_bind post_trivial ?_
    intro chunk _
    exact post_pure (by simp)

theorem wordLoop_post_err (tbl : CaseTables) (g : Generator) (k : Nat) (i : Int) (st : State) :
    Post (wordLoop tbl g k i st) (fun r => ∀ e, r = .error e → e = .randomWord .entropy) := by
  induction k generalizing i st with
  | zero =>
    unfold wordLoop
    exact post_pure (by simp)
  | succ k ih =>
    unfold wordLoop
    refine post_bind (wordStep_post_err tbl g i st) ?_
    intro r hr
    cases r with
    | error e0 =>
      refine post_pure ?_
      intro e he
      injection he with he
      rw [← he]
      exact hr e0 rfl
    | ok st1 => exact ih (i + 1) st1

theorem getRandomSeparatorChar_post_err (pool : List GoString) :
    Post (getRandomSeparatorChar pool) (fun r => ∀ e, r.2 = some e → e = .entropy) := by
  unfold getRandomSeparatorChar
  refine post_bind post_trivial ?_
  intro n _
  cases n with
  | none =>
    refine post_pure ?_
    intro e he
    injection he with he
    exact he.symm
  | some v =>
    simp only
    cases pool.get? v.toNat with
    | none => exact post_goPanic
    | some c => exact post_pure (by simp)

theorem getRandomDigits_post_err (n : Int) :
    Post (getRandomDigits n) (fun r => ∀ e, r.2 = some e → e = .entropy) := by
  unfold getRandomDigits
  split
  · exact post_pure (by simp)
  · refine post_bind post_trivial ?_
    intro num _
    cases num with
    | none =>
      refine post_pure ?_
      intro e he
      injection he with he
      exact he.symm
    | some v => exact post_pure (by simp)

theorem separatorChunk_post_err (pool : List GoString) (mn mx : Int) :
    Post (separatorChunk pool mn mx)
      (fun r => ∀ e, r = .error e → e = .randomChar .entropy ∨ e = .randomDigits .entropy) := by
  unfold separatorChunk
  refine post_bind (getRandomSeparatorChar_post_err pool) ?_
  rintro ⟨sepChar, err⟩ herr
  cases err with
  | some e0 =>
    refine post_pure ?_
    intro e he
    injection he with he
    rw [← he, herr e0 rfl]
    exact Or.inl rfl
  | none =>
    simp only
    refine post_bind post_trivial ?_
    intro numDigits _
    refine post_bind (getRandomDigits_post_err numDigits) ?_
    rintro ⟨digits, err⟩ herr2
    cases err with
    | some e0 =>
      refine post_pure ?_
      intro e he
      injection he with he
      rw [← he, herr2 e0 rfl]
      exact Or.inr rfl
    | none => exact post_pure (by simp)

theorem separatorStep_post_err (pool : List GoString) (mn mx : Int) (st : State) :
    Post (separatorStep pool mn mx st)
      (fun r => ∀ e, r = .error e → e = .randomChar .entropy ∨ e = .randomDigits .entropy) := by
  unfold separatorStep
  refine post_bind (separatorChunk_post_err pool mn mx) ?_
  intro r hr
  cases r with
  | error e0 =>
    refine post_pure ?_
    intro e he
    injection he with he
    rw [← he]
    exact hr e0 rfl
  | ok block =>
    simp only
    refine post_bind post_trivial ?_
    intro chunks _
    exact post_pure (by simp)

theorem separatorLoop_post_err (pool : List GoString) (mn mx : Int) (k : Nat) (st : State) :
    Post (separatorLoop pool mn mx k st)
      (fun r => ∀ e, r = .error e → e = .randomChar .entropy ∨ e = .randomDigits .entropy) := by
  induction k generalizing st with
  | zero =>
    unfold separatorLoop
    exact post_pure (by simp)
  | succ k ih =>
    unfold separatorLoop
    refine post_bind (separatorStep_post_err pool mn mx st) ?_
    intro r hr
    cases r with
    | error e0 =>
      refine post_pure ?_
      intro e he
      injection he with he
      rw [← he]
      exact hr e0 rfl
    | ok st1 => exact ih st1

/-- An error returned by the body of `Generate` is the error of `parseDigitRange` or comes
from a failed draw of a word, of a separator character or of a digit value. -/
theorem generateState_post_err (tbl : CaseTables) (g : Generator) :
    Post (generateState tbl g) (fun r => ∀ e, r = .error e →
      (parseDigitRange g.config.DigitRange).2.2 = some e ∨ e = .randomWord .entropy ∨
        e = .randomChar .entropy ∨ e = .randomDigits .entropy) := by
  rcases hp : parseDigitRange g.config.DigitRange with ⟨mn, mx, err⟩
  cases err with
  | some e0 =>
    unfold generateState
    rw [hp]
    simp only
    refine post_pure ?_
    intro e he
    injection he with he
    exact Or.inl (by rw [he])
  | none =>
    rw [generateState_eq tbl g mn mx hp]
    refine post_bind (wordLoop_post_err tbl g _ 0 initialState) ?_
    intro r hr
    cases r with
    | error e0 =>
      refine post_pure ?_
      intro e he
      injection he with he
      rw [← he]
      exact Or.inr (Or.inl (hr e0 rfl))
    | ok st0 =>
      refine post_mono (separatorLoop_post_err _ mn mx _ st0) ?_
      intro r hr e he
      exact Or.inr (Or.inr (hr e he))

theorem parseDigitRange_err_ne (s : GoString) :
    (parseDigitRange s).2.2 ≠ some .emptySeparatorPool := by
  unfold parseDigitRange
  split
  · split
    · simp
    · split <;> simp
  · split
    · split <;> simp
    · simp
  · simp

/-- C17: `parseSeparatorPool("")` is the default pool; for a non-empty string `s` the pool
is the list of the single characters of `s` in order, duplicates kept (each element holds
exactly one character, and the elements put together give `s`); the pool is never empty,
so the separator draw has a positive bound and does not panic, and `Generate` never
returns the error "separator pool is empty". -/
theorem parseSeparatorPool_spec :
    parseSeparatorPool [] = [lit "+", lit "-", lit "_", lit "!"] ∧
    (∀ s : GoString, s ≠ [] →
      stringsJoin (parseSeparatorPool s) = s ∧
      (parseSeparatorPool s).map decodeRunes = (decodeRunes s).map (fun r => [r])) ∧
    (parseSeparatorPool (lit "+-_!") = [lit "+", lit "-", lit "_", lit "!"] ∧
      parseSeparatorPool (lit "!é!") = [lit "!", lit "é", lit "!"]) ∧
    (∀ s : GoString, parseSeparatorPool s ≠ [] ∧
      (0 : Int) < (parseSeparatorPool s).length ∧
      ∀ (src : Source) (pos : Nat),
        getRandomSeparatorChar (parseSeparatorPool s) src pos ≠ .panic) ∧
    (∀ (tbl : CaseTables) (g : Generator) (src : Source) (pos : Nat)
        (r : GoString × Option GoError) (pos1 : Nat),
      Generate tbl g src pos = .done r pos1 → r.2 ≠ some .emptySeparatorPool) := by
  refine ⟨rfl, ?_, by decide, ?_, ?_⟩
  · intro s hs
    have hpool : parseSeparatorPool s = explode s := by
      unfold parseSeparatorPool
      rw [if_pos (List.length_pos.2 hs)]
    rw [hpool]
    exact explode_spec s
  · intro s
    have hne := parseSeparatorPool_ne_nil s
    have hlen : (0 : Int) < (parseSeparatorPool s).length := by
      have := List.length_pos.2 hne
      omega
    refine ⟨hne, hlen, ?_⟩
    intro src pos
    unfold getRandomSeparatorChar
    obtain ⟨pos1, hr | ⟨n, h0, h1, hr⟩⟩ := randInt_pos _ hlen src pos
    · rw [bind_done _ _ _ _ _ _ hr]
      intro h
      cases h
    · rw [bind_done _ _ _ _ _ _ hr]
      have hlt : n.toNat < (parseSeparatorPool s).length := by omega
      simp only [List.get?_eq_get hlt]
      intro h
      cases h
  · intro tbl g src pos r pos1 hrun
    have hpost : Post (Generate tbl g) (fun r => r.2 ≠ some .emptySeparatorPool) := by
      unfold Generate
      refine post_bind (generateState_post_err tbl g) ?_
      intro r hr
      cases r with
      | error e =>
        refine post_pure ?_
        intro he
        injection he with he
        rcases hr e rfl with h | h | h | h
        · rw [he] at h
          exact parseDigitRange_err_ne _ h
        · rw [he] at h; cases h
        · rw [he] at h; cases h
        · rw [he] at h; cases h
      | ok st => exact post_pure (by simp)
    exact hpost src pos r pos1 hrun

/-! ## Where the separator blocks go -/

theorem bind_done_inv {α β : Type} (m : Rand α) (k : α → Rand β) (src : Source)
    (pos pos1 : Nat) (b : β) (h : (m >>= k) src pos = .done b pos1) :
    ∃ a pos0, m src pos = .done a pos0 ∧ k a src pos0 = .done b pos1 := by
  rw [bind_eq] at h
  unfold Rand.bind at h
  cases hm : m src pos with
  | done a pos0 =>
    rw [hm] at h
    exact ⟨a, pos0, rfl, h⟩
  | panic => rw [hm] at h; cases h
  | fatal => rw [hm] at h; cases h

/-- A run of the body of `Generate` that returns a state is a run of the word loop
followed by a run of the separator loop. -/
theorem generateState_run (tbl : CaseTables) (g : Generator) (mn mx : Int)
    (hparse : parseDigitRange g.config.DigitRange = (mn, mx, none)) (src : Source)
    (pos pos1 : Nat) (st : State) (h : generateState tbl g src pos = .done (.ok st) pos1) :
    ∃ st0 pos0,
      wordLoop tbl g g.config.WordCount.toNat 0 initialState src pos = .done (.ok st0) pos0 ∧
      separatorLoop (parseSeparatorPool g.config.SeparatorPool) mn mx
        g.config.SeparatorCount.toNat st0 src pos0 = .done (.ok st) pos1 := by
  rw [generateState_eq tbl g mn mx hparse] at h
  obtain ⟨r, pos0, hword, hsep⟩ := bind_done_inv _ _ _ _ _ _ h
  cases r with
  | error e =>
    simp only at hsep
    rw [pure_eq] at hsep
    injection hsep with hsep _
    cases hsep
  | ok st0 => exact ⟨st0, pos0, hword, hsep⟩

theorem insertChunk_post_index (chunks : List GoString) (block : GoString) :
    Post (insertChunk chunks block) (fun cs =>
      ∃ i, i ≤ chunks.length ∧ (2 ≤ chunks.length → 1 ≤ i ∧ i ≤ chunks.length - 1) ∧
        (chunks.length < 2 → i = chunks.length) ∧
        cs = chunks.take i ++ block :: chunks.drop i) := by
  unfold insertChunk
  split
  · rename_i hlt
    refine post_pure ⟨chunks.length, le_refl _, fun h => absurd hlt (by omega), fun _ => rfl, ?_⟩
    rw [List.take_length, List.drop_length]
  · rename_i hge
    refine post_bind (randInt_post _) ?_
    intro n hn
    cases n with
    | none => exact post_goPanic
    | some v =>
      obtain ⟨h0, h1⟩ := hn v rfl
      simp only
      refine post_pure ⟨(v + 1).toNat, by omega, fun _ => ⟨by omega, by omega⟩,
        fun h => absurd h hge, rfl⟩

theorem wordLoop_post_length (tbl : CaseTables) (g : Generator) (k : Nat) (i : Int)
    (st : State) :
    Post (wordLoop tbl g k i st) (fun r => ∀ st1, r = .ok st1 →
      st1.wordChunks.length = st.wordChunks.length + k) := by
  induction k generalizing i st with
  | zero =>
    unfold wordLoop
    refine post_pure ?_
    intro st1 hst
    injection hst with hst
    subst hst
    rfl
  | succ k ih =>
    unfold wordLoop
    refine post_bind (wordStep_post_trace tbl g i st) ?_
    intro r hr
    cases r with
    | error e => exact post_pure (by simp)
    | ok st1 =>
      simp only
      obtain ⟨-, ⟨chunk, hch⟩, -⟩ := hr st1 rfl
      refine post_mono (ih (i + 1) st1) ?_
      intro r hr st2 hst
      rw [hr st2 hst, hch, List.length_append]
      simp
      omega

theorem separatorStep_post_index (pool : List GoString) (mn mx : Int) (st : State) :
    Post (separatorStep pool mn mx st) (fun r => ∀ st1, r = .ok st1 →
      ∃ i block, i ≤ st.wordChunks.length ∧
        (2 ≤ st.wordChunks.length → 1 ≤ i ∧ i ≤ st.wordChunks.length - 1) ∧
        st1.wordChunks = st.wordChunks.take i ++ block :: st.wordChunks.drop i ∧
        st1.trace.blocks = st.trace.blocks ++ [block]) := by
  unfold separatorStep
  refine post_bind post_trivial ?_
  intro r _
  cases r with
  | error e => exact post_pure (by simp)
  | ok block =>
    simp only
    refine post_bind (insertChunk_post_index st.wordChunks block) ?_
    rintro chunks ⟨i, hi, h2, -, hcs⟩
    refine post_pure ?_
    intro st1 hst
    injection hst with hst
    subst hst
    exact ⟨i, block, hi, h2, hcs, rfl⟩

theorem InsertedInside_trans_step (cs : List GoString) (blocks cs1 : List GoString)
    (h : InsertedInside cs blocks cs1) (i : Nat) (block : GoString) (h2 : 2 ≤ cs1.length)
    (h1 : 1 ≤ i) (hi : i ≤ cs1.length - 1) :
    InsertedInside cs (blocks ++ [block]) (cs1.take i ++ block :: cs1.drop i) := by
  induction h with
  | none cs => exact .step cs i block [] _ h2 h1 hi (.none _)
  | step cs j b bs cs2 hc2 hj1 hj hrest ih =>
    exact .step cs j b (bs ++ [block]) _ hc2 hj1 hj (ih h2 hi)

theorem InsertedInside_ends (cs : List GoString) (blocks cs1 : List GoString)
    (h : InsertedInside cs blocks cs1) :
    cs1.head? = cs.head? ∧ cs1.getLast? = cs.getLast? ∧
      cs1.length = cs.length + blocks.length := by
  induction h with
  | none cs => exact ⟨rfl, rfl, rfl⟩
  | step cs i b bs cs2 hc2 hi1 hi hrest ih =>
    obtain ⟨hh, hl, hlen⟩ := ih
    have htake : cs.take i ≠ [] := by
      intro hnil
      have := congrArg List.length hnil
      rw [List.length_take, List.length_nil] at this
      omega
    have hlt : ¬ cs.length ≤ i := by omega
    obtain ⟨x, hx⟩ : ∃ x, cs.getLast? = some x := by
      cases hc : cs.getLast? with
      | none =>
        rw [List.getLast?_eq_none_iff] at hc
        rw [hc] at hc2
        simp at hc2
      | some x => exact ⟨x, rfl⟩
    refine ⟨?_, ?_, ?_⟩
    · rw [hh, List.head?_append_of_ne_nil _ htake]
      cases cs with
      | nil => simp at hc2
      | cons c rest =>
        obtain ⟨j, rfl⟩ : ∃ j, i = j + 1 := ⟨i - 1, by omega⟩
        rfl
    · rw [hl, List.getLast?_append, List.getLast?_cons, List.getLast?_drop, if_neg hlt, hx]
      rfl
    · rw [hlen, List.length_append, List.length_cons, List.length_take, List.length_drop,
        List.length_cons]
      omega


theorem separatorLoop_post_inside (pool : List GoString) (mn mx : Int) (k : Nat) (st : State)
    (h2 : 2 ≤ st.wordChunks.length) :
    Post (separatorLoop pool mn mx k st) (fun r => ∀ st1, r = .ok st1 →
      ∃ blocks, st1.trace.blocks = st.trace.blocks ++ blocks ∧ blocks.length = k ∧
        InsertedInside st.wordChunks blocks st1.wordChunks) := by
  induction k generalizing st with
  | zero =>
    unfold separatorLoop
    refine post_pure ?_
    intro st1 hst
    injection hst with hst
    subst hst
    exact ⟨[], by simp, rfl, .none _⟩
  | succ k ih =>
    unfold separatorLoop
    refine post_bind (separatorStep_post_index pool mn mx st) ?_
    intro r hr
    cases r with
    | error e => exact post_pure (by simp)
    | ok st1 =>
      simp only
      obtain ⟨i, block, hi, hin, hcs, hbl⟩ := hr st1 rfl
      obtain ⟨hi1, hi2⟩ := hin h2
      have h21 : 2 ≤ st1.wordChunks.length := by
        rw [hcs, List.length_append, List.length_cons, List.length_take, List.length_drop]
        omega
      refine post_mono (ih st1 h21) ?_
      intro r hr st2 hst
      obtain ⟨blocks, hb2, hlen, hins⟩ := hr st2 hst
      refine ⟨block :: blocks, ?_, by simp [hlen], ?_⟩
      · rw [hb2, hbl, List.append_assoc]
        rfl
      · rw [hcs] at hins
        exact .step _ i block blocks _ h2 hi1 hi2 hins

theorem chunksMarked_insert (tagged : List (Bool × GoString)) (i : Nat) (block : GoString) :
    chunksMarked false (tagged.take i ++ (true, block) :: tagged.drop i) =
        chunksMarked false tagged ∧
      (chunksMarked true (tagged.take i ++ (true, block) :: tagged.drop i)).Perm
        (chunksMarked true tagged ++ [block]) := by
  have hsplit : ∀ mark, chunksMarked mark tagged =
      chunksMarked mark (tagged.take i) ++ chunksMarked mark (tagged.drop i) := by
    intro mark
    unfold chunksMarked
    rw [← List.map_append, ← List.filter_append, List.take_append_drop]
  constructor
  · rw [hsplit false]
    unfold chunksMarked
    rw [List.filter_append, List.map_append, List.filter_cons]
    simp
  · rw [hsplit true]
    unfold chunksMarked
    rw [List.filter_append, List.map_append, List.filter_cons]
    simp only [beq_self_eq_true, if_true, List.map_cons, List.append_assoc]
    exact List.Perm.append_left _ (List.perm_append_singleton _ _).symm

theorem separatorLoop_post_tagged (pool : List GoString) (mn mx : Int) (k : Nat) (st : State)
    (tagged : List (Bool × GoString)) (htag : tagged.map Prod.snd = st.wordChunks) :
    Post (separatorLoop pool mn mx k st) (fun r => ∀ st1, r = .ok st1 →
      ∃ (tagged1 : List (Bool × GoString)) (blocks : List GoString),
        tagged1.map Prod.snd = st1.wordChunks ∧
        chunksMarked false tagged1 = chunksMarked false tagged ∧
        (chunksMarked true tagged1).Perm (chunksMarked true tagged ++ blocks) ∧
        st1.trace.blocks = st.trace.blocks ++ blocks ∧ blocks.length = k ∧
        st1.wordChunks.length = st.wordChunks.length + k) := by
  induction k generalizing st tagged with
  | zero =>
    unfold separatorLoop
    refine post_pure ?_
    intro st1 hst
    injection hst with hst
    subst hst
    exact ⟨tagged, [], htag, rfl, by simp, by simp, rfl, rfl⟩
  | succ k ih =>
    unfold separatorLoop
    refine post_bind (separatorStep_post_index pool mn mx st) ?_
    intro r hr
    cases r with
    | error e => exact post_pure (by simp)
    | ok st1 =>
      simp only
      obtain ⟨i, block, hi, -, hcs, hbl⟩ := hr st1 rfl
      have htag1 : (tagged.take i ++ (true, block) :: tagged.drop i).map Prod.snd =
          st1.wordChunks := by
        rw [hcs, ← htag, List.map_append, List.map_cons, List.map_take, List.map_drop]
      obtain ⟨hf, ht⟩ := chunksMarked_insert tagged i block
      refine post_mono (ih st1 _ htag1) ?_
      intro r hr st2 hst
      obtain ⟨tagged2, blocks, h1, h2, h3, h4, h5, h6⟩ := hr st2 hst
      refine ⟨tagged2, block :: blocks, h1, by rw [h2, hf], ?_, ?_, by simp [h5], ?_⟩
      · refine h3.trans ?_
        refine (List.Perm.append_right _ ht).trans ?_
        rw [List.append_assoc]
        rfl
      · rw [h4, hbl, List.append_assoc]
        rfl
      · rw [h6, hcs, List.length_append, List.length_cons, List.length_take,
          List.length_drop]
        omega

theorem chunksMarked_words (words : List GoString) :
    (words.map (fun c => (false, c))).map Prod.snd = words ∧
      chunksMarked false (words.map (fun c => (false, c))) = words ∧
      chunksMarked true (words.map (fun c => (false, c))) = [] := by
  unfold chunksMarked
  induction words with
  | nil => exact ⟨rfl, rfl, rfl⟩
  | cons w rest ih =>
    obtain ⟨h1, h2, h3⟩ := ih
    refine ⟨?_, ?_, ?_⟩
    · rw [List.map_cons, List.map_cons, h1]
    · rw [List.map_cons, List.filter_cons]
      simp only [beq_self_eq_true, if_true, List.map_cons]
      rw [h2]
    · rw [List.map_cons, List.filter_cons]
      simp only [Bool.false_eq_true, if_false, beq_iff_eq]
      exact h3


theorem stringsJoin_prefix (cs : List GoString) (first : GoString)
    (h : cs.head? = some first) : first <+: stringsJoin cs := by
  cases cs with
  | nil => cases h
  | cons c rest =>
    injection h with h
    subst h
    unfold stringsJoin
    rw [List.flatten_cons]
    exact List.prefix_append _ _

theorem stringsJoin_suffix (cs : List GoString) (last : GoString)
    (h : cs.getLast? = some last) : last <:+ stringsJoin cs := by
  obtain ⟨init, rfl⟩ : ∃ init, cs = init ++ [last] := by
    rw [List.getLast?_eq_some_iff] at h
    exact h
  unfold stringsJoin
  rw [List.flatten_append]
  simp only [List.flatten_cons, List.flatten_nil, List.append_nil]
  exact List.suffix_append _ _

/-- C11: `insertChunk` puts the block at an index `i` with `1 ≤ i ≤ length - 1` when the
sequence has at least 2 chunks, and appends it only when there are fewer than 2. For a
word count of at least 2, in every run of `Generate` that reaches the final assembly the
chunk sequence is obtained from the `WordCount` word chunks by insertions strictly inside
only, so its first and last chunks are the first and last word chunks, and the passphrase
starts with the one and ends with the other. -/
theorem insertion_inside (tbl : CaseTables) (g : Generator) (hw : 2 ≤ g.config.WordCount) :
    (∀ (chunks : List GoString) (block : GoString) (src : Source) (pos : Nat)
        (cs : List GoString) (pos1 : Nat),
      insertChunk chunks block src pos = .done cs pos1 →
        (2 ≤ chunks.length → ∃ i, 1 ≤ i ∧ i ≤ chunks.length - 1 ∧
          cs = chunks.take i ++ block :: chunks.drop i) ∧
        (chunks.length < 2 → cs = chunks ++ [block])) ∧
    (∀ (src : Source) (pos : Nat) (st : State) (pos1 : Nat),
      generateState tbl g src pos = .done (.ok st) pos1 →
        ∃ st0 pos0,
          wordLoop tbl g g.config.WordCount.toNat 0 initialState src pos =
            .done (.ok st0) pos0 ∧
          (st0.wordChunks.length : Int) = g.config.WordCount ∧
          InsertedInside st0.wordChunks st.trace.blocks st.wordChunks ∧
          ∃ first last, st0.wordChunks.head? = some first ∧
            st0.wordChunks.getLast? = some last ∧
            st.wordChunks.head? = some first ∧ st.wordChunks.getLast? = some last ∧
            first <+: stringsJoin st.wordChunks ∧ last <:+ stringsJoin st.wordChunks) := by
  constructor
  · intro chunks block src pos cs pos1 hrun
    obtain ⟨i, -, h2, h1, hcs⟩ := insertChunk_post_index chunks block src pos cs pos1 hrun
    constructor
    · intro hge
      exact ⟨i, (h2 hge).1, (h2 hge).2, hcs⟩
    · intro hlt
      rw [hcs, h1 hlt, List.take_length, List.drop_length]
  · intro src pos st pos1 hrun
    rcases hp : parseDigitRange g.config.DigitRange with ⟨mn, mx, err⟩
    cases err with
    | some e =>
      exact absurd rfl (generateState_error tbl g (by rw [hp]; simp) src pos _ pos1 hrun st)
    | none =>
      obtain ⟨st0, pos0, hword, hsep⟩ := generateState_run tbl g mn mx hp src pos pos1 st hrun
      have hlen := wordLoop_post_length tbl g _ 0 initialState src pos _ pos0 hword st0 rfl
      have hbl0 := wordLoop_post_blocks tbl g _ 0 initialState src pos _ pos0 hword st0 rfl
      have hlen0 : st0.wordChunks.length = g.config.WordCount.toNat := by
        rw [hlen]
        simp [initialState]
      have h2 : 2 ≤ st0.wordChunks.length := by
        rw [hlen0]
        omega
      obtain ⟨blocks, hbl, -, hins⟩ :=
        separatorLoop_post_inside _ mn mx _ st0 h2 src pos0 _ pos1 hsep st rfl
      have hblocks : st.trace.blocks = blocks := by
        rw [hbl, hbl0]
        rfl
      rw [← hblocks] at hins
      obtain ⟨hh, hl, -⟩ := InsertedInside_ends _ _ _ hins
      obtain ⟨first, hfirst⟩ : ∃ first, st0.wordChunks.head? = some first := by
        cases hc : st0.wordChunks with
        | nil => rw [hc] at h2; simp at h2
        | cons c rest => exact ⟨c, rfl⟩
      obtain ⟨last, hlast⟩ : ∃ last, st0.wordChunks.getLast? = some last := by
        cases hc : st0.wordChunks.getLast? with
        | none =>
          rw [List.getLast?_eq_none_iff] at hc
          rw [hc] at h2
          simp at h2
        | some x => exact ⟨x, rfl⟩
      refine ⟨st0, pos0, hword, by rw [hlen0]; omega, hins, first, last, hfirst, hlast,
        by rw [hh, hfirst], by rw [hl, hlast], ?_, ?_⟩
      · exact stringsJoin_prefix _ _ (by rw [hh, hfirst])
      · exact stringsJoin_suffix _ _ (by rw [hl, hlast])

/-- C11 (witness): for `sampleGenerator`, with a word count of 2, the run over
`sampleSource` ends with the chunks "Haus", "!42!", "Obot": the block lies between the
first and the last word chunk. -/
theorem insertion_inside_witness :
    ((2 : Int) ≤ sampleGenerator.config.WordCount ∧
      ∃ st, generateState latin1 sampleGenerator sampleSource 0 = .done (.ok st) 6 ∧
        st.wordChunks = [lit "Haus", lit "!42!", lit "Obot"]) ∧
    ((∀ (chunks : List GoString) (block : GoString) (src : Source) (pos : Nat)
        (cs : List GoString) (pos1 : Nat),
      insertChunk chunks block src pos = .done cs pos1 →
        (2 ≤ chunks.length → ∃ i, 1 ≤ i ∧ i ≤ chunks.length - 1 ∧
          cs = chunks.take i ++ block :: chunks.drop i) ∧
        (chunks.length < 2 → cs = chunks ++ [block])) ∧
    (∀ (src : Source) (pos : Nat) (st : State) (pos1 : Nat),
      generateState latin1 sampleGenerator src pos = .done (.ok st) pos1 →
        ∃ st0 pos0,
          wordLoop latin1 sampleGenerator sampleGenerator.config.WordCount.toNat 0 initialState
            src pos = .done (.ok st0) pos0 ∧
          (st0.wordChunks.length : Int) = sampleGenerator.config.WordCount ∧
          InsertedInside st0.wordChunks st.trace.blocks st.wordChunks ∧
          ∃ first last, st0.wordChunks.head? = some first ∧
            st0.wordChunks.getLast? = some last ∧
            st.wordChunks.head? = some first ∧ st.wordChunks.getLast? = some last ∧
            first <+: stringsJoin st.wordChunks ∧ last <:+ stringsJoin st.wordChunks)) :=
  ⟨⟨by decide,
    ⟨⟨true, [lit "Haus", lit "!42!", lit "Obot"],
      ⟨[1], [(0, false), (1, false)], [lit "!42!"]⟩⟩, by decide, rfl⟩⟩,
   insertion_inside latin1 sampleGenerator (by decide)⟩

/-- C20: for a word count and a separator count of at least 0 and a digit range that
parses, in every run of `Generate` that reaches the final assembly the chunk sequence has
`WordCount + SeparatorCount` chunks, and its positions can be marked so that the marked
chunks are the separator blocks built (in some order) and the chunks left when the marked
ones are removed are the word chunks, in the order in which the word loop produced them.
One insertion keeps every chunk of the sequence, in the same order, and adds the block. -/
theorem chunk_sequence (tbl : CaseTables) (g : Generator) (mn mx : Int)
    (hw : 0 ≤ g.config.WordCount) (hs : 0 ≤ g.config.SeparatorCount)
    (hparse : parseDigitRange g.config.DigitRange = (mn, mx, none)) :
    (∀ (chunks : List GoString) (block : GoString) (src : Source) (pos : Nat)
        (cs : List GoString) (pos1 : Nat),
      insertChunk chunks block src pos = .done cs pos1 →
        ∃ i, i ≤ chunks.length ∧ cs = chunks.take i ++ block :: chunks.drop i) ∧
    (∀ (src : Source) (pos : Nat) (st : State) (pos1 : Nat),
      generateState tbl g src pos = .done (.ok st) pos1 →
        ∃ st0 pos0,
          wordLoop tbl g g.config.WordCount.toNat 0 initialState src pos =
            .done (.ok st0) pos0 ∧
          (st0.wordChunks.length : Int) = g.config.WordCount ∧
          (st.trace.blocks.length : Int) = g.config.SeparatorCount ∧
          (st.wordChunks.length : Int) = g.config.WordCount + g.config.SeparatorCount ∧
          ∃ tagged : List (Bool × GoString),
            tagged.map Prod.snd = st.wordChunks ∧
            chunksMarked false tagged = st0.wordChunks ∧
            (chunksMarked true tagged).Perm st.trace.blocks) := by
  constructor
  · intro chunks block src pos cs pos1 hrun
    obtain ⟨i, hi, -, -, hcs⟩ := insertChunk_post_index chunks block src pos cs pos1 hrun
    exact ⟨i, hi, hcs⟩
  · intro src pos st pos1 hrun
    obtain ⟨st0, pos0, hword, hsep⟩ := generateState_run tbl g mn mx hparse src pos pos1 st hrun
    have hlen := wordLoop_post_length tbl g _ 0 initialState src pos _ pos0 hword st0 rfl
    have hbl0 := wordLoop_post_blocks tbl g _ 0 initialState src pos _ pos0 hword st0 rfl
    have hlen0 : st0.wordChunks.length = g.config.WordCount.toNat := by
      rw [hlen]
      simp [initialState]
    obtain ⟨t1, t2, t3⟩ := chunksMarked_words st0.wordChunks
    obtain ⟨tagged, blocks, h1, h2, h3, h4, h5, h6⟩ :=
      separatorLoop_post_tagged _ mn mx _ st0 _ t1 src pos0 _ pos1 hsep st rfl
    have hblocks : st.trace.blocks = blocks := by
      rw [h4, hbl0]
      rfl
    refine ⟨st0, pos0, hword, by rw [hlen0]; omega, by rw [hblocks, h5]; omega,
      by rw [h6, hlen0]; omega, tagged, h1, by rw [h2, t2], ?_⟩
    rw [hblocks]
    rw [t3] at h3
    exact h3

/-- C20 (witness): for `sampleGenerator` (two words, one block, digit range "2") the run
over `sampleSource` joins the three chunks "Haus", "!42!", "Obot"; without the block the
word chunks "Haus", "Obot" are left. -/
theorem chunk_sequence_witness :
    ((0 : Int) ≤ sampleGenerator.config.WordCount ∧
      (0 : Int) ≤ sampleGenerator.config.SeparatorCount ∧
      parseDigitRange sampleGenerator.config.DigitRange = (2, 2, none) ∧
      wordLoop latin1 sampleGenerator 2 0 initialState sampleSource 0 =
        .done (.ok ⟨true, [lit "Haus", lit "Obot"], ⟨[1], [(0, false), (1, false)], []⟩⟩) 5 ∧
      generateState latin1 sampleGenerator sampleSource 0 =
        .done (.ok ⟨true, [lit "Haus", lit "!42!", lit "Obot"],
          ⟨[1], [(0, false), (1, false)], [lit "!42!"]⟩⟩) 6) ∧
    ((∀ (chunks : List GoString) (block : GoString) (src : Source) (pos : Nat)
        (cs : List GoString) (pos1 : Nat),
      insertChunk chunks block src pos = .done cs pos1 →
        ∃ i, i ≤ chunks.length ∧ cs = chunks.take i ++ block :: chunks.drop i) ∧
    (∀ (src : Source) (pos : Nat) (st : State) (pos1 : Nat),
      generateState latin1 sampleGenerator src pos = .done (.ok st) pos1 →
        ∃ st0 pos0,
          wordLoop latin1 sampleGenerator sampleGenerator.config.WordCount.toNat 0 initialState
            src pos = .done (.ok st0) pos0 ∧
          (st0.wordChunks.length : Int) = sampleGenerator.config.WordCount ∧
          (st.trace.blocks.length : Int) = sampleGenerator.config.SeparatorCount ∧
          (st.wordChunks.length : Int) =
            sampleGenerator.config.WordCount + sampleGenerator.config.SeparatorCount ∧
          ∃ tagged : List (Bool × GoString),
            tagged.map Prod.snd = st.wordChunks ∧
            chunksMarked false tagged = st0.wordChunks ∧
            (chunksMarked true tagged).Perm st.trace.blocks)) :=
  ⟨⟨by decide, by decide, by decide, by decide, by decide⟩,
   chunk_sequence latin1 sampleGenerator 2 2 (by decide) (by decide) (by decide)⟩


/-! ## Line endings -/

theorem decodeAux_length_le (k : Nat) (s : GoString) : (decodeAux k s).length ≤ s.length := by
  induction s generalizing k with
  | nil => cases k <;> simp [decodeAux]
  | cons b rest ih =>
    cases k with
    | zero =>
      unfold decodeAux
      rw [List.length_cons, List.length_cons]
      exact Nat.succ_le_succ (ih _)
    | succ k =>
      unfold decodeAux
      rw [List.length_cons]
      exact Nat.le_succ_of_le (ih _)

theorem decodeRunes_length_le (s : GoString) : (decodeRunes s).length ≤ s.length := by
  unfold decodeRunes
  rw [List.length_map]
  exact decodeAux_length_le 0 s

/-- A draw whose bound is at least 2 and whose read fails returns nil. -/
theorem randInt_none (max : Int) (h : 2 ≤ max) (src : Source) (pos : Nat)
    (hsrc : src pos = none) : randInt max src pos = .done none (pos + 1) := by
  unfold randInt
  rw [if_neg (by omega), if_neg (by omega), hsrc]

theorem wordStep_fail (tbl : CaseTables) (g : Generator) (i : Int) (st : State)
    (hlen : 2 ≤ g.filteredWords.length) (src : Source) (pos : Nat) (hsrc : src pos = none) :
    wordStep tbl g i st src pos = .done (.error (.randomWord .entropy)) (pos + 1) := by
  have hw : getRandomWord g src pos = .done ([], some .entropy) (pos + 1) := by
    unfold getRandomWord
    rw [bind_done _ _ _ _ _ _ (randInt_none _ (by omega) src pos hsrc)]
    rfl
  unfold wordStep
  rw [bind_done _ _ _ _ _ _ hw]
  rfl

theorem shouldApplyTypo_fail (rate : Rate) (hrate : rate.leZero = false) (src : Source)
    (pos : Nat) (hsrc : src pos = none) :
    shouldApplyTypo rate src pos = .done false (pos + 1) := by
  unfold shouldApplyTypo
  rw [hrate]
  simp only [Bool.false_eq_true, if_false]
  rw [bind_done _ _ _ _ _ _ (randInt_none _ (by omega) src pos hsrc)]
  rfl

theorem applyTypoTransposition_fail (word : GoString) (hlen : 3 ≤ (decodeRunes word).length)
    (src : Source) (pos : Nat) (hsrc : src pos = none) :
    applyTypoTransposition word src pos = .done word (pos + 1) := by
  have hb := decodeRunes_length_le word
  unfold applyTypoTransposition
  rw [if_neg (by omega)]
  simp only
  rw [bind_done _ _ _ _ _ _ (randInt_none _ (by omega) src pos hsrc)]
  rfl

theorem applyCapitalization_fail (tbl : CaseTables) (word : GoString)
    (hlen : 2 ≤ (decodeRunes word).length) (src : Source) (pos : Nat) (hsrc : src pos = none) :
    applyCapitalization tbl word (lit "random") src pos = .done word (pos + 1) := by
  cases word with
  | nil => simp [decodeRunes, decodeAux] at hlen
  | cons b0 tail =>
    unfold applyCapitalization
    simp only
    rw [if_neg (by decide), if_pos trivial]
    rw [bind_done _ _ _ _ _ _ (randInt_none _ (by omega) src pos hsrc)]
    rfl

theorem separatorChunk_fail_char (pool : List GoString) (mn mx : Int) (hlen : 2 ≤ pool.length)
    (src : Source) (pos : Nat) (hsrc : src pos = none) :
    separatorChunk pool mn mx src pos = .done (.error (.randomChar .entropy)) (pos + 1) := by
  have hc : getRandomSeparatorChar pool src pos = .done ([], some .entropy) (pos + 1) := by
    unfold getRandomSeparatorChar
    rw [bind_done _ _ _ _ _ _ (randInt_none _ (by omega) src pos hsrc)]
    rfl
  unfold separatorChunk
  rw [bind_done _ _ _ _ _ _ hc]
  rfl

theorem separatorChunk_fail_count (pool : List GoString) (mn mx : Int) (h1 : 1 ≤ mn)
    (h2 : mn < mx) (h3 : mx ≤ maxInt) (src : Source) (pos pos2 : Nat) (c : GoString)
    (hc : getRandomSeparatorChar pool src pos = .done (c, none) pos2)
    (hsrc : src pos2 = none) :
    separatorChunk pool mn mx src pos = .fatal := by
  have hn : randomDigitCount mn mx src pos2 = .fatal := by
    unfold randomDigitCount
    rw [if_neg (by omega), wrapInt_small _ (by omega) (by omega)]
    rw [bind_done _ _ _ _ _ _ (randInt_none _ (by omega) src pos2 hsrc)]
    rfl
  unfold separatorChunk
  rw [bind_done _ _ _ _ _ _ hc]
  simp only
  rw [bind_fatal _ _ _ _ hn]

theorem separatorChunk_fail_value (pool : List GoString) (mn mx : Int) (src : Source)
    (pos pos2 pos3 : Nat) (c : GoString) (n : Int)
    (hc : getRandomSeparatorChar pool src pos = .done (c, none) pos2)
    (hn : randomDigitCount mn mx src pos2 = .done n pos3) (hn1 : 1 ≤ n) (hn2 : n ≤ 18)
    (hsrc : src pos3 = none) :
    separatorChunk pool mn mx src pos = .done (.error (.randomDigits .entropy)) (pos3 + 1) := by
  have hd : getRandomDigits n src pos3 = .done ([], some .entropy) (pos3 + 1) := by
    unfold getRandomDigits
    rw [if_neg (by omega), pow10Int64_small n hn2]
    have hpow : (2 : Int) ≤ ((10 ^ n.toNat : Nat) : Int) := by
      have h1 : 1 ≤ n.toNat := by omega
      have : 10 ^ 1 ≤ 10 ^ n.toNat := Nat.pow_le_pow_right (by norm_num) h1
      omega
    rw [bind_done _ _ _ _ _ _ (randInt_none _ hpow src pos3 hsrc)]
    rfl
  unfold separatorChunk
  rw [bind_done _ _ _ _ _ _ hc]
  simp only
  rw [bind_done _ _ _ _ _ _ hn, bind_done _ _ _ _ _ _ hd]
  rfl

/-- An outcome of a loop step that ends the loop: an error, a panic or the end of the
process. The loop then has the same outcome, whatever the number of iterations left. -/
theorem wordLoop_stops (tbl : CaseTables) (g : Generator) (k j : Nat) (i : Int)
    (st st1 : State) (src : Source) (pos pos1 : Nat) (o : Outcome (Except GoError State))
    (hrun : wordLoop tbl g j i st src pos = .done (.ok st1) pos1)
    (hstep : wordStep tbl g (i + j) st1 src pos1 = o)
    (ho : ∀ st2 p, o ≠ .done (.ok st2) p) :
    wordLoop tbl g (j + (k + 1)) i st src pos = o := by
  induction j generalizing i st pos with
  | zero =>
    unfold wordLoop at hrun
    rw [pure_eq] at hrun
    injection hrun with hst hp
    injection hst with hst
    subst hst
    subst hp
    rw [Nat.zero_add]
    unfold wordLoop
    simp only [Nat.cast_zero, add_zero] at hstep
    cases o with
    | done r p =>
      cases r with
      | error e =>
        rw [bind_done _ _ _ _ _ _ hstep]
        rfl
      | ok st2 => exact absurd rfl (ho st2 p)
    | panic => exact bind_panic _ _ _ _ hstep
    | fatal => exact bind_fatal _ _ _ _ hstep
  | succ j ih =>
    unfold wordLoop at hrun
    obtain ⟨r, p0, hs, hk⟩ := bind_done_inv _ _ _ _ _ _ hrun
    cases r with
    | error e =>
      simp only at hk
      rw [pure_eq] at hk
      injection hk with hk _
      cases hk
    | ok st0 =>
      simp only at hk
      have hstep1 : wordStep tbl g (i + 1 + j) st1 src pos1 = o := by
        rw [← hstep]
        congr 1
        push_cast
        ring
      have e : j + 1 + (k + 1) = (j + (k + 1)) + 1 := by omega
      rw [e]
      unfold wordLoop
      rw [bind_done _ _ _ _ _ _ hs]
      exact ih (i + 1) st0 p0 hk hstep1

theorem separatorStep_of_chunk (pool : List GoString) (mn mx : Int) (st : State) (src : Source)
    (pos : Nat) :
    (∀ e p, separatorChunk pool mn mx src pos = .done (.error e) p →
      separatorStep pool mn mx st src pos = .done (.error e) p) ∧
    (separatorChunk pool mn mx src pos = .fatal → separatorStep pool mn mx st src pos = .fatal) := by
  constructor
  · intro e p h
    unfold separatorStep
    rw [bind_done _ _ _ _ _ _ h]
    rfl
  · intro h
    unfold separatorStep
    exact bind_fatal _ _ _ _ h

theorem separatorLoop_stops (pool : List GoString) (mn mx : Int) (k j : Nat)
    (st st1 : State) (src : Source) (pos pos1 : Nat) (o : Outcome (Except GoError State))
    (hrun : separatorLoop pool mn mx j st src pos = .done (.ok st1) pos1)
    (hstep : separatorStep pool mn mx st1 src pos1 = o)
    (ho : ∀ st2 p, o ≠ .done (.ok st2) p) :
    separatorLoop pool mn mx (j + (k + 1)) st src pos = o := by
  induction j generalizing st pos with
  | zero =>
    unfold separatorLoop at hrun
    rw [pure_eq] at hrun
    injection hrun with hst hp
    injection hst with hst
    subst hst
    subst hp
    rw [Nat.zero_add]
    unfold separatorLoop
    cases o with
    | done r p =>
      cases r with
      | error e =>
        rw [bind_done _ _ _ _ _ _ hstep]
        rfl
      | ok st2 => exact absurd rfl (ho st2 p)
    | panic => exact bind_panic _ _ _ _ hstep
    | fatal => exact bind_fatal _ _ _ _ hstep
  | succ j ih =>
    unfold separatorLoop at hrun
    obtain ⟨r, p0, hs, hk⟩ := bind_done_inv _ _ _ _ _ _ hrun
    cases r with
    | error e =>
      simp only at hk
      rw [pure_eq] at hk
      injection hk with hk _
      cases hk
    | ok st0 =>
      simp only at hk
      have e : j + 1 + (k + 1) = (j + (k + 1)) + 1 := by omega
      rw [e]
      unfold separatorLoop
      rw [bind_done _ _ _ _ _ _ hs]
      exact ih st0 p0 hk

/-- The outcome of `Generate` when its word loop, or its separator loop after a word loop
that went through, ends with an error or with the end of the process. -/
theorem Generate_stops (tbl : CaseTables) (g : Generator) (mn mx : Int)
    (hparse : parseDigitRange g.config.DigitRange = (mn, mx, none)) (src : Source) (pos : Nat) :
    (∀ e p, wordLoop tbl g g.config.WordCount.toNat 0 initialState src pos = .done (.error e) p →
      Generate tbl g src pos = .done ([], some e) p) ∧
    (∀ st0 pos0,
      wordLoop tbl g g.config.WordCount.toNat 0 initialState src pos = .done (.ok st0) pos0 →
      (∀ e p, separatorLoop (parseSeparatorPool g.config.SeparatorPool) mn mx
          g.config.SeparatorCount.toNat st0 src pos0 = .done (.error e) p →
        Generate tbl g src pos = .done ([], some e) p) ∧
      (separatorLoop (parseSeparatorPool g.config.SeparatorPool) mn mx
          g.config.SeparatorCount.toNat st0 src pos0 = .fatal →
        Generate tbl g src pos = .fatal)) := by
  refine ⟨?_, ?_⟩
  · intro e p h
    have hgs : generateState tbl g src pos = .done (.error e) p := by
      rw [generateState_eq tbl g mn mx hparse, bind_done _ _ _ _ _ _ h]
      rfl
    unfold Generate
    rw [bind_done _ _ _ _ _ _ hgs]
    rfl
  · intro st0 pos0 h
    refine ⟨?_, ?_⟩
    · intro e p hsep
      have hgs : generateState tbl g src pos = .done (.error e) p := by
        rw [generateState_eq tbl g mn mx hparse, bind_done _ _ _ _ _ _ h]
        exact hsep
      unfold Generate
      rw [bind_done _ _ _ _ _ _ hgs]
      rfl
    · intro hsep
      have hgs : generateState tbl g src pos = .fatal := by
        rw [generateState_eq tbl g mn mx hparse, bind_done _ _ _ _ _ _ h]
        exact hsep
      unfold Generate
      exact bind_fatal _ _ _ _ hgs




/-- C13 (counterexample): `drawsGenerator` makes twelve draws when none fails (word, typo
trial, typo position and capitalization position for the first word; word and
capitalization position for the second and for the third; separator character, digit
count, digit value and insertion position). With the typo trial (draw 1), the typo
position (draw 2) or a capitalization position (draw 3) failing, `Generate` returns a
passphrase and no error: the trial counts as failed, the word is left as it is. With the
digit count (draw 9) failing the process is ended by `log.Fatalf`, and with the insertion
position (draw 11) failing, the error being discarded, `Generate` panics. -/
theorem draw_failure_without_error :
    Generate latin1 drawsGenerator (failAt 12) 0 = .done (lit "Ahus!00!HausHaus", none) 12 ∧
    (shouldApplyTypo drawsGenerator.config.TypoRate (failAt 1) 1 = .done false 2 ∧
      Generate latin1 drawsGenerator (failAt 1) 0 = .done (lit "Haus!00!AhusHaus", none) 13) ∧
    (applyTypoTransposition (lit "haus") (failAt 2) 2 = .done (lit "haus") 3 ∧
      Generate latin1 drawsGenerator (failAt 2) 0 = .done (lit "Haus!00!HausHaus", none) 12) ∧
    (applyCapitalization latin1 (lit "ahus") (lit "random") (failAt 3) 3 = .done (lit "ahus") 4 ∧
      Generate latin1 drawsGenerator (failAt 3) 0 = .done (lit "ahus!00!HausHaus", none) 12) ∧
    (randomDigitCount 2 3 (failAt 9) 9 = .fatal ∧
      Generate latin1 drawsGenerator (failAt 9) 0 = .fatal) ∧
    (insertChunk [lit "Ahus", lit "Haus", lit "Haus"] (lit "!00!") (failAt 11) 11 = .panic ∧
      Generate latin1 drawsGenerator (failAt 11) 0 = .panic) := by
  decide

/-- C13 (amended): for a digit range that parses, a failed draw of a word (with at least
two words to choose from), of a separator character (with a pool of at least two) or of
the digits' value (for a digit count of at most 18) makes `Generate` return that error,
wrapped, and the empty passphrase, at the draw that failed; these are the only errors
`Generate` returns. A failed draw of the digit count ends the process. A failed typo
trial counts as a trial that did not hit, and a failed draw of the typo position or of
the capitalization position returns the word as it is, with no error. -/
theorem draw_failure_outcome (tbl : CaseTables) (g : Generator) (mn mx : Int)
    (hparse : parseDigitRange g.config.DigitRange = (mn, mx, none)) :
    (∀ (src : Source) (pos j : Nat) (st1 : State) (pos1 : Nat),
      j < g.config.WordCount.toNat → 2 ≤ g.filteredWords.length →
      wordLoop tbl g j 0 initialState src pos = .done (.ok st1) pos1 → src pos1 = none →
      Generate tbl g src pos = .done ([], some (.randomWord .entropy)) (pos1 + 1)) ∧
    (∀ (src : Source) (pos : Nat) (st0 : State) (pos0 j : Nat) (st1 : State) (pos1 : Nat),
      wordLoop tbl g g.config.WordCount.toNat 0 initialState src pos = .done (.ok st0) pos0 →
      j < g.config.SeparatorCount.toNat →
      separatorLoop (parseSeparatorPool g.config.SeparatorPool) mn mx j st0 src pos0 =
        .done (.ok st1) pos1 →
      (2 ≤ (parseSeparatorPool g.config.SeparatorPool).length → src pos1 = none →
        Generate tbl g src pos = .done ([], some (.randomChar .entropy)) (pos1 + 1)) ∧
      (∀ (c : GoString) (pos2 : Nat),
        getRandomSeparatorChar (parseSeparatorPool g.config.SeparatorPool) src pos1 =
          .done (c, none) pos2 →
        (mn < mx → src pos2 = none → Generate tbl g src pos = .fatal) ∧
        (∀ (n : Int) (pos3 : Nat), randomDigitCount mn mx src pos2 = .done n pos3 →
          n ≤ 18 → src pos3 = none →
          Generate tbl g src pos = .done ([], some (.randomDigits .entropy)) (pos3 + 1)))) ∧
    (∀ (src : Source) (pos : Nat) (s : GoString) (e : GoError) (pos1 : Nat),
      Generate tbl g src pos = .done (s, some e) pos1 →
        s = [] ∧ (e = .randomWord .entropy ∨ e = .randomChar .entropy ∨
          e = .randomDigits .entropy)) ∧
    (∀ (src : Source) (pos : Nat), g.config.TypoRate.leZero = false → src pos = none →
      shouldApplyTypo g.config.TypoRate src pos = .done false (pos + 1)) ∧
    (∀ (word : GoString) (src : Source) (pos : Nat), 3 ≤ (decodeRunes word).length →
      src pos = none → applyTypoTransposition word src pos = .done word (pos + 1)) ∧
    (∀ (word : GoString) (src : Source) (pos : Nat), 2 ≤ (decodeRunes word).length →
      src pos = none →
      applyCapitalization tbl word (lit "random") src pos = .done word (pos + 1)) := by
  obtain ⟨h1, h2, h3⟩ := parseDigitRange_range _ _ _ hparse
  refine ⟨?_, ?_, ?_, ?_, ?_, ?_⟩
  · intro src pos j st1 pos1 hj hlen hrun hsrc
    obtain ⟨hword, -⟩ := Generate_stops tbl g mn mx hparse src pos
    apply hword
    have hn : g.config.WordCount.toNat = j + ((g.config.WordCount.toNat - j - 1) + 1) := by
      omega
    rw [hn]
    exact wordLoop_stops tbl g _ j 0 initialState st1 src pos pos1 _ hrun
      (wordStep_fail tbl g _ st1 hlen src pos1 hsrc) (fun st2 p hc => by cases hc)
  · intro src pos st0 pos0 j st1 pos1 hword hj hrun
    obtain ⟨-, hsep⟩ := Generate_stops tbl g mn mx hparse src pos
    obtain ⟨herr, hfatal⟩ := hsep st0 pos0 hword
    have hn : g.config.SeparatorCount.toNat =
        j + ((g.config.SeparatorCount.toNat - j - 1) + 1) := by omega
    obtain ⟨hse, hsf⟩ := separatorStep_of_chunk (parseSeparatorPool g.config.SeparatorPool)
      mn mx st1 src pos1
    refine ⟨?_, ?_⟩
    · intro hlen hsrc
      apply herr
      rw [hn]
      exact separatorLoop_stops _ mn mx _ j st0 st1 src pos0 pos1 _ hrun
        (hse _ _ (separatorChunk_fail_char _ mn mx hlen src pos1 hsrc))
        (fun st2 p hc => by cases hc)
    · intro c pos2 hc
      refine ⟨?_, ?_⟩
      · intro hlt hsrc
        apply hfatal
        rw [hn]
        exact separatorLoop_stops _ mn mx _ j st0 st1 src pos0 pos1 _ hrun
          (hsf (separatorChunk_fail_count _ mn mx h1 hlt h3 src pos1 pos2 c hc hsrc))
          (fun st2 p hc => by cases hc)
      · intro n pos3 hcount hn18 hsrc
        have hn1 : 1 ≤ n := by
          have := randomDigitCount_post mn mx h1 h2 h3 src pos2 n pos3 hcount
          omega
        apply herr
        rw [hn]
        exact separatorLoop_stops _ mn mx _ j st0 st1 src pos0 pos1 _ hrun
          (hse _ _ (separatorChunk_fail_value _ mn mx src pos1 pos2 pos3 c n hc hcount hn1 hn18
            hsrc))
          (fun st2 p hc => by cases hc)
  · intro src pos s e pos1 hrun
    unfold Generate at hrun
    obtain ⟨r, pos0, hgs, hk⟩ := bind_done_inv _ _ _ _ _ _ hrun
    cases r with
    | ok st =>
      simp only at hk
      rw [pure_eq] at hk
      injection hk with hk _
      injection hk with _ hk
      cases hk
    | error e0 =>
      simp only at hk
      rw [pure_eq] at hk
      injection hk with hk _
      injection hk with hs he
      injection he with he
      subst he
      refine ⟨hs.symm, ?_⟩
      rcases generateState_post_err tbl g src pos _ pos0 hgs e0 rfl with hp | hrest
      · rw [hparse] at hp
        cases hp
      · exact hrest
  · intro src pos hrate hsrc
    exact shouldApplyTypo_fail _ hrate src pos hsrc
  · intro word src pos hlen hsrc
    exact applyTypoTransposition_fail word hlen src pos hsrc
  · intro word src pos hlen hsrc
    exact applyCapitalization_fail tbl word hlen src pos hsrc

/-- C13 (witness): for `drawsGenerator`, whose range "2-3" parses; with the second word's
draw (draw 4, after one slot of the word loop), the separator character's draw (draw 8) or
the digit value's draw (draw 10) failing, `Generate` returns the wrapped error. -/
theorem draw_failure_outcome_witness :
    (parseDigitRange drawsGenerator.config.DigitRange = (2, 3, none) ∧
      wordLoop latin1 drawsGenerator 1 0 initialState (failAt 4) 0 =
        .done (.ok ⟨true, [lit "Ahus"], ⟨[0], [(0, true)], []⟩⟩) 4 ∧
      Generate latin1 drawsGenerator (failAt 4) 0 =
        .done ([], some (.randomWord .entropy)) 5 ∧
      Generate latin1 drawsGenerator (failAt 8) 0 =
        .done ([], some (.randomChar .entropy)) 9 ∧
      Generate latin1 drawsGenerator (failAt 10) 0 =
        .done ([], some (.randomDigits .entropy)) 11) ∧
    ((∀ (src : Source) (pos j : Nat) (st1 : State) (pos1 : Nat),
      j < drawsGenerator.config.WordCount.toNat → 2 ≤ drawsGenerator.filteredWords.length →
      wordLoop latin1 drawsGenerator j 0 initialState src pos = .done (.ok st1) pos1 →
      src pos1 = none →
      Generate latin1 drawsGenerator src pos =
        .done ([], some (.randomWord .entropy)) (pos1 + 1)) ∧
    (∀ (src : Source) (pos : Nat) (st0 : State) (pos0 j : Nat) (st1 : State) (pos1 : Nat),
      wordLoop latin1 drawsGenerator drawsGenerator.config.WordCount.toNat 0 initialState
        src pos = .done (.ok st0) pos0 →
      j < drawsGenerator.config.SeparatorCount.toNat →
      separatorLoop (parseSeparatorPool drawsGenerator.config.SeparatorPool) 2 3 j st0 src pos0 =
        .done (.ok st1) pos1 →
      (2 ≤ (parseSeparatorPool drawsGenerator.config.SeparatorPool).length → src pos1 = none →
        Generate latin1 drawsGenerator src pos =
          .done ([], some (.randomChar .entropy)) (pos1 + 1)) ∧
      (∀ (c : GoString) (pos2 : Nat),
        getRandomSeparatorChar (parseSeparatorPool drawsGenerator.config.SeparatorPool) src pos1 =
          .done (c, none) pos2 →
        ((2 : Int) < 3 → src pos2 = none → Generate latin1 drawsGenerator src pos = .fatal) ∧
        (∀ (n : Int) (pos3 : Nat), randomDigitCount 2 3 src pos2 = .done n pos3 →
          n ≤ 18 → src pos3 = none →
          Generate latin1 drawsGenerator src pos =
            .done ([], some (.randomDigits .entropy)) (pos3 + 1)))) ∧
    (∀ (src : Source) (pos : Nat) (s : GoString) (e : GoError) (pos1 : Nat),
      Generate latin1 drawsGenerator src pos = .done (s, some e) pos1 →
        s = [] ∧ (e = .randomWord .entropy ∨ e = .randomChar .entropy ∨
          e = .randomDigits .entropy)) ∧
    (∀ (src : Source) (pos : Nat), drawsGenerator.config.TypoRate.leZero = false →
      src pos = none →
      shouldApplyTypo drawsGenerator.config.TypoRate src pos = .done false (pos + 1)) ∧
    (∀ (word : GoString) (src : Source) (pos : Nat), 3 ≤ (decodeRunes word).length →
      src pos = none → applyTypoTransposition word src pos = .done word (pos + 1)) ∧
    (∀ (word : GoString) (src : Source) (pos : Nat), 2 ≤ (decodeRunes word).length →
      src pos = none →
      applyCapitalization latin1 word (lit "random") src pos = .done word (pos + 1))) :=
  ⟨⟨by decide, by decide, by decide, by decide, by decide⟩,
   draw_failure_outcome latin1 drawsGenerator 2 3 (by decide)⟩




/-! ## Round trip between runes and bytes -/

/-- A rune returned by the decoder is a Unicode scalar value. -/
theorem decodeRune_scalar (b : Nat) (rest : GoString) :
    (decodeRune b rest).1 < 0xD800 ∨
      (0xE000 ≤ (decodeRune b rest).1 ∧ (decodeRune b rest).1 ≤ 0x10FFFF) := by
  have herr : runeError < 0xD800 ∨ (0xE000 ≤ runeError ∧ runeError ≤ 0x10FFFF) := by
    unfold runeError
    omega
  by_cases h1 : b < 0x80
  · rw [decodeRune_one b rest h1]
    left
    show b < 0xD800
    omega
  by_cases h2 : b < 0xC2
  · rw [decodeRune_bad b rest (Or.inl ⟨by omega, h2⟩)]
    exact herr
  by_cases h3 : b < 0xE0
  · rw [decodeRune_two b rest (by omega) h3]
    rcases rest with _ | ⟨b1, t⟩
    · exact herr
    · simp only
      by_cases hr : inRange 0x80 0xBF b1 = true
      · rw [if_pos hr]
        unfold inRange at hr
        simp only [Bool.and_eq_true, decide_eq_true_eq] at hr
        left
        show (b - 0xC0) * 64 + (b1 - 0x80) < 0xD800
        omega
      · rw [if_neg hr]
        exact herr
  by_cases h4 : b < 0xF0
  · rw [decodeRune_three b rest (by omega) h4]
    rcases rest with _ | ⟨b1, _ | ⟨b2, t⟩⟩
    · exact herr
    · exact herr
    · simp only
      by_cases hr : (inRange (if b = 0xE0 then 0xA0 else 0x80) (if b = 0xED then 0x9F else 0xBF) b1
          && inRange 0x80 0xBF b2) = true
      · rw [if_pos hr]
        unfold inRange at hr
        simp only [Bool.and_eq_true, decide_eq_true_eq] at hr
        show (b - 0xE0) * 4096 + (b1 - 0x80) * 64 + (b2 - 0x80) < 0xD800 ∨
          (0xE000 ≤ (b - 0xE0) * 4096 + (b1 - 0x80) * 64 + (b2 - 0x80) ∧
            (b - 0xE0) * 4096 + (b1 - 0x80) * 64 + (b2 - 0x80) ≤ 0x10FFFF)
        split_ifs at hr <;> omega
      · rw [if_neg hr]
        exact herr
  by_cases h5 : b < 0xF5
  · rw [decodeRune_four b rest (by omega) h5]
    rcases rest with _ | ⟨b1, _ | ⟨b2, _ | ⟨b3, t⟩⟩⟩
    · exact herr
    · exact herr
    · exact herr
    · simp only
      by_cases hr : (inRange (if b = 0xF0 then 0x90 else 0x80) (if b = 0xF4 then 0x8F else 0xBF) b1
          && inRange 0x80 0xBF b2 && inRange 0x80 0xBF b3) = true
      · rw [if_pos hr]
        unfold inRange at hr
        simp only [Bool.and_eq_true, decide_eq_true_eq] at hr
        right
        show 0xE000 ≤ (b - 0xF0) * 262144 + (b1 - 0x80) * 4096 + (b2 - 0x80) * 64 + (b3 - 0x80) ∧
          (b - 0xF0) * 262144 + (b1 - 0x80) * 4096 + (b2 - 0x80) * 64 + (b3 - 0x80) ≤ 0x10FFFF
        split_ifs at hr <;> omega
      · rw [if_neg hr]
        exact herr
  · rw [decodeRune_bad b rest (Or.inr (by omega))]
    exact herr

theorem decodeAux_scalar (k : Nat) (s : GoString) :
    ∀ p ∈ decodeAux k s, p.1 < 0xD800 ∨ (0xE000 ≤ p.1 ∧ p.1 ≤ 0x10FFFF) := by
  induction s generalizing k with
  | nil =>
    intro p hp
    cases k <;> simp [decodeAux] at hp
  | cons b rest ih =>
    intro p hp
    cases k with
    | zero =>
      unfold decodeAux at hp
      rcases List.mem_cons.1 hp with rfl | hp1
      · exact decodeRune_scalar b rest
      · exact ih _ p hp1
    | succ k =>
      unfold decodeAux at hp
      exact ih _ p hp

/-- The runes of a string are Unicode scalar values. -/
theorem decodeRunes_scalar (s : GoString) :
    ∀ r ∈ decodeRunes s, r < 0xD800 ∨ (0xE000 ≤ r ∧ r ≤ 0x10FFFF) := by
  intro r hr
  unfold decodeRunes at hr
  obtain ⟨p, hp, rfl⟩ := List.mem_map.1 hr
  exact decodeAux_scalar 0 s p hp

/-- The bytes written for a scalar value decode to that value, with the width written. -/
theorem decodeAux_encodeRune (r : Nat) (hval : r < 0xD800 ∨ (0xE000 ≤ r ∧ r ≤ 0x10FFFF))
    (rest : GoString) :
    decodeAux 0 (encodeRune r ++ rest) = (r, (encodeRune r).length) :: decodeAux 0 rest := by
  by_cases h1 : r < 0x80
  · have he : encodeRune r = [r] := by
      unfold encodeRune
      rw [if_pos h1]
    rw [he, List.singleton_append, decodeAux_cons, decodeRune_one r rest h1]
    rfl
  by_cases h2 : r < 0x800
  · have he : encodeRune r = [0xC0 + r / 64, 0x80 + r % 64] := by
      unfold encodeRune
      rw [if_neg h1, if_pos h2]
    have hin : inRange 0x80 0xBF (0x80 + r % 64) = true := by
      unfold inRange
      simp only [Bool.and_eq_true, decide_eq_true_eq]
      omega
    have hd : decodeRune (0xC0 + r / 64) ((0x80 + r % 64) :: rest) = (r, 2) := by
      rw [decodeRune_two _ _ (by omega) (by omega)]
      simp only
      rw [if_pos hin]
      simp only [Prod.mk.injEq, and_true]
      omega
    rw [he]
    show decodeAux 0 ((0xC0 + r / 64) :: (0x80 + r % 64) :: rest) = _
    rw [decodeAux_cons, hd]
    rfl
  have h3 : ¬ ((0xD800 ≤ r ∧ r ≤ 0xDFFF) ∨ 0x10FFFF < r) := by omega
  by_cases h4 : r < 0x10000
  · have he : encodeRune r = [0xE0 + r / 4096, 0x80 + r / 64 % 64, 0x80 + r % 64] := by
      unfold encodeRune
      rw [if_neg h1, if_neg h2, if_neg h3, if_pos h4]
    have hin : (inRange (if 0xE0 + r / 4096 = 0xE0 then 0xA0 else 0x80)
        (if 0xE0 + r / 4096 = 0xED then 0x9F else 0xBF) (0x80 + r / 64 % 64)
        && inRange 0x80 0xBF (0x80 + r % 64)) = true := by
      unfold inRange
      simp only [Bool.and_eq_true, decide_eq_true_eq]
      split_ifs <;> omega
    have hd : decodeRune (0xE0 + r / 4096) ((0x80 + r / 64 % 64) :: (0x80 + r % 64) :: rest) =
        (r, 3) := by
      rw [decodeRune_three _ _ (by omega) (by omega)]
      simp only
      rw [if_pos hin]
      simp only [Prod.mk.injEq, and_true]
      omega
    rw [he]
    show decodeAux 0 ((0xE0 + r / 4096) :: (0x80 + r / 64 % 64) :: (0x80 + r % 64) :: rest) = _
    rw [decodeAux_cons, hd]
    rfl
  · have he : encodeRune r =
        [0xF0 + r / 262144, 0x80 + r / 4096 % 64, 0x80 + r / 64 % 64, 0x80 + r % 64] := by
      unfold encodeRune
      rw [if_neg h1, if_neg h2, if_neg h3, if_neg h4]
    have hin : (inRange (if 0xF0 + r / 262144 = 0xF0 then 0x90 else 0x80)
        (if 0xF0 + r / 262144 = 0xF4 then 0x8F else 0xBF) (0x80 + r / 4096 % 64)
        && inRange 0x80 0xBF (0x80 + r / 64 % 64) && inRange 0x80 0xBF (0x80 + r % 64)) = true := by
      unfold inRange
      simp only [Bool.and_eq_true, decide_eq_true_eq]
      split_ifs <;> omega
    have hd : decodeRune (0xF0 + r / 262144)
        ((0x80 + r / 4096 % 64) :: (0x80 + r / 64 % 64) :: (0x80 + r % 64) :: rest) = (r, 4) := by
      rw [decodeRune_four _ _ (by omega) (by omega)]
      simp only
      rw [if_pos hin]
      simp only [Prod.mk.injEq, and_true]
      omega
    rw [he]
    show decodeAux 0 ((0xF0 + r / 262144) :: (0x80 + r / 4096 % 64) :: (0x80 + r / 64 % 64) ::
      (0x80 + r % 64) :: rest) = _
    rw [decodeAux_cons, hd]
    rfl

/-- The conversion `[]rune(string(runes))` gives back a sequence of scalar values. -/
theorem decodeRunes_encodeRunes (rs : List Nat)
    (h : ∀ r ∈ rs, r < 0xD800 ∨ (0xE000 ≤ r ∧ r ≤ 0x10FFFF)) :
    decodeRunes (encodeRunes rs) = rs := by
  induction rs with
  | nil => rfl
  | cons r rest ih =>
    have ih1 := ih (fun x hx => h x (List.mem_cons_of_mem _ hx))
    unfold decodeRunes encodeRunes at ih1 ⊢
    rw [List.flatMap_cons, decodeAux_encodeRune r (h r (List.mem_cons_self _ _)), List.map_cons,
      ih1]

/-! ## Exchange of two adjacent elements -/

theorem swap_get? (l : List Nat) (i : Nat) (a b : Nat) (ha : l.get? i = some a)
    (hb : l.get? (i + 1) = some b) (j : Nat) :
    ((l.set i b).set (i + 1) a).get? j =
      if j = i then some b else if j = i + 1 then some a else l.get? j := by
  have hi : i + 1 < l.length := by
    rcases Nat.lt_or_ge (i + 1) l.length with h | h
    · exact h
    · rw [List.get?_eq_none.2 h] at hb
      cases hb
  simp only [List.get?_eq_getElem?, List.getElem?_set, List.length_set]
  by_cases h1 : j = i
  · subst h1
    rw [if_neg (by omega), if_pos rfl, if_pos (by omega), if_pos rfl]
  · rw [if_neg h1]
    by_cases h2 : j = i + 1
    · subst h2
      rw [if_pos rfl, if_pos hi, if_pos rfl]
    · rw [if_neg h2, if_neg (fun h => h2 h.symm), if_neg (fun h => h1 h.symm)]

theorem swap_length (l : List Nat) (i : Nat) (a b : Nat) :
    ((l.set i b).set (i + 1) a).length = l.length := by
  rw [List.length_set, List.length_set]

theorem swap_perm (l : List Nat) (i : Nat) (a b : Nat) (ha : l.get? i = some a)
    (hb : l.get? (i + 1) = some b) : ((l.set i b).set (i + 1) a).Perm l := by
  induction l generalizing i with
  | nil => cases ha
  | cons x xs ih =>
    cases i with
    | zero =>
      cases xs with
      | nil => cases hb
      | cons y ys =>
        simp only [List.get?_cons_zero, List.get?_cons_succ, Option.some.injEq] at ha hb
        subst ha
        subst hb
        exact List.Perm.swap _ _ _
    | succ i =>
      simp only [List.get?_cons_succ] at ha hb
      exact List.Perm.cons x (ih i ha hb)

theorem swap_swap (l : List Nat) (i : Nat) (a b : Nat) (ha : l.get? i = some a)
    (hb : l.get? (i + 1) = some b) :
    (((l.set i b).set (i + 1) a).set i a).set (i + 1) b = l := by
  have h1 : ((l.set i b).set (i + 1) a).get? i = some b := by
    rw [swap_get? l i a b ha hb, if_pos rfl]
  have h2 : ((l.set i b).set (i + 1) a).get? (i + 1) = some a := by
    rw [swap_get? l i a b ha hb, if_neg (by omega), if_pos rfl]
  apply List.ext_get?
  intro j
  rw [swap_get? _ i b a h1 h2, swap_get? l i a b ha hb]
  by_cases hj1 : j = i
  · rw [if_pos hj1, hj1, ha]
  · rw [if_neg hj1, if_neg hj1]
    by_cases hj2 : j = i + 1
    · rw [if_pos hj2, hj2, hb]
    · rw [if_neg hj2, if_neg hj2]

/-- A run of `applyTypoTransposition` on a word of at least two runes whose draw does not
fail: the runes at the drawn index and after it are exchanged and the runes encoded. -/
theorem applyTypoTransposition_run (word : GoString) (hn : 2 ≤ (decodeRunes word).length)
    (src : Source) (pos r : Nat) (hsrc : src pos = some r) (a b : Nat)
    (ha : (decodeRunes word).get? (r % ((decodeRunes word).length - 1)) = some a)
    (hb : (decodeRunes word).get? (r % ((decodeRunes word).length - 1) + 1) = some b) :
    ∃ pos1, applyTypoTransposition word src pos =
      .done (encodeRunes (((decodeRunes word).set (r % ((decodeRunes word).length - 1)) b).set
        (r % ((decodeRunes word).length - 1) + 1) a)) pos1 := by
  have hbytes := decodeRunes_length_le word
  obtain ⟨pos1, hr⟩ := randInt_some (((decodeRunes word).length : Int) - 1) (by omega) src pos r hsrc
  have hidx : ((r : Int) % (((decodeRunes word).length : Int) - 1)).toNat =
      r % ((decodeRunes word).length - 1) := by
    have hc : (((decodeRunes word).length : Int) - 1) =
        (((decodeRunes word).length - 1 : Nat) : Int) := by omega
    rw [hc, ← Int.natCast_mod, Int.toNat_natCast]
  refine ⟨pos1, ?_⟩
  unfold applyTypoTransposition
  rw [if_neg (by omega)]
  simp only
  rw [bind_done _ _ _ _ _ _ hr]
  simp only
  rw [hidx, ha, hb]
  rfl

/-- C19: for a word of `n ≥ 2` characters (runes) and a position draw with raw outcome
`r`, `applyTypoTransposition` returns; the index `i = r mod (n - 1)` it draws satisfies
`i ≤ n - 2`, and every index up to `n - 2` is drawn for some outcome; the characters of
the result are those of the word with the ones at positions `i` and `i + 1` exchanged and
all other positions unchanged; the result has the same number of characters and the same
characters up to order; applying the function again with the same draw gives back the
characters of the word, and the word itself when the word is the encoding of its
characters (well-formed UTF-8), in which case the lengths in bytes agree as well. -/
theorem applyTypoTransposition_exchange (word : GoString) (src : Source) (pos r : Nat)
    (hn : 2 ≤ (decodeRunes word).length) (hsrc : src pos = some r) :
    ∃ (out : GoString) (pos1 : Nat), applyTypoTransposition word src pos = .done out pos1 ∧
      r % ((decodeRunes word).length - 1) ≤ (decodeRunes word).length - 2 ∧
      (∀ i, i ≤ (decodeRunes word).length - 2 →
        ∃ r1, r1 % ((decodeRunes word).length - 1) = i) ∧
      (∀ j, (decodeRunes out).get? j =
        if j = r % ((decodeRunes word).length - 1) then
          (decodeRunes word).get? (r % ((decodeRunes word).length - 1) + 1)
        else if j = r % ((decodeRunes word).length - 1) + 1 then
          (decodeRunes word).get? (r % ((decodeRunes word).length - 1))
        else (decodeRunes word).get? j) ∧
      (decodeRunes out).length = (decodeRunes word).length ∧
      (decodeRunes out).Perm (decodeRunes word) ∧
      (∀ (src2 : Source) (pos2 : Nat), src2 pos2 = some r →
        ∃ (out2 : GoString) (pos3 : Nat),
          applyTypoTransposition out src2 pos2 = .done out2 pos3 ∧
          decodeRunes out2 = decodeRunes word ∧
          (encodeRunes (decodeRunes word) = word → out2 = word)) ∧
      (encodeRunes (decodeRunes word) = word → out.length = word.length ∧ out.Perm word) := by
  have hm : r % ((decodeRunes word).length - 1) < (decodeRunes word).length - 1 :=
    Nat.mod_lt _ (by omega)
  obtain ⟨a, ha⟩ : ∃ a, (decodeRunes word).get? (r % ((decodeRunes word).length - 1)) = some a :=
    ⟨_, List.get?_eq_get (by omega)⟩
  obtain ⟨b, hb⟩ :
      ∃ b, (decodeRunes word).get? (r % ((decodeRunes word).length - 1) + 1) = some b :=
    ⟨_, List.get?_eq_get (by omega)⟩
  obtain ⟨pos1, hrun⟩ := applyTypoTransposition_run word hn src pos r hsrc a b ha hb
  have hperm := swap_perm (decodeRunes word) _ a b ha hb
  have hscalar : ∀ x ∈ ((decodeRunes word).set (r % ((decodeRunes word).length - 1)) b).set
      (r % ((decodeRunes word).length - 1) + 1) a,
      x < 0xD800 ∨ (0xE000 ≤ x ∧ x ≤ 0x10FFFF) :=
    fun x hx => decodeRunes_scalar word x (hperm.mem_iff.1 hx)
  have hdec := decodeRunes_encodeRunes _ hscalar
  have hlen := swap_length (decodeRunes word) (r % ((decodeRunes word).length - 1)) a b
  refine ⟨_, pos1, hrun, by omega, ?_, ?_, ?_, ?_, ?_, ?_⟩
  · intro i hi
    exact ⟨i, Nat.mod_eq_of_lt (by omega)⟩
  · intro j
    rw [hdec, swap_get? _ _ a b ha hb, ha, hb]
  · rw [hdec, hlen]
  · rw [hdec]
    exact hperm
  · intro src2 pos2 hsrc2
    have h1 : (decodeRunes (encodeRunes (((decodeRunes word).set
        (r % ((decodeRunes word).length - 1)) b).set
        (r % ((decodeRunes word).length - 1) + 1) a))).get?
        (r % ((decodeRunes (encodeRunes (((decodeRunes word).set
          (r % ((decodeRunes word).length - 1)) b).set
          (r % ((decodeRunes word).length - 1) + 1) a))).length - 1)) = some b := by
      rw [hdec, hlen, swap_get? _ _ a b ha hb, if_pos rfl]
    have h2 : (decodeRunes (encodeRunes (((decodeRunes word).set
        (r % ((decodeRunes word).length - 1)) b).set
        (r % ((decodeRunes word).length - 1) + 1) a))).get?
        (r % ((decodeRunes (encodeRunes (((decodeRunes word).set
          (r % ((decodeRunes word).length - 1)) b).set
          (r % ((decodeRunes word).length - 1) + 1) a))).length - 1) + 1) = some a := by
      rw [hdec, hlen, swap_get? _ _ a b ha hb, if_neg (by omega), if_pos rfl]
    obtain ⟨pos3, hrun2⟩ := applyTypoTransposition_run _ (by rw [hdec, hlen]; exact hn)
      src2 pos2 r hsrc2 b a h1 h2
    rw [hdec, hlen, swap_swap _ _ a b ha hb] at hrun2
    exact ⟨_, pos3, hrun2, decodeRunes_encodeRunes _ (decodeRunes_scalar word), fun h => h⟩
  · intro hwf
    have hp : (encodeRunes (((decodeRunes word).set
        (r % ((decodeRunes word).length - 1)) b).set
        (r % ((decodeRunes word).length - 1) + 1) a)).Perm word := by
      have hp1 : (encodeRunes (((decodeRunes word).set
          (r % ((decodeRunes word).length - 1)) b).set
          (r % ((decodeRunes word).length - 1) + 1) a)).Perm
          (encodeRunes (decodeRunes word)) := by
        unfold encodeRunes
        exact List.Perm.flatMap_right _ hperm
      rw [hwf] at hp1
      exact hp1
    exact ⟨hp.length_eq, hp⟩

/-- C19 (witness): the word "haus" and the raw outcome 5 give the index 2 and the result
"hasu"; the same draw applied to "hasu" gives "haus" again. -/
theorem applyTypoTransposition_exchange_witness :
    (2 ≤ (decodeRunes (lit "haus")).length ∧ constSource 5 0 = some 5 ∧
      encodeRunes (decodeRunes (lit "haus")) = lit "haus" ∧
      applyTypoTransposition (lit "haus") (constSource 5) 0 = .done (lit "hasu") 1 ∧
      applyTypoTransposition (lit "hasu") (constSource 5) 0 = .done (lit "haus") 1) ∧
    (∃ (out : GoString) (pos1 : Nat),
      applyTypoTransposition (lit "haus") (constSource 5) 0 = .done out pos1 ∧
      5 % ((decodeRunes (lit "haus")).length - 1) ≤ (decodeRunes (lit "haus")).length - 2 ∧
      (∀ i, i ≤ (decodeRunes (lit "haus")).length - 2 →
        ∃ r1, r1 % ((decodeRunes (lit "haus")).length - 1) = i) ∧
      (∀ j, (decodeRunes out).get? j =
        if j = 5 % ((decodeRunes (lit "haus")).length - 1) then
          (decodeRunes (lit "haus")).get? (5 % ((decodeRunes (lit "haus")).length - 1) + 1)
        else if j = 5 % ((decodeRunes (lit "haus")).length - 1) + 1 then
          (decodeRunes (lit "haus")).get? (5 % ((decodeRunes (lit "haus")).length - 1))
        else (decodeRunes (lit "haus")).get? j) ∧
      (decodeRunes out).length = (decodeRunes (lit "haus")).length ∧
      (decodeRunes out).Perm (decodeRunes (lit "haus")) ∧
      (∀ (src2 : Source) (pos2 : Nat), src2 pos2 = some 5 →
        ∃ (out2 : GoString) (pos3 : Nat),
          applyTypoTransposition out src2 pos2 = .done out2 pos3 ∧
          decodeRunes out2 = decodeRunes (lit "haus") ∧
          (encodeRunes (decodeRunes (lit "haus")) = lit "haus" → out2 = lit "haus")) ∧
      (encodeRunes (decodeRunes (lit "haus")) = lit "haus" →
        out.length = (lit "haus").length ∧ out.Perm (lit "haus"))) :=
  ⟨⟨by decide, rfl, by decide, by decide, by decide⟩,
   applyTypoTransposition_exchange (lit "haus") (constSource 5) 0 5 (by decide) rfl⟩


/-! ## The result of Generate and the empty word -/

theorem shouldApplyTypo_pos (rate : Rate) (hgt : rate.gtZero = true) (src : Source)
    (pos pos1 : Nat) (hit : Bool) (h : shouldApplyTypo rate src pos = .done hit pos1) :
    pos1 = pos + 1 := by
  have hle : rate.leZero = false := by
    cases hl : rate.leZero with
    | false => rfl
    | true =>
      rw [leZero_not_gtZero rate hl] at hgt
      cases hgt
  unfold shouldApplyTypo at h
  rw [hle] at h
  simp only [Bool.false_eq_true, if_false] at h
  obtain ⟨n, p, hn, hk⟩ := bind_done_inv _ _ _ _ _ _ h
  unfold randInt at hn
  rw [if_neg (by omega), if_neg (by omega)] at hn
  have hp : p = pos + 1 := by
    cases hs : src pos with
    | none =>
      rw [hs] at hn
      injection hn with _ hp
      exact hp.symm
    | some r =>
      rw [hs] at hn
      injection hn with _ hp
      exact hp.symm
  subst hp
  cases n with
  | none =>
    simp only at hk
    rw [pure_eq] at hk
    injection hk with _ hk
    exact hk.symm
  | some v =>
    simp only at hk
    rw [pure_eq] at hk
    injection hk with _ hk
    exact hk.symm

/-- A run of the typo logic of a slot: either the slot is recorded and the word returned
is the one `applyTypoTransposition` returned for the drawn word, called after the draw of
the trial, or the slot is not recorded and the word is the drawn word. -/
theorem typoLogic_run (g : Generator) (i : Int) (st : State) (w : GoString) (src : Source)
    (pos pos1 : Nat) (word : GoString) (ta : Bool) (tr : Trace)
    (h : typoLogic g i st w src pos = .done (word, ta, tr) pos1) :
    (tr.typoSlots = st.trace.typoSlots ++ [i] ∧
      applyTypoTransposition w src (pos + 1) = .done word pos1) ∨
    (tr.typoSlots = st.trace.typoSlots ∧ word = w ∧ (pos1 = pos ∨ pos1 = pos + 1)) := by
  unfold typoLogic at h
  by_cases hc : (!st.typoApplied && g.config.TypoRate.gtZero) = true
  · rw [if_pos hc] at h
    have hc1 : st.typoApplied = false ∧ g.config.TypoRate.gtZero = true := by
      simpa using hc
    obtain ⟨hit, p, hs, hk⟩ := bind_done_inv _ _ _ _ _ _ h
    have hp := shouldApplyTypo_pos _ hc1.2 src pos p hit hs
    subst hp
    by_cases hh : (hit || decide (i = g.config.WordCount - 1)) = true
    · simp only at hk
      rw [if_pos hh] at hk
      obtain ⟨tw, p3, ht, hk2⟩ := bind_done_inv _ _ _ _ _ _ hk
      rw [pure_eq] at hk2
      injection hk2 with hv hp
      injection hv with hv1 hv2
      injection hv2 with hv2 hv3
      subst hp
      subst hv1
      subst hv3
      exact Or.inl ⟨rfl, ht⟩
    · simp only at hk
      rw [if_neg hh, pure_eq] at hk
      injection hk with hv hp
      injection hv with hv1 hv2
      injection hv2 with hv2 hv3
      subst hv3
      exact Or.inr ⟨rfl, hv1.symm, Or.inr hp.symm⟩
  · rw [if_neg hc, pure_eq] at h
    injection h with hv hp
    injection hv with hv1 hv2
    injection hv2 with hv2 hv3
    subst hv3
    exact Or.inr ⟨rfl, hv1.symm, Or.inl hp.symm⟩

/-- A run of one iteration of the word loop: the chunk appended is the capitalization of
the transposed word when the slot is recorded as the typo slot, and of the drawn word
itself when it is not. -/
theorem wordStep_run (tbl : CaseTables) (g : Generator) (i : Int) (st st1 : State)
    (src : Source) (pos pos1 : Nat)
    (h : wordStep tbl g i st src pos = .done (.ok st1) pos1) :
    ∃ chunk, st1.wordChunks = st.wordChunks ++ [chunk] ∧
      ((st1.trace.typoSlots = st.trace.typoSlots ++ [i] ∧ TypoChunk tbl g src chunk) ∨
        (st1.trace.typoSlots = st.trace.typoSlots ∧ PlainChunk tbl g src chunk)) := by
  unfold wordStep at h
  obtain ⟨⟨w, err⟩, p1, hw, hk⟩ := bind_done_inv _ _ _ _ _ _ h
  cases err with
  | some e =>
    simp only at hk
    rw [pure_eq] at hk
    injection hk with hk _
    cases hk
  | none =>
    simp only at hk
    obtain ⟨⟨word, ta, tr⟩, p2, ht, hk2⟩ := bind_done_inv _ _ _ _ _ _ hk
    simp only at hk2
    obtain ⟨chunk, p3, hcap, hk3⟩ := bind_done_inv _ _ _ _ _ _ hk2
    rw [pure_eq] at hk3
    injection hk3 with hv hp
    injection hv with hv
    subst hv
    subst hp
    refine ⟨chunk, rfl, ?_⟩
    rcases typoLogic_run g i st w src p1 p2 word ta tr ht with ⟨hslots, htypo⟩ | ⟨hslots, hword, hpos⟩
    · exact Or.inl ⟨hslots, w, word, pos, p1, p2, p3, hw, htypo, hcap⟩
    · subst hword
      exact Or.inr ⟨hslots, word, pos, p1, p2, p3, hw, hpos, hcap⟩

/-- The chunks appended by the word loop follow the record of the typo slots. -/
theorem wordLoop_slots (tbl : CaseTables) (g : Generator) (k : Nat) (i : Int) (st st1 : State)
    (src : Source) (pos pos1 : Nat)
    (hrun : wordLoop tbl g k i st src pos = .done (.ok st1) pos1)
    (hlt : ∀ x ∈ st.trace.typoSlots, x < i) :
    (∀ x ∈ st1.trace.typoSlots, x < i + k) ∧
    (∀ x, x < i → (x ∈ st1.trace.typoSlots ↔ x ∈ st.trace.typoSlots)) ∧
    ∃ new : List GoString, st1.wordChunks = st.wordChunks ++ new ∧ new.length = k ∧
      ∀ t : Nat, t < k → ∃ chunk, new.get? t = some chunk ∧
        ((i + (t : Int) ∈ st1.trace.typoSlots → TypoChunk tbl g src chunk) ∧
          (i + (t : Int) ∉ st1.trace.typoSlots → PlainChunk tbl g src chunk)) := by
  induction k generalizing i st pos with
  | zero =>
    unfold wordLoop at hrun
    rw [pure_eq] at hrun
    injection hrun with hst _
    injection hst with hst
    subst hst
    refine ⟨fun x hx => by simpa using hlt x hx, fun x _ => Iff.rfl, [], by simp, rfl, ?_⟩
    intro t ht
    omega
  | succ k ih =>
    unfold wordLoop at hrun
    obtain ⟨r, p0, hstep, hk⟩ := bind_done_inv _ _ _ _ _ _ hrun
    cases r with
    | error e =>
      simp only at hk
      rw [pure_eq] at hk
      injection hk with hk _
      cases hk
    | ok st0 =>
      simp only at hk
      obtain ⟨chunk, hchunks, hcase⟩ := wordStep_run tbl g i st st0 src pos p0 hstep
      have hlt0 : ∀ x ∈ st0.trace.typoSlots, x < i + 1 := by
        intro x hx
        rcases hcase with ⟨hs, -⟩ | ⟨hs, -⟩
        · rw [hs] at hx
          rcases List.mem_append.1 hx with h1 | h1
          · have := hlt x h1
            omega
          · rw [List.mem_singleton] at h1
            omega
        · rw [hs] at hx
          have := hlt x hx
          omega
      obtain ⟨ha, hb, new, hnew, hlen, hslots⟩ := ih (i + 1) st0 p0 hk hlt0
      have hi0 : i ∈ st0.trace.typoSlots ↔ i ∈ st1.trace.typoSlots := (hb i (by omega)).symm
      refine ⟨?_, ?_, chunk :: new, ?_, ?_, ?_⟩
      · intro x hx
        have := ha x hx
        push_cast
        omega
      · intro x hx
        rw [hb x (by omega)]
        rcases hcase with ⟨hs, -⟩ | ⟨hs, -⟩
        · rw [hs, List.mem_append, List.mem_singleton]
          constructor
          · rintro (h1 | h1)
            · exact h1
            · omega
          · exact Or.inl
        · rw [hs]
      · rw [hnew, hchunks, List.append_assoc]
        rfl
      · rw [List.length_cons, hlen]
      · intro t ht
        cases t with
        | zero =>
          refine ⟨chunk, rfl, ?_⟩
          simp only [Nat.cast_zero, add_zero]
          rcases hcase with ⟨hs, hty⟩ | ⟨hs, hpl⟩
          · refine ⟨fun _ => hty, fun hn => ?_⟩
            exfalso
            apply hn
            rw [← hi0, hs]
            exact List.mem_append_right _ (List.mem_singleton.2 rfl)
          · refine ⟨fun hm => ?_, fun _ => hpl⟩
            exfalso
            rw [← hi0, hs] at hm
            have := hlt i hm
            omega
        | succ t =>
          obtain ⟨c, hc, h1, h2⟩ := hslots t (by omega)
          have hcast : i + ((t + 1 : Nat) : Int) = i + 1 + (t : Int) := by
            push_cast
            ring
          refine ⟨c, hc, ?_, ?_⟩
          · rw [hcast]
            exact h1
          · rw [hcast]
            exact h2

theorem wordLoop_chunksFollowTypo (tbl : CaseTables) (g : Generator) (src : Source)
    (pos pos1 : Nat) (st : State)
    (hrun : wordLoop tbl g g.config.WordCount.toNat 0 initialState src pos =
      .done (.ok st) pos1) : ChunksFollowTypo tbl g src st := by
  obtain ⟨-, -, new, hnew, hlen, hslots⟩ :=
    wordLoop_slots tbl g _ 0 initialState st src pos pos1 hrun (by simp [initialState])
  have hchunks : st.wordChunks = new := by
    rw [hnew]
    rfl
  unfold ChunksFollowTypo
  rw [hchunks]
  refine ⟨hlen, ?_⟩
  intro t ht
  obtain ⟨c, hc, h1, h2⟩ := hslots t ht
  rw [zero_add] at h1 h2
  exact ⟨c, hc, h1, h2⟩

/-- C2: for a word count of at least 1, in every run of `Generate` that completes the
word loop, and so in every run that reaches the final assembly: with `typoRate > 0`,
`applyTypoTransposition` is applied at exactly one slot, the first slot whose trial
succeeds or else the last slot; with `typoRate <= 0` it is applied at no slot. The chunk
of that slot is the capitalization of the word that `applyTypoTransposition` returned for
the word drawn, the chunk of every other slot is the capitalization of the word drawn,
and these word chunks are, in their order, among the chunks that are joined. With an
entropy source that does not fail, a non-empty word set and no word on which the
transposition panics, the word loop completes. -/
theorem typo_exactly_one_slot (tbl : CaseTables) (g : Generator)
    (hw : 1 ≤ g.config.WordCount) :
    (∀ (src : Source) (pos : Nat) (st : State) (pos1 : Nat),
      wordLoop tbl g g.config.WordCount.toNat 0 initialState src pos = .done (.ok st) pos1 →
        TypoAtOneSlot g st ∧ ChunksFollowTypo tbl g src st) ∧
    (∀ (src : Source) (pos : Nat) (st : State) (pos1 : Nat),
      generateState tbl g src pos = .done (.ok st) pos1 →
        TypoAtOneSlot g st ∧
        ∃ st0 pos0,
          wordLoop tbl g g.config.WordCount.toNat 0 initialState src pos =
            .done (.ok st0) pos0 ∧
          st.trace.typoSlots = st0.trace.typoSlots ∧ ChunksFollowTypo tbl g src st0 ∧
          st0.wordChunks.Sublist st.wordChunks) ∧
    (∀ src : Source, NeverFails src → g.filteredWords ≠ [] →
      (∀ w ∈ g.filteredWords, 2 ≤ w.length → 2 ≤ (decodeRunes w).length) →
      ∀ pos : Nat, ∃ (st : State) (pos1 : Nat),
        wordLoop tbl g g.config.WordCount.toNat 0 initialState src pos = .done (.ok st) pos1) := by
  refine ⟨?_, ?_, ?_⟩
  · intro src pos st pos1 hrun
    exact ⟨wordLoop_typoAtOneSlot tbl g hw src pos _ pos1 hrun st rfl,
      wordLoop_chunksFollowTypo tbl g src pos pos1 st hrun⟩
  · intro src pos st pos1 hrun
    rcases hp : parseDigitRange g.config.DigitRange with ⟨mn, mx, err⟩
    cases err with
    | some e =>
      exact absurd rfl (generateState_error tbl g (by rw [hp]; simp) src pos _ pos1 hrun st)
    | none =>
      obtain ⟨h1, h2, h3⟩ := parseDigitRange_range _ _ _ hp
      obtain ⟨st0, pos0, hword, hsep⟩ := generateState_run tbl g mn mx hp src pos pos1 st hrun
      have hinv := wordLoop_typoAtOneSlot tbl g hw src pos _ pos0 hword st0 rfl
      obtain ⟨hs, ht, -⟩ :=
        separatorLoop_post _ mn mx h1 h2 h3 _ st0 src pos0 _ pos1 hsep st rfl
      obtain ⟨t1, t2, -⟩ := chunksMarked_words st0.wordChunks
      obtain ⟨tagged, blocks, q1, q2, -⟩ :=
        separatorLoop_post_tagged _ mn mx _ st0 _ t1 src pos0 _ pos1 hsep st rfl
      refine ⟨?_, st0, pos0, hword, hs, wordLoop_chunksFollowTypo tbl g src pos pos0 st0 hword, ?_⟩
      · unfold TypoAtOneSlot at hinv ⊢
        rw [hs, ht]
        exact hinv
      · rw [← q1, ← t2, ← q2]
        unfold chunksMarked
        exact (List.filter_sublist _).map _
  · intro src hsrc hne hgood pos
    obtain ⟨r, pos1, hrun, st, hst⟩ :=
      wordLoop_sure src hsrc tbl g hne (fun _ => hgood) g.config.WordCount.toNat 0 initialState pos
    exact ⟨st, pos1, by rw [hrun, hst]⟩

/-- C2 (witness): for `sampleGenerator` (two words, a positive typo rate) the run over
`sampleSource` has two failed trials and applies the typo at the last slot, slot 1: the
word "boot" drawn for it is turned into "obot" by `applyTypoTransposition` and then
capitalized to the chunk "Obot", while the chunk "Haus" of slot 0 is the capitalization
of the drawn word "haus". -/
theorem typo_exactly_one_slot_witness :
    ((1 : Int) ≤ sampleGenerator.config.WordCount ∧
      sampleGenerator.config.TypoRate.gtZero = true ∧
      (∃ st, generateState latin1 sampleGenerator sampleSource 0 = .done (.ok st) 6 ∧
        st.trace.typoSlots = [1] ∧ st.trace.trials = [(0, false), (1, false)] ∧
        st.wordChunks = [lit "Haus", lit "!42!", lit "Obot"]) ∧
      (getRandomWord sampleGenerator sampleSource 0 = .done (lit "haus", none) 1 ∧
        applyCapitalization latin1 (lit "haus") sampleGenerator.config.CapsMode sampleSource 2 =
          .done (lit "Haus") 2) ∧
      (getRandomWord sampleGenerator sampleSource 2 = .done (lit "boot", none) 3 ∧
        applyTypoTransposition (lit "boot") sampleSource 4 = .done (lit "obot") 5 ∧
        applyCapitalization latin1 (lit "obot") sampleGenerator.config.CapsMode sampleSource 5 =
          .done (lit "Obot") 5)) ∧
    ((∀ (src : Source) (pos : Nat) (st : State) (pos1 : Nat),
      wordLoop latin1 sampleGenerator sampleGenerator.config.WordCount.toNat 0 initialState
          src pos = .done (.ok st) pos1 →
        TypoAtOneSlot sampleGenerator st ∧ ChunksFollowTypo latin1 sampleGenerator src st) ∧
    (∀ (src : Source) (pos : Nat) (st : State) (pos1 : Nat),
      generateState latin1 sampleGenerator src pos = .done (.ok st) pos1 →
        TypoAtOneSlot sampleGenerator st ∧
        ∃ st0 pos0,
          wordLoop latin1 sampleGenerator sampleGenerator.config.WordCount.toNat 0 initialState
            src pos = .done (.ok st0) pos0 ∧
          st.trace.typoSlots = st0.trace.typoSlots ∧
          ChunksFollowTypo latin1 sampleGenerator src st0 ∧
          st0.wordChunks.Sublist st.wordChunks) ∧
    (∀ src : Source, NeverFails src → sampleGenerator.filteredWords ≠ [] →
      (∀ w ∈ sampleGenerator.filteredWords, 2 ≤ w.length → 2 ≤ (decodeRunes w).length) →
      ∀ pos : Nat, ∃ (st : State) (pos1 : Nat),
        wordLoop latin1 sampleGenerator sampleGenerator.config.WordCount.toNat 0 initialState
          src pos = .done (.ok st) pos1)) :=
  ⟨⟨by decide, by decide,
    ⟨⟨true, [lit "Haus", lit "!42!", lit "Obot"],
      ⟨[1], [(0, false), (1, false)], [lit "!42!"]⟩⟩, by decide, rfl, rfl, rfl⟩,
    by decide, by decide⟩,
   typo_exactly_one_slot latin1 sampleGenerator (by decide)⟩

end generator
